import Mathlib

/-!
# HerLang front end: parser (`parser.cpp`)

A shallow embedding of the recursive-descent parser of `src/HerLangCompiler/parser.cpp`.

* The two file-level globals `toks` and `pos` become explicit arguments: every operation
  takes the token list and the cursor position and returns the new position.
* A C++ exception becomes `Outcome.error`, which keeps the message and the cursor position
  the global `pos` holds when the exception is thrown.
* The mutually recursive functions `parse_statement`, `parse_for_statement` and
  `parse_block` take a `fuel` argument that bounds the depth of the call chain and the
  number of loop iterations; `Outcome.outOfFuel` is the result of a run the bound cut
  short.  It is shown below that the fuel `parse` uses always suffices.
-/

namespace HerLang

/-! ## Data model -/

/-- Token kinds (`TokenType` of the lexer header, as listed by the debug switch of
`parse_statement`). -/
inductive TokenType where
  | Keyword
  | Identifier
  | StringLiteral
  | Newline
  | EOFToken
  | Symbol
  deriving DecidableEq, Repr, Inhabited

/-- A token: a kind and a string payload. -/
structure Token where
  type : TokenType
  value : String
  deriving DecidableEq, Repr, Inhabited

/-- The statement variants built by the parser (constructor arguments in the order of the
`make_shared` calls). -/
inductive Statement where
  | ForStatement (var : String) (start : Int) (end_ : Int) (body : List Statement)
  | FunctionDef (name : String) (param : String) (body : List Statement)
  | StartBlock (body : List Statement)
  | SayStatement (args : List String) (is_vars : List Bool) (ending : String)
  | SetStatement (var : String)
  | FunctionCall (func : String) (arg : String) (arg_type : TokenType)
  deriving Repr, Inhabited

/-- The tree `parse` returns: the top-level statements in order. -/
structure AST where
  statements : List Statement
  deriving Repr, Inhabited

/-- Result of a parsing operation started at some cursor position: a value and the new
position, or an exception and the position at the throw, or a run cut short by the fuel
bound of the embedding. -/
inductive Outcome (α : Type) where
  | ok (val : α) (pos : Nat)
  | error (msg : String) (pos : Nat)
  | outOfFuel
  deriving Repr

/-! ## Token cursor -/

/-- Embeds `dummy_eof_token`. -/
def dummy_eof_token : Token := { type := TokenType.EOFToken, value := "" }

/-- Embeds `peek`: the token at `pos`, or the sentinel past the end. -/
def peek (toks : List Token) (pos : Nat) : Token :=
  if h : pos ≥ toks.length then dummy_eof_token
  else toks.get ⟨pos, Nat.lt_of_not_le h⟩

/-- Embeds `advance`: the token at `pos` and the position after it; past the end the
sentinel and the unchanged position. -/
def advance (toks : List Token) (pos : Nat) : Token × Nat :=
  if h : pos ≥ toks.length then (dummy_eof_token, pos)
  else (toks.get ⟨pos, Nat.lt_of_not_le h⟩, pos + 1)

/-- The loop of `skip_newlines`, run at most `n` times. -/
def skip_newlines_loop (toks : List Token) : Nat → Nat → Nat
  | 0, pos => pos
  | n + 1, pos =>
    if (peek toks pos).type = TokenType.Newline then
      skip_newlines_loop toks n (advance toks pos).2
    else pos

/-- Embeds `skip_newlines`.  Every iteration advances over a real token, so the loop runs
at most `toks.length - pos` times (`skip_newlines_unfold` below is the loop equation). -/
def skip_newlines (toks : List Token) (pos : Nat) : Nat :=
  skip_newlines_loop toks (toks.length - pos) pos

/-! ## `std::stoi` -/

/-- The characters `isspace` accepts in the C locale. -/
def isspace (c : Char) : Bool :=
  c = ' ' || c = '\t' || c = '\n' || c = '\x0b' || c = '\x0c' || c = '\r'

/-- Value of a string of decimal digits. -/
def digitsValue (ds : List Char) : Nat :=
  ds.foldl (fun acc c => acc * 10 + (c.toNat - 48)) 0

/-- Model of the standard library's `std::stoi(s)` (base 10, 32-bit `int`): leading white
space is skipped, one optional sign is read, then the longest run of decimal digits.
`none` stands for the exception (`invalid_argument` when there is no digit, `out_of_range`
when the value does not fit an `int`). -/
def stoi (s : String) : Option Int :=
  let cs := s.toList.dropWhile isspace
  let signed : Bool × List Char :=
    match cs with
    | '-' :: r => (true, r)
    | '+' :: r => (false, r)
    | _ => (false, cs)
  let ds := signed.2.takeWhile Char.isDigit
  if ds = [] then none
  else
    let v : Int := if signed.1 then -(digitsValue ds : Int) else (digitsValue ds : Int)
    if -2147483648 ≤ v ∧ v ≤ 2147483647 then some v else none

/-! ## The parser -/

/-- The loop of the `say` branch of `parse_statement`, run at most `n` times; `pos` is the
cursor, `args` and `is_vars` the two vectors built so far.  The size check and the
`make_shared` that follow the loop are made at the two `break`s.  The statement's default
ending is the two characters backslash, n. -/
def say_loop (toks : List Token) :
    Nat → Nat → List String → List Bool → Outcome (Option Statement)
  | 0, _, _, _ => Outcome.outOfFuel
  | n + 1, pos, args, is_vars =>
    let next := peek toks pos
    if next.type = TokenType.Keyword ∧ next.value = "end" then
      let pos1 := (advance toks pos).2
      let eq := peek toks pos1
      if eq.type ≠ TokenType.Symbol ∨ eq.value ≠ "=" then
        Outcome.error "Expected '=' after 'end'" pos1
      else
        let pos2 := (advance toks pos1).2
        let val := peek toks pos2
        if val.type ≠ TokenType.StringLiteral then
          Outcome.error "Expected string literal after end=" pos2
        else
          let ending := (advance toks pos2).1.value
          let pos3 := (advance toks pos2).2
          if args.length ≠ is_vars.length then
            Outcome.error "Internal error: say args/vars mismatch." pos3
          else Outcome.ok (some (Statement.SayStatement args is_vars ending)) pos3
    else if next.type = TokenType.Newline ∨ next.type = TokenType.EOFToken then
      let pos1 := (advance toks pos).2
      if args.length ≠ is_vars.length then
        Outcome.error "Internal error: say args/vars mismatch." pos1
      else Outcome.ok (some (Statement.SayStatement args is_vars "\\n")) pos1
    else if next.type = TokenType.StringLiteral ∨ next.type = TokenType.Identifier then
      let arg := (advance toks pos).1
      let pos1 := (advance toks pos).2
      let args1 := args ++ [arg.value]
      let is_vars1 := is_vars ++ [decide (arg.type = TokenType.Identifier)]
      let comma := peek toks pos1
      if comma.type = TokenType.Symbol ∧ comma.value = "," then
        say_loop toks n (advance toks pos1).2 args1 is_vars1
      else say_loop toks n pos1 args1 is_vars1
    else
      Outcome.error ("Unexpected token in 'say': " ++ next.value) pos

/-- The `say` branch of `parse_statement`, entered with the cursor on the keyword.  An
iteration that neither ends the statement nor throws advances the cursor, and past the end
of the tokens the statement ends, so the loop runs at most `toks.length - pos + 1` times
(`say_loop_total` below). -/
def parse_say (toks : List Token) (pos : Nat) : Outcome (Option Statement) :=
  let pos1 := (advance toks pos).2
  say_loop toks (toks.length - pos1 + 1) pos1 [] []

mutual

/-- The loop of `parse_block`: `body` and `safety_counter` are its two locals. -/
def parse_block_loop :
    Nat → List Token → Nat → List Statement → Nat → Outcome (List Statement)
  | 0, _, _, _, _ => Outcome.outOfFuel
  | fuel + 1, toks, pos, body, safety_counter =>
    let pos1 := skip_newlines toks pos
    let current := peek toks pos1
    if current.type = TokenType.Keyword ∧ current.value = "end" then
      Outcome.ok body (advance toks pos1).2
    else if current.type = TokenType.EOFToken then
      Outcome.error "Unexpected end of file inside block." pos1
    else
      match parse_statement fuel toks pos1 with
      | Outcome.outOfFuel => Outcome.outOfFuel
      | Outcome.error msg p => Outcome.error msg p
      | Outcome.ok (some stmt) pos2 =>
        if safety_counter + 1 > 10000 then
          Outcome.error "Too many statements parsed without encountering 'end'" pos2
        else parse_block_loop fuel toks pos2 (body ++ [stmt]) (safety_counter + 1)
      | Outcome.ok none pos2 =>
        let pos3 := (advance toks pos2).2
        if safety_counter + 1 > 10000 then
          Outcome.error "Too many statements parsed without encountering 'end'" pos3
        else parse_block_loop fuel toks pos3 body (safety_counter + 1)
termination_by structural fuel _ _ _ _ => fuel

/-- Embeds `parse_for_statement`, entered with the cursor on the keyword `for`. -/
def parse_for_statement : Nat → List Token → Nat → Outcome (Option Statement)
  | 0, _, _ => Outcome.outOfFuel
  | fuel + 1, toks, pos =>
    let pos1 := (advance toks pos).2
    let var_token := (advance toks pos1).1
    let pos2 := (advance toks pos1).2
    if var_token.type ≠ TokenType.Identifier then
      Outcome.error "Expected identifier after 'for'" pos2
    else
      let from_token := (advance toks pos2).1
      let pos3 := (advance toks pos2).2
      if from_token.type ≠ TokenType.Keyword ∨ from_token.value ≠ "from" then
        Outcome.error "Expected 'from' after loop variable" pos3
      else
        let start_token := (advance toks pos3).1
        let pos4 := (advance toks pos3).2
        match stoi start_token.value with
        | none => Outcome.error "Expected number after 'from'" pos4
        | some start =>
          let to_token := (advance toks pos4).1
          let pos5 := (advance toks pos4).2
          if to_token.type ≠ TokenType.Keyword ∨ to_token.value ≠ "to" then
            Outcome.error "Expected 'to' after start value" pos5
          else
            let end_token := (advance toks pos5).1
            let pos6 := (advance toks pos5).2
            match stoi end_token.value with
            | none => Outcome.error "Expected number after 'to'" pos6
            | some end_ =>
              let pos7 := skip_newlines toks pos6
              match parse_block_loop fuel toks pos7 [] 0 with
              | Outcome.outOfFuel => Outcome.outOfFuel
              | Outcome.error msg p => Outcome.error msg p
              | Outcome.ok body p =>
                Outcome.ok (some (Statement.ForStatement var_token.value start end_ body)) p
termination_by structural fuel _ _ => fuel

/-- Embeds `parse_statement`; `none` is the null pointer. -/
def parse_statement : Nat → List Token → Nat → Outcome (Option Statement)
  | 0, _, _ => Outcome.outOfFuel
  | fuel + 1, toks, pos =>
    let pos0 := skip_newlines toks pos
    let tok := peek toks pos0
    if tok.type = TokenType.EOFToken then
      Outcome.ok none pos0
    else if tok.type = TokenType.Keyword ∧ tok.value = "for" then
      parse_for_statement fuel toks pos0
    else if tok.type = TokenType.Keyword ∧ tok.value = "function" then
      let pos1 := (advance toks pos0).2
      let name := (advance toks pos1).1
      let pos2 := (advance toks pos1).2
      let maybe_param_or_colon := (advance toks pos2).1
      let pos3 := (advance toks pos2).2
      if maybe_param_or_colon.type = TokenType.Symbol ∧ maybe_param_or_colon.value = ":" then
        match parse_block_loop fuel toks pos3 [] 0 with
        | Outcome.outOfFuel => Outcome.outOfFuel
        | Outcome.error msg p => Outcome.error msg p
        | Outcome.ok body p => Outcome.ok (some (Statement.FunctionDef name.value "" body)) p
      else
        let param := maybe_param_or_colon.value
        let colon := (advance toks pos3).1
        let pos4 := (advance toks pos3).2
        if colon.value ≠ ":" then
          Outcome.error "Expected ':' after parameter in function definition" pos4
        else
          match parse_block_loop fuel toks pos4 [] 0 with
          | Outcome.outOfFuel => Outcome.outOfFuel
          | Outcome.error msg p => Outcome.error msg p
          | Outcome.ok body p =>
            Outcome.ok (some (Statement.FunctionDef name.value param body)) p
    else if tok.type = TokenType.Keyword ∧ tok.value = "start" then
      let pos1 := (advance toks pos0).2
      let colon := (advance toks pos1).1
      let pos2 := (advance toks pos1).2
      if colon.value ≠ ":" then
        Outcome.error "Expected ':' after start" pos2
      else
        match parse_block_loop fuel toks pos2 [] 0 with
        | Outcome.outOfFuel => Outcome.outOfFuel
        | Outcome.error msg p => Outcome.error msg p
        | Outcome.ok body p => Outcome.ok (some (Statement.StartBlock body)) p
    else if tok.type = TokenType.Keyword ∧ tok.value = "say" then
      parse_say toks pos0
    else if tok.type = TokenType.Keyword ∧ tok.value = "set" then
      let pos1 := (advance toks pos0).2
      let var := (advance toks pos1).1
      let pos2 := (advance toks pos1).2
      Outcome.ok (some (Statement.SetStatement var.value)) pos2
    else if tok.type = TokenType.Identifier then
      let func := (advance toks pos0).1
      let pos1 := (advance toks pos0).2
      let next := peek toks pos1
      if next.type = TokenType.StringLiteral ∨ next.type = TokenType.Identifier then
        let arg := (advance toks pos1).1
        let pos2 := (advance toks pos1).2
        Outcome.ok (some (Statement.FunctionCall func.value arg.value arg.type)) pos2
      else
        Outcome.ok (some (Statement.FunctionCall func.value "" TokenType.EOFToken)) pos1
    else
      Outcome.ok none (advance toks pos0).2
termination_by structural fuel _ _ => fuel

end

/-- Embeds `parse_block`: the loop started with an empty body and the counter at 0. -/
def parse_block (fuel : Nat) (toks : List Token) (pos : Nat) : Outcome (List Statement) :=
  parse_block_loop fuel toks pos [] 0

/-- The top-level loop of `parse`, run at most `n` times, each `parse_statement` with
`fuel`; `pos` is the cursor and `statements` the vector of the tree built so far. -/
def parse_loop (fuel : Nat) (toks : List Token) :
    Nat → Nat → List Statement → Outcome AST
  | 0, _, _ => Outcome.outOfFuel
  | n + 1, pos, statements =>
    if pos < toks.length then
      let current := peek toks pos
      if current.type = TokenType.EOFToken then
        Outcome.ok { statements := statements } pos
      else
        match parse_statement fuel toks pos with
        | Outcome.outOfFuel => Outcome.outOfFuel
        | Outcome.error msg p => Outcome.error msg p
        | Outcome.ok (some stmt) pos1 => parse_loop fuel toks n pos1 (statements ++ [stmt])
        | Outcome.ok none pos1 => parse_loop fuel toks n (advance toks pos1).2 statements
    else Outcome.ok { statements := statements } pos

/-- Fuel that suffices for any operation on `toks` (`parse_total` below): three units per
token and three to spare. -/
def parseFuel (toks : List Token) : Nat := 3 * toks.length + 3

/-- Embeds `parse`: the cursor starts at 0 with an empty tree.  An iteration of the loop
that goes on moves the cursor forward, so `toks.length + 1` iterations are never exceeded,
and the result is the one of any run that is not cut short (`parse_ne_outOfFuel`,
`parse_loop_eq_parse` below). -/
def parse (toks : List Token) : Outcome AST :=
  parse_loop (parseFuel toks) toks (toks.length + 1) 0 []

/-! ## The two statement loops, one iteration at a time -/

/-- What one iteration of a loop does: go on with a new loop state, or leave the loop with
an outcome. -/
inductive LoopStep (σ α : Type) where
  | next (state : σ)
  | halt (result : Outcome α)

/-- One iteration of the loop of `parse_block` from the state `(pos, body, safety_counter)`
(`parse_block_loop_iteration` below: the loop is the repetition of this step). -/
def parse_block_iteration (fuel : Nat) (toks : List Token) (pos : Nat)
    (body : List Statement) (safety_counter : Nat) :
    LoopStep (Nat × List Statement × Nat) (List Statement) :=
  let pos1 := skip_newlines toks pos
  let current := peek toks pos1
  if current.type = TokenType.Keyword ∧ current.value = "end" then
    LoopStep.halt (Outcome.ok body (advance toks pos1).2)
  else if current.type = TokenType.EOFToken then
    LoopStep.halt (Outcome.error "Unexpected end of file inside block." pos1)
  else
    match parse_statement fuel toks pos1 with
    | Outcome.outOfFuel => LoopStep.halt Outcome.outOfFuel
    | Outcome.error msg p => LoopStep.halt (Outcome.error msg p)
    | Outcome.ok (some stmt) pos2 =>
      if safety_counter + 1 > 10000 then
        LoopStep.halt
          (Outcome.error "Too many statements parsed without encountering 'end'" pos2)
      else LoopStep.next (pos2, body ++ [stmt], safety_counter + 1)
    | Outcome.ok none pos2 =>
      let pos3 := (advance toks pos2).2
      if safety_counter + 1 > 10000 then
        LoopStep.halt
          (Outcome.error "Too many statements parsed without encountering 'end'" pos3)
      else LoopStep.next (pos3, body, safety_counter + 1)

/-- One iteration of the top-level loop of `parse` from the state `(pos, statements)`
(`parse_loop_iteration` below: the loop is the repetition of this step). -/
def parse_iteration (fuel : Nat) (toks : List Token) (pos : Nat)
    (statements : List Statement) : LoopStep (Nat × List Statement) AST :=
  if pos < toks.length then
    let current := peek toks pos
    if current.type = TokenType.EOFToken then
      LoopStep.halt (Outcome.ok { statements := statements } pos)
    else
      match parse_statement fuel toks pos with
      | Outcome.outOfFuel => LoopStep.halt Outcome.outOfFuel
      | Outcome.error msg p => LoopStep.halt (Outcome.error msg p)
      | Outcome.ok (some stmt) pos1 => LoopStep.next (pos1, statements ++ [stmt])
      | Outcome.ok none pos1 => LoopStep.next ((advance toks pos1).2, statements)
  else LoopStep.halt (Outcome.ok { statements := statements } pos)

/-! ## Vocabulary of the properties -/

mutual

/-- Every `SayStatement` in the statement, at any depth, has as many `args` as `is_vars`. -/
def Statement.sayBalanced : Statement → Bool
  | Statement.ForStatement _ _ _ body => allSayBalanced body
  | Statement.FunctionDef _ _ body => allSayBalanced body
  | Statement.StartBlock body => allSayBalanced body
  | Statement.SayStatement args is_vars _ => args.length == is_vars.length
  | Statement.SetStatement _ => true
  | Statement.FunctionCall _ _ _ => true

/-- Every statement of the list is `sayBalanced`. -/
def allSayBalanced : List Statement → Bool
  | [] => true
  | s :: rest => s.sayBalanced && allSayBalanced rest

end

/-- An ARG of the `say` grammar: a string literal or an identifier. -/
def Token.isArg (t : Token) : Prop :=
  t.type = TokenType.StringLiteral ∨ t.type = TokenType.Identifier

instance (t : Token) : Decidable t.isArg :=
  inferInstanceAs (Decidable (t.type = TokenType.StringLiteral ∨ t.type = TokenType.Identifier))

/-- A keyword token. -/
def kw (v : String) : Token := { type := TokenType.Keyword, value := v }

/-- An identifier token. -/
def ident (v : String) : Token := { type := TokenType.Identifier, value := v }

/-- A string-literal token. -/
def str (v : String) : Token := { type := TokenType.StringLiteral, value := v }

/-- A symbol token. -/
def sym (v : String) : Token := { type := TokenType.Symbol, value := v }

/-- The comma token. -/
def commaToken : Token := { type := TokenType.Symbol, value := "," }

/-- The keyword `say`. -/
def sayToken : Token := { type := TokenType.Keyword, value := "say" }

/-- The keyword `end`. -/
def endToken : Token := { type := TokenType.Keyword, value := "end" }

/-- The symbol `=`. -/
def eqToken : Token := { type := TokenType.Symbol, value := "=" }

/-- The symbol `:`. -/
def colonToken : Token := { type := TokenType.Symbol, value := ":" }

/-- A newline token. -/
def newlineToken : Token := { type := TokenType.Newline, value := "\n" }

/-- The tokens of an argument list: each ARG, followed by a comma where its flag is set. -/
def argTokens : List (Token × Bool) → List Token
  | [] => []
  | (a, true) :: rest => a :: commaToken :: argTokens rest
  | (a, false) :: rest => a :: argTokens rest

/-- The `args` vector the ARG list stands for. -/
def argValues (as : List (Token × Bool)) : List String :=
  as.map (fun a => a.1.value)

/-- The `is_vars` vector the ARG list stands for. -/
def argFlags (as : List (Token × Bool)) : List Bool :=
  as.map (fun a => decide (a.1.type = TokenType.Identifier))

/-- The token is the keyword `end`. -/
def Token.isEnd (t : Token) : Prop :=
  t.type = TokenType.Keyword ∧ t.value = "end"

instance (t : Token) : Decidable t.isEnd :=
  inferInstanceAs (Decidable (t.type = TokenType.Keyword ∧ t.value = "end"))

/-- A token no statement grammar starts with: a symbol, a string literal, or a keyword
other than `for`, `function`, `start`, `say` and `set`. -/
def Token.unrecognised (t : Token) : Prop :=
  t.type = TokenType.Symbol ∨ t.type = TokenType.StringLiteral ∨
    (t.type = TokenType.Keyword ∧ t.value ≠ "for" ∧ t.value ≠ "function" ∧
      t.value ≠ "start" ∧ t.value ≠ "say" ∧ t.value ≠ "set")

instance (t : Token) : Decidable t.unrecognised :=
  inferInstanceAs (Decidable (t.type = TokenType.Symbol ∨ t.type = TokenType.StringLiteral ∨
    (t.type = TokenType.Keyword ∧ t.value ≠ "for" ∧ t.value ≠ "function" ∧
      t.value ≠ "start" ∧ t.value ≠ "say" ∧ t.value ≠ "set")))

/-- The keyword `set`. -/
def setToken : Token := { type := TokenType.Keyword, value := "set" }

/-- A statement that needs no `end`: a `say` with its ARG list and optional `end=` string,
a `set`, or a call with its optional argument. -/
inductive SimpleLine where
  | say (as : List (Token × Bool)) (ending : Option Token)
  | set (v : Token)
  | call (f : Token) (arg : Option Token)

/-- The tokens of the statement, without the newline that ends the line. -/
def SimpleLine.body : SimpleLine → List Token
  | SimpleLine.say as none => sayToken :: argTokens as
  | SimpleLine.say as (some s) => sayToken :: (argTokens as ++ [endToken, eqToken, s])
  | SimpleLine.set v => [setToken, v]
  | SimpleLine.call f none => [f]
  | SimpleLine.call f (some a) => [f, a]

/-- The tokens of the line: the statement and the newline token `nl`. -/
def SimpleLine.tokens (nl : Token) (l : SimpleLine) : List Token :=
  l.body ++ [nl]

/-- The line follows its grammar: ARGs are string literals or identifiers, the `end=` value
is a string literal, the variable of a `set` and the name of a call are identifiers. -/
def SimpleLine.wellFormed : SimpleLine → Prop
  | SimpleLine.say as none => ∀ a ∈ as, a.1.isArg
  | SimpleLine.say as (some s) => (∀ a ∈ as, a.1.isArg) ∧ s.type = TokenType.StringLiteral
  | SimpleLine.set v => v.type = TokenType.Identifier
  | SimpleLine.call f none => f.type = TokenType.Identifier
  | SimpleLine.call f (some a) => f.type = TokenType.Identifier ∧ a.isArg

/-- The statement the line stands for. -/
def SimpleLine.statement : SimpleLine → Statement
  | SimpleLine.say as none => Statement.SayStatement (argValues as) (argFlags as) "\\n"
  | SimpleLine.say as (some s) => Statement.SayStatement (argValues as) (argFlags as) s.value
  | SimpleLine.set v => Statement.SetStatement v.value
  | SimpleLine.call f none => Statement.FunctionCall f.value "" TokenType.EOFToken
  | SimpleLine.call f (some a) => Statement.FunctionCall f.value a.value a.type

/-- How many tokens of the line the statement grammar itself consumes: all of them for a
`say` that runs to the newline, all but the newline otherwise. -/
def SimpleLine.consumed : SimpleLine → Nat
  | SimpleLine.say as none => (argTokens as).length + 2
  | SimpleLine.say as (some _) => (argTokens as).length + 4
  | SimpleLine.set _ => 2
  | SimpleLine.call _ none => 1
  | SimpleLine.call _ (some _) => 2

/-- The tokens of a sequence of lines. -/
def linesTokens (nl : Token) : List SimpleLine → List Token
  | [] => []
  | l :: rest => l.tokens nl ++ linesTokens nl rest

/-- Mapping the value of a successful outcome. -/
def Outcome.map {α β : Type} (f : α → β) : Outcome α → Outcome β
  | Outcome.ok a p => Outcome.ok (f a) p
  | Outcome.error msg p => Outcome.error msg p
  | Outcome.outOfFuel => Outcome.outOfFuel

/-! ## Calls, bodies and the `say` grammar of the specification -/

mutual

/-- Every `FunctionCall` in the statement, at any depth, has the kind of a string literal
or of an identifier as its `arg_type`, or has `EOFToken` and the empty argument. -/
def Statement.callsTagged : Statement → Bool
  | Statement.ForStatement _ _ _ body => allCallsTagged body
  | Statement.FunctionDef _ _ body => allCallsTagged body
  | Statement.StartBlock body => allCallsTagged body
  | Statement.SayStatement _ _ _ => true
  | Statement.SetStatement _ => true
  | Statement.FunctionCall _ arg arg_type =>
    decide (arg_type = TokenType.StringLiteral) || decide (arg_type = TokenType.Identifier) ||
      (decide (arg_type = TokenType.EOFToken) && decide (arg = ""))

/-- Every statement of the list is `callsTagged`. -/
def allCallsTagged : List Statement → Bool
  | [] => true
  | s :: rest => s.callsTagged && allCallsTagged rest

end

/-- The statement owns a body: a `ForStatement`, a `FunctionDef` or a `StartBlock`. -/
def Statement.isBlock : Statement → Bool
  | Statement.ForStatement _ _ _ _ => true
  | Statement.FunctionDef _ _ _ => true
  | Statement.StartBlock _ => true
  | _ => false

/-- The body of a statement that owns one. -/
def Statement.body? : Statement → Option (List Statement)
  | Statement.ForStatement _ _ _ body => some body
  | Statement.FunctionDef _ _ body => some body
  | Statement.StartBlock body => some body
  | _ => none

/-- How the `say` grammar ends on the tokens after the keyword. -/
inductive SayVerdict where
  | accepted
  | unexpectedToken (value : String)
  | expectedEq
  | expectedString
  deriving DecidableEq, Repr

/-- The `say` grammar as the specification words it, scanning the tokens that follow;
`afterArg` tells that an ARG was just read, so that one comma is passed over if it comes
next.  At an argument position, a newline or the end of the input ends the statement; `end`
must be followed by the symbol `=` and then by a string literal, which ends the statement;
a string literal or an identifier is an ARG; any other token is unexpected. -/
def sayScanFrom : Bool → List Token → SayVerdict
  | _, [] => SayVerdict.accepted
  | afterArg, t :: rest =>
    if afterArg = true ∧ t.type = TokenType.Symbol ∧ t.value = "," then sayScanFrom false rest
    else if t.type = TokenType.Keyword ∧ t.value = "end" then
      match rest with
      | [] => SayVerdict.expectedEq
      | eq :: rest' =>
        if eq.type = TokenType.Symbol ∧ eq.value = "=" then
          match rest' with
          | [] => SayVerdict.expectedString
          | s :: _ =>
            if s.type = TokenType.StringLiteral then SayVerdict.accepted
            else SayVerdict.expectedString
        else SayVerdict.expectedEq
    else if t.type = TokenType.Newline ∨ t.type = TokenType.EOFToken then SayVerdict.accepted
    else if t.type = TokenType.StringLiteral ∨ t.type = TokenType.Identifier then
      sayScanFrom true rest
    else SayVerdict.unexpectedToken t.value

/-- The verdict of the `say` grammar on the tokens after the keyword `say`. -/
def sayScan (l : List Token) : SayVerdict := sayScanFrom false l

/-- The outcome the verdict of `sayScan` stands for: a `SayStatement`, or the fatal error
of the verdict. -/
def SayVerdict.agrees (v : SayVerdict) (o : Outcome (Option Statement)) : Prop :=
  match v with
  | SayVerdict.accepted =>
    ∃ args is_vars ending q, o = Outcome.ok (some (Statement.SayStatement args is_vars ending)) q
  | SayVerdict.unexpectedToken value =>
    ∃ q, o = Outcome.error ("Unexpected token in 'say': " ++ value) q
  | SayVerdict.expectedEq => ∃ q, o = Outcome.error "Expected '=' after 'end'" q
  | SayVerdict.expectedString => ∃ q, o = Outcome.error "Expected string literal after end=" q

/-- The body is what a run of `parse_block` on `toks` returned, and that run stopped with
the cursor right after a keyword `end`, past where it started. -/
def bodyClosed (toks : List Token) (body : List Statement) : Prop :=
  ∃ fuel p q, parse_block fuel toks p = Outcome.ok body q ∧ p < q ∧ (peek toks (q - 1)).isEnd

mutual

/-- Every `ForStatement`, `FunctionDef` and `StartBlock` in the statement, at any depth,
holds a body that is `bodyClosed`. -/
def Statement.blocksClosed (toks : List Token) : Statement → Prop
  | Statement.ForStatement _ _ _ body => bodyClosed toks body ∧ allBlocksClosed toks body
  | Statement.FunctionDef _ _ body => bodyClosed toks body ∧ allBlocksClosed toks body
  | Statement.StartBlock body => bodyClosed toks body ∧ allBlocksClosed toks body
  | Statement.SayStatement _ _ _ => True
  | Statement.SetStatement _ => True
  | Statement.FunctionCall _ _ _ => True

/-- Every statement of the list is `blocksClosed`. -/
def allBlocksClosed (toks : List Token) : List Statement → Prop
  | [] => True
  | s :: rest => s.blocksClosed toks ∧ allBlocksClosed toks rest

end

/-- The keywords that start a statement with a body. -/
def Token.opensBlock (t : Token) : Prop :=
  t.type = TokenType.Keyword ∧ (t.value = "for" ∨ t.value = "function" ∨ t.value = "start")

instance (t : Token) : Decidable t.opensBlock :=
  inferInstanceAs (Decidable (t.type = TokenType.Keyword ∧
    (t.value = "for" ∨ t.value = "function" ∨ t.value = "start")))

/-! ## The indentation analyzer (`warnings.cpp`, `utils.cpp`) -/

/-- Embeds `trim` of `utils.cpp` on the characters of the string: the first loop moves
`start` over the leading white space, the second moves `end` back over the trailing white
space without passing `start`, and the result is the substring between them (empty when
the string is empty or all white space). -/
def trim (s : List Char) : List Char :=
  ((s.dropWhile isspace).reverse.dropWhile isspace).reverse

/-- The lines `std::getline` reads from the rest of the source; `cur` holds the characters
of the line being read.  A last line without a newline is read when it has a character;
the end of the source right after a newline, or an empty source, yields no line. -/
def getlines : List Char → List Char → List (List Char)
  | [], cur => if cur = [] then [] else [cur]
  | c :: rest, cur =>
    if c = '\n' then cur :: getlines rest [] else getlines rest (cur ++ [c])

/-- A message of the analyzer, with the numbers it prints. -/
inductive Diagnostic where
  | endWithoutBlock (lineno : Nat)
  | endMismatch (lineno : Nat) (expected_indent : Nat) (indent : Nat)
  | inconsistent (lineno : Nat) (expected_indent : Nat) (indent : Nat)
  | notClosed
  deriving DecidableEq, Repr

/-- The text written to `std::cerr` for the message. -/
def Diagnostic.text : Diagnostic → String
  | Diagnostic.endWithoutBlock lineno =>
    "[Warning] Line " ++ toString lineno ++ ": 'end' without matching block start.\n"
  | Diagnostic.endMismatch lineno expected_indent indent =>
    "[Warning] Line " ++ toString lineno ++ ": 'end' indentation mismatch. Expected " ++
      toString expected_indent ++ " spaces but got " ++ toString indent ++ ".\n"
  | Diagnostic.inconsistent lineno expected_indent indent =>
    "[Warning] Line " ++ toString lineno ++ ": Inconsistent indentation. Expected greater than " ++
      toString expected_indent ++ " spaces but got " ++ toString indent ++ ".\n"
  | Diagnostic.notClosed =>
    "[Warning] EOF: Some blocks not closed properly (missing 'end').\n"

/-- Embeds `trimmed.find(pat) == 0`: the text starts with `pat`. -/
def startsWith (trimmed : List Char) (pat : String) : Bool :=
  decide (trimmed.take pat.length = pat.toList)

/-- The opener test of `check_indentation`. -/
def isOpener (trimmed : List Char) : Bool :=
  startsWith trimmed "function" || startsWith trimmed "start:" || startsWith trimmed "if" ||
    startsWith trimmed "elif" || startsWith trimmed "else"

/-- The count of leading space characters of the line. -/
def leadingSpaces (line : List Char) : Nat :=
  (line.takeWhile (fun c => c = ' ')).length

/-- The body of the loop of `check_indentation` for one line: from the line number and the
stack (top first) to the stack after the line and the messages written for it. -/
def check_line (lineno : Nat) (indent_stack : List Nat) (line : List Char) :
    List Nat × List Diagnostic :=
  let trimmed := trim line
  if trimmed = [] ∨ trimmed.head? = some '#' then (indent_stack, [])
  else
    let indent := leadingSpaces line
    if trimmed = "end".toList then
      match indent_stack with
      | [] => ([], [Diagnostic.endWithoutBlock lineno])
      | expected_indent :: rest =>
        if indent ≠ expected_indent then
          (rest, [Diagnostic.endMismatch lineno expected_indent indent])
        else (rest, [])
    else if isOpener trimmed then (indent :: indent_stack, [])
    else
      match indent_stack with
      | [] => (indent_stack, [])
      | expected_indent :: _ =>
        if indent ≤ expected_indent then
          (indent_stack, [Diagnostic.inconsistent lineno expected_indent indent])
        else (indent_stack, [])

/-- The loop of `check_indentation` over the lines read: the stack after the last line and
the messages written, in order. -/
def check_lines : Nat → List Nat → List (List Char) → List Nat × List Diagnostic
  | _, indent_stack, [] => (indent_stack, [])
  | lineno, indent_stack, line :: rest =>
    let r := check_line lineno indent_stack line
    let r' := check_lines (lineno + 1) r.1 rest
    (r'.1, r.2 ++ r'.2)

/-- Embeds `check_indentation`: the messages written to `std::cerr`, in order. -/
def check_indentation (source : String) : List Diagnostic :=
  let r := check_lines 1 [] (getlines source.toList [])
  if r.1 ≠ [] then r.2 ++ [Diagnostic.notClosed] else r.2

/-- The line number a message carries (`none` for the message at the end of the source). -/
def Diagnostic.line : Diagnostic → Option Nat
  | Diagnostic.endWithoutBlock lineno => some lineno
  | Diagnostic.endMismatch lineno _ _ => some lineno
  | Diagnostic.inconsistent lineno _ _ => some lineno
  | Diagnostic.notClosed => none

/-- The line is one the analyzer looks at: not blank and not a `#` comment. -/
def isChecked (line : List Char) : Prop :=
  trim line ≠ [] ∧ (trim line).head? ≠ some '#'

instance (line : List Char) : Decidable (isChecked line) :=
  inferInstanceAs (Decidable (trim line ≠ [] ∧ (trim line).head? ≠ some '#'))

/-- The number of opener lines: the trimmed text starts with `function`, `start:`, `if`,
`elif` or `else`. -/
def countOpeners (lines : List (List Char)) : Nat :=
  (lines.filter (fun l => isOpener (trim l))).length

/-- The number of lines whose trimmed text is `end`. -/
def countEnds (lines : List (List Char)) : Nat :=
  (lines.filter (fun l => decide (trim l = "end".toList))).length

/-! ## Cursor lemmas -/

theorem peek_of_lt {toks : List Token} {pos : Nat} (h : pos < toks.length) :
    peek toks pos = toks.get ⟨pos, h⟩ := by
  simp only [peek, ge_iff_le, Nat.not_le.mpr h, dite_false]

theorem peek_of_ge {toks : List Token} {pos : Nat} (h : toks.length ≤ pos) :
    peek toks pos = dummy_eof_token := by
  simp only [peek, ge_iff_le, h, dite_true]

theorem advance_fst (toks : List Token) (pos : Nat) : (advance toks pos).1 = peek toks pos := by
  unfold advance peek
  split <;> rfl

theorem advance_snd_of_lt {toks : List Token} {pos : Nat} (h : pos < toks.length) :
    (advance toks pos).2 = pos + 1 := by
  simp only [advance, ge_iff_le, Nat.not_le.mpr h, dite_false]

theorem advance_snd_of_ge {toks : List Token} {pos : Nat} (h : toks.length ≤ pos) :
    (advance toks pos).2 = pos := by
  simp only [advance, ge_iff_le, h, dite_true]

theorem le_advance (toks : List Token) (pos : Nat) : pos ≤ (advance toks pos).2 := by
  by_cases h : pos < toks.length
  · rw [advance_snd_of_lt h]; omega
  · rw [advance_snd_of_ge (Nat.le_of_not_lt h)]

theorem advance_le_succ (toks : List Token) (pos : Nat) : (advance toks pos).2 ≤ pos + 1 := by
  by_cases h : pos < toks.length
  · rw [advance_snd_of_lt h]
  · rw [advance_snd_of_ge (Nat.le_of_not_lt h)]; omega

theorem lt_length_of_peek_ne_eof {toks : List Token} {pos : Nat}
    (h : (peek toks pos).type ≠ TokenType.EOFToken) : pos < toks.length := by
  by_contra hc
  exact h (by rw [peek_of_ge (Nat.le_of_not_lt hc)]; rfl)

/-- Reading the cursor off the remaining tokens: a token is ahead. -/
theorem cursor_cons {toks : List Token} {pos : Nat} {t : Token} {rest : List Token}
    (h : toks.drop pos = t :: rest) :
    peek toks pos = t ∧ advance toks pos = (t, pos + 1) ∧ toks.drop (pos + 1) = rest := by
  have hlt : pos < toks.length := by
    by_contra hc
    rw [List.drop_eq_nil_of_le (by omega)] at h
    cases h
  rw [List.drop_eq_getElem_cons hlt] at h
  injection h with h1 h2
  have hget : toks.get ⟨pos, hlt⟩ = t := h1
  refine ⟨?_, ?_, h2⟩
  · simp only [peek, ge_iff_le, Nat.not_le.mpr hlt, dite_false, hget]
  · simp only [advance, ge_iff_le, Nat.not_le.mpr hlt, dite_false, hget]

/-- Reading the cursor off the remaining tokens: nothing is left. -/
theorem cursor_nil {toks : List Token} {pos : Nat} (h : toks.drop pos = []) :
    peek toks pos = dummy_eof_token ∧ advance toks pos = (dummy_eof_token, pos) := by
  have hge : toks.length ≤ pos := List.drop_eq_nil_iff.mp h
  exact ⟨peek_of_ge hge, by simp only [advance, ge_iff_le, hge, dite_true]⟩

theorem drop_length_sub (toks : List Token) (pos : Nat) :
    toks.length - pos = (toks.drop pos).length := by
  simp

/-! ## `skip_newlines` -/

/-- The loop equation of `skip_newlines`: `while (peek().type == Newline) advance();`. -/
theorem skip_newlines_unfold (toks : List Token) (pos : Nat) :
    skip_newlines toks pos =
      if (peek toks pos).type = TokenType.Newline then
        skip_newlines toks (advance toks pos).2
      else pos := by
  unfold skip_newlines
  by_cases h : pos < toks.length
  · obtain ⟨n, hn⟩ : ∃ n, toks.length - pos = n + 1 := ⟨toks.length - pos - 1, by omega⟩
    rw [hn, skip_newlines_loop, advance_snd_of_lt h]
    have : toks.length - (pos + 1) = n := by omega
    rw [this]
  · have h0 : toks.length - pos = 0 := by omega
    rw [h0, skip_newlines_loop, peek_of_ge (Nat.le_of_not_lt h)]
    simp [dummy_eof_token]

theorem skip_newlines_of_ne {toks : List Token} {pos : Nat}
    (h : (peek toks pos).type ≠ TokenType.Newline) : skip_newlines toks pos = pos := by
  rw [skip_newlines_unfold, if_neg h]

theorem skip_newlines_loop_spec (toks : List Token) (n pos : Nat) :
    pos ≤ skip_newlines_loop toks n pos ∧
      (toks.length - pos ≤ n →
        (peek toks (skip_newlines_loop toks n pos)).type ≠ TokenType.Newline) := by
  induction n generalizing pos with
  | zero =>
    refine ⟨Nat.le_refl _, fun h => ?_⟩
    rw [skip_newlines_loop, peek_of_ge (by omega)]
    simp [dummy_eof_token]
  | succ n ih =>
    rw [skip_newlines_loop]
    split
    · rename_i hnl
      have hlt : pos < toks.length :=
        lt_length_of_peek_ne_eof (by rw [hnl]; decide)
      rw [advance_snd_of_lt hlt]
      exact ⟨Nat.le_trans (Nat.le_succ _) (ih (pos + 1)).1,
        fun h => (ih (pos + 1)).2 (by omega)⟩
    · rename_i hnl
      exact ⟨Nat.le_refl _, fun _ => hnl⟩

theorem le_skip_newlines (toks : List Token) (pos : Nat) : pos ≤ skip_newlines toks pos :=
  (skip_newlines_loop_spec toks _ pos).1

theorem peek_skip_newlines (toks : List Token) (pos : Nat) :
    (peek toks (skip_newlines toks pos)).type ≠ TokenType.Newline :=
  (skip_newlines_loop_spec toks _ pos).2 (Nat.le_refl _)

/-! ## The `say` loop on an argument list -/

theorem peek_of_drop {toks : List Token} {pos : Nat} {l : List Token}
    (h : toks.drop pos = l) : peek toks pos = l.headD dummy_eof_token := by
  cases l with
  | nil => exact (cursor_nil h).1
  | cons t r => exact (cursor_cons h).1

theorem advance_snd_of_drop {toks : List Token} {pos : Nat} {l : List Token}
    (h : toks.drop pos = l) : (advance toks pos).2 = pos + min 1 l.length := by
  cases l with
  | nil => rw [(cursor_nil h).2]; rfl
  | cons t r =>
    rw [(cursor_cons h).2.1]
    simp

theorem isArg_not_symbol {t : Token} (h : t.isArg) : t.type ≠ TokenType.Symbol := by
  rcases h with h | h <;> rw [h] <;> decide

theorem argTokens_head_not_comma (as : List (Token × Bool)) (tail : List Token)
    (hargs : ∀ a ∈ as, a.1.isArg)
    (htail : ¬((tail.headD dummy_eof_token).type = TokenType.Symbol ∧
      (tail.headD dummy_eof_token).value = ",")) :
    ¬(((argTokens as ++ tail).headD dummy_eof_token).type = TokenType.Symbol ∧
      ((argTokens as ++ tail).headD dummy_eof_token).value = ",") := by
  cases as with
  | nil => simpa [argTokens] using htail
  | cons a rest =>
    obtain ⟨t, c⟩ := a
    have ht : t.isArg := hargs (t, c) (List.mem_cons_self _ _)
    intro h
    cases c <;> exact isArg_not_symbol ht (by simpa [argTokens] using h.1)

theorem length_le_argTokens (as : List (Token × Bool)) :
    as.length ≤ (argTokens as).length := by
  induction as with
  | nil => simp [argTokens]
  | cons a rest ih =>
    obtain ⟨t, c⟩ := a
    cases c <;> simp [argTokens] <;> omega

/-- Running the `say` loop over an argument list: one iteration per ARG, the commas are
consumed along, and the two vectors grow by the values and the identifier flags. -/
theorem say_loop_args (toks : List Token) (as : List (Token × Bool)) :
    ∀ (pos m : Nat) (args : List String) (vars : List Bool) (tail : List Token),
      (∀ a ∈ as, a.1.isArg) →
      toks.drop pos = argTokens as ++ tail →
      ¬((tail.headD dummy_eof_token).type = TokenType.Symbol ∧
        (tail.headD dummy_eof_token).value = ",") →
      say_loop toks (as.length + m) pos args vars =
        say_loop toks m (pos + (argTokens as).length)
          (args ++ argValues as) (vars ++ argFlags as) := by
  induction as with
  | nil =>
    intro pos m args vars tail _ _ _
    simp [argTokens, argValues, argFlags]
  | cons a rest ih =>
    intro pos m args vars tail hargs hdrop htail
    obtain ⟨t, c⟩ := a
    have ht : t.isArg := hargs (t, c) (List.mem_cons_self _ _)
    have hrest : ∀ a ∈ rest, a.1.isArg := fun a ha => hargs a (List.mem_cons_of_mem _ ha)
    have hlen : ((t, c) :: rest).length + m = (rest.length + m) + 1 := by
      simp only [List.length_cons]; omega
    have hnotend : ¬(t.type = TokenType.Keyword ∧ t.value = "end") := by
      rintro ⟨h, _⟩
      rcases ht with h1 | h1 <;> rw [h1] at h <;> cases h
    have hnotnl : ¬(t.type = TokenType.Newline ∨ t.type = TokenType.EOFToken) := by
      rintro (h | h) <;> rcases ht with h1 | h1 <;> rw [h1] at h <;> cases h
    have harg : t.type = TokenType.StringLiteral ∨ t.type = TokenType.Identifier := ht
    cases c with
    | true =>
      have hd : toks.drop pos = t :: (commaToken :: (argTokens rest ++ tail)) := by
        simpa [argTokens] using hdrop
      obtain ⟨hp, ha, hd1⟩ := cursor_cons hd
      obtain ⟨hp1, ha1, hd2⟩ := cursor_cons hd1
      have hcomma : commaToken.type = TokenType.Symbol ∧ commaToken.value = "," :=
        ⟨rfl, rfl⟩
      rw [hlen, say_loop]
      simp only [hp, ha, hp1, ha1, hnotend, hnotnl, harg, hcomma, if_false, if_true,
        and_self]
      rw [ih (pos + 1 + 1) m _ _ tail hrest hd2 htail]
      simp [argTokens, argValues, argFlags, Nat.add_assoc, Nat.add_comm, Nat.add_left_comm]
    | false =>
      have hd : toks.drop pos = t :: (argTokens rest ++ tail) := by
        simpa [argTokens] using hdrop
      obtain ⟨hp, ha, hd1⟩ := cursor_cons hd
      have hp1 := peek_of_drop hd1
      have hnc := argTokens_head_not_comma rest tail hrest htail
      rw [hlen, say_loop]
      simp only [hp, ha, hp1, hnotend, hnotnl, harg, hnc, if_false, if_true]
      rw [ih (pos + 1) m _ _ tail hrest hd1 htail]
      simp [argTokens, argValues, argFlags, Nat.add_assoc, Nat.add_comm, Nat.add_left_comm]

/-- The iteration of the `say` loop that meets a newline or the end of the input. -/
theorem say_loop_newline (toks : List Token) (m pos : Nat) (args : List String)
    (vars : List Bool)
    (hnl : (peek toks pos).type = TokenType.Newline ∨ (peek toks pos).type = TokenType.EOFToken)
    (hlen : args.length = vars.length) :
    say_loop toks (m + 1) pos args vars =
      Outcome.ok (some (Statement.SayStatement args vars "\\n")) (advance toks pos).2 := by
  have hnotend : ¬((peek toks pos).type = TokenType.Keyword ∧ (peek toks pos).value = "end") := by
    rintro ⟨h, _⟩
    rcases hnl with h1 | h1 <;> rw [h1] at h <;> cases h
  rw [say_loop]
  simp only [hnotend, hnl, hlen, if_false, if_true, ne_eq, not_true_eq_false]

/-- The iteration of the `say` loop that meets `end` `=` and a string literal. -/
theorem say_loop_end (toks : List Token) (m pos : Nat) (args : List String)
    (vars : List Bool) (s : Token) (rest : List Token)
    (hs : s.type = TokenType.StringLiteral)
    (hdrop : toks.drop pos = endToken :: eqToken :: s :: rest)
    (hlen : args.length = vars.length) :
    say_loop toks (m + 1) pos args vars =
      Outcome.ok (some (Statement.SayStatement args vars s.value)) (pos + 3) := by
  obtain ⟨hp, ha, hd1⟩ := cursor_cons hdrop
  obtain ⟨hp1, ha1, hd2⟩ := cursor_cons hd1
  obtain ⟨hp2, ha2, _⟩ := cursor_cons hd2
  rw [say_loop]
  simp [hp, ha, hp1, ha1, hp2, ha2, hs, hlen, endToken, eqToken]

theorem argValues_length_eq (as : List (Token × Bool)) :
    (argValues as).length = (argFlags as).length := by
  simp [argValues, argFlags]

/-- The dispatcher on the keyword `say`. -/
theorem parse_statement_say (fuel : Nat) (toks : List Token) (pos : Nat)
    (ht : (peek toks pos).type = TokenType.Keyword) (hv : (peek toks pos).value = "say") :
    parse_statement (fuel + 1) toks pos = parse_say toks pos := by
  have hsk : skip_newlines toks pos = pos := skip_newlines_of_ne (by rw [ht]; decide)
  rw [parse_statement]
  simp [hsk, ht, hv]

/-- The `say` statement with the default terminator, from any cursor position. -/
theorem parse_say_default (toks : List Token) (pos : Nat) (as : List (Token × Bool))
    (tail : List Token) (hargs : ∀ a ∈ as, a.1.isArg)
    (htail : (tail.headD dummy_eof_token).type = TokenType.Newline ∨
      (tail.headD dummy_eof_token).type = TokenType.EOFToken)
    (hdrop : toks.drop pos = sayToken :: (argTokens as ++ tail)) :
    parse_say toks pos =
      Outcome.ok (some (Statement.SayStatement (argValues as) (argFlags as) "\\n"))
        (pos + 1 + (argTokens as).length + min 1 tail.length) := by
  obtain ⟨_, ha, hd1⟩ := cursor_cons hdrop
  have hnc : ¬((tail.headD dummy_eof_token).type = TokenType.Symbol ∧
      (tail.headD dummy_eof_token).value = ",") := by
    rintro ⟨h, _⟩
    rcases htail with h1 | h1 <;> rw [h1] at h <;> cases h
  have hbound : toks.length - (pos + 1) + 1 =
      as.length + ((toks.length - (pos + 1) - as.length) + 1) := by
    have h1 := drop_length_sub toks (pos + 1)
    rw [hd1, List.length_append] at h1
    have h2 := length_le_argTokens as
    omega
  have hd2 : toks.drop (pos + 1 + (argTokens as).length) = tail := by
    rw [← List.drop_drop, hd1, List.drop_left]
  unfold parse_say
  simp only [ha]
  rw [hbound, say_loop_args toks as (pos + 1) _ [] [] tail hargs hd1 hnc]
  rw [say_loop_newline toks _ _ _ _ (by rw [peek_of_drop hd2]; exact htail)
    (by simpa using argValues_length_eq as)]
  rw [advance_snd_of_drop hd2]
  simp

/-- The `say` statement with an explicit terminator, from any cursor position. -/
theorem parse_say_explicit (toks : List Token) (pos : Nat) (as : List (Token × Bool))
    (s : Token) (rest : List Token) (hargs : ∀ a ∈ as, a.1.isArg)
    (hs : s.type = TokenType.StringLiteral)
    (hdrop : toks.drop pos = sayToken :: (argTokens as ++ endToken :: eqToken :: s :: rest)) :
    parse_say toks pos =
      Outcome.ok (some (Statement.SayStatement (argValues as) (argFlags as) s.value))
        (pos + 1 + (argTokens as).length + 3) := by
  obtain ⟨_, ha, hd1⟩ := cursor_cons hdrop
  have hnc : ¬(((endToken :: eqToken :: s :: rest).headD dummy_eof_token).type =
      TokenType.Symbol ∧
      ((endToken :: eqToken :: s :: rest).headD dummy_eof_token).value = ",") := by
    simp [endToken]
  have hbound : toks.length - (pos + 1) + 1 =
      as.length + ((toks.length - (pos + 1) - as.length) + 1) := by
    have h1 := drop_length_sub toks (pos + 1)
    rw [hd1, List.length_append] at h1
    have h2 := length_le_argTokens as
    omega
  have hd2 : toks.drop (pos + 1 + (argTokens as).length) =
      endToken :: eqToken :: s :: rest := by
    rw [← List.drop_drop, hd1, List.drop_left]
  unfold parse_say
  simp only [ha]
  rw [hbound, say_loop_args toks as (pos + 1) _ [] [] _ hargs hd1 hnc]
  rw [say_loop_end toks _ _ _ _ s rest hs hd2 (by simpa using argValues_length_eq as)]
  simp

/-! ## The top-level loop -/

theorem parse_loop_done (fuel : Nat) (toks : List Token) (n pos : Nat)
    (sts : List Statement) (h : toks.length ≤ pos) :
    parse_loop fuel toks (n + 1) pos sts = Outcome.ok { statements := sts } pos := by
  rw [parse_loop, if_neg (Nat.not_lt.mpr h)]

theorem parse_loop_some (fuel : Nat) (toks : List Token) (n pos : Nat)
    (sts : List Statement) (s : Statement) (p : Nat)
    (hne : (peek toks pos).type ≠ TokenType.EOFToken)
    (hs : parse_statement fuel toks pos = Outcome.ok (some s) p) :
    parse_loop fuel toks (n + 1) pos sts = parse_loop fuel toks n p (sts ++ [s]) := by
  rw [parse_loop, if_pos (lt_length_of_peek_ne_eof hne)]
  simp only [hne, if_false, hs]

/-- A token list that is one statement: `parse` returns that statement alone. -/
theorem parse_single (toks : List Token) (s : Statement)
    (hne : (peek toks 0).type ≠ TokenType.EOFToken)
    (hs : parse_statement (parseFuel toks) toks 0 = Outcome.ok (some s) toks.length) :
    parse toks = Outcome.ok { statements := [s] } toks.length := by
  have hpos : 0 < toks.length := lt_length_of_peek_ne_eof hne
  obtain ⟨n, hn⟩ : ∃ n, toks.length = n + 1 := ⟨toks.length - 1, by omega⟩
  unfold parse
  rw [parse_loop_some _ _ _ _ _ s toks.length hne hs]
  rw [hn, parse_loop_done _ _ _ _ _ (by omega)]
  rfl

/-! ## Balanced `say` vectors -/

theorem allSayBalanced_append (l : List Statement) (s : Statement) :
    allSayBalanced (l ++ [s]) = (allSayBalanced l && s.sayBalanced) := by
  induction l with
  | nil => simp [allSayBalanced]
  | cons a r ih => simp [allSayBalanced, ih, Bool.and_assoc]

theorem say_loop_balanced (toks : List Token) (n : Nat) :
    ∀ (pos : Nat) (args : List String) (vars : List Bool) (s : Statement) (p : Nat),
      say_loop toks n pos args vars = Outcome.ok (some s) p → s.sayBalanced = true := by
  induction n with
  | zero =>
    intro pos args vars s p h
    rw [say_loop] at h
    cases h
  | succ n ih =>
    intro pos args vars s p h
    rw [say_loop] at h
    simp only at h
    split_ifs at h with h1 h2 h3 h4 h5 h6 h7 h8
    · cases h
      simp only [Statement.sayBalanced, beq_iff_eq]
      exact not_not.mp h4
    · cases h
      simp only [Statement.sayBalanced, beq_iff_eq]
      exact not_not.mp h6
    · exact ih _ _ _ _ _ h
    · exact ih _ _ _ _ _ h

theorem parse_balanced_aux (fuel : Nat) :
    (∀ (toks : List Token) (pos : Nat) (s : Statement) (p : Nat),
      parse_statement fuel toks pos = Outcome.ok (some s) p → s.sayBalanced = true) ∧
    (∀ (toks : List Token) (pos : Nat) (s : Statement) (p : Nat),
      parse_for_statement fuel toks pos = Outcome.ok (some s) p → s.sayBalanced = true) ∧
    (∀ (toks : List Token) (pos : Nat) (body : List Statement) (sc : Nat)
      (body' : List Statement) (p : Nat),
      parse_block_loop fuel toks pos body sc = Outcome.ok body' p →
      allSayBalanced body = true → allSayBalanced body' = true) := by
  induction fuel with
  | zero =>
    refine ⟨?_, ?_, ?_⟩
    · intro toks pos s p h; rw [parse_statement] at h; cases h
    · intro toks pos s p h; rw [parse_for_statement] at h; cases h
    · intro toks pos body sc body' p h; rw [parse_block_loop] at h; cases h
  | succ fuel ih =>
    obtain ⟨ihS, ihF, ihB⟩ := ih
    refine ⟨?_, ?_, ?_⟩
    · intro toks pos s p h
      rw [parse_statement] at h
      simp only at h
      split_ifs at h
      all_goals first
        | (cases h; done)
        | (cases h; rfl)
        | exact ihF _ _ _ _ h
        | exact say_loop_balanced _ _ _ _ _ _ _ h
        | (split at h <;> first
            | (cases h; done)
            | (rename_i body q hb
               cases h
               simpa [Statement.sayBalanced] using ihB _ _ _ _ _ _ hb rfl))
    · intro toks pos s p h
      rw [parse_for_statement] at h
      simp only at h
      repeat' first | (cases h; done) | split at h
      all_goals
        rename_i body q hb
        cases h
        simpa [Statement.sayBalanced] using ihB _ _ _ _ _ _ hb rfl
    · intro toks pos body sc body' p h hbody
      rw [parse_block_loop] at h
      simp only at h
      repeat' first | (cases h; done) | split at h
      · cases h; exact hbody
      · rename_i stmt q hs _
        refine ihB _ _ _ _ _ _ h ?_
        rw [allSayBalanced_append, hbody, ihS _ _ _ _ hs]
        rfl
      · exact ihB _ _ _ _ _ _ h hbody

/-- Statements collected by the top-level loop. -/
theorem parse_loop_balanced (fuel : Nat) (toks : List Token) (n : Nat) :
    ∀ (pos : Nat) (sts : List Statement) (ast : AST) (p : Nat),
      parse_loop fuel toks n pos sts = Outcome.ok ast p →
      allSayBalanced sts = true → allSayBalanced ast.statements = true := by
  induction n with
  | zero =>
    intro pos sts ast p h
    rw [parse_loop] at h
    cases h
  | succ n ih =>
    intro pos sts ast p h hsts
    rw [parse_loop] at h
    simp only at h
    repeat' first | (cases h; done) | split at h
    · cases h; exact hsts
    · rename_i stmt q hs
      refine ih _ _ _ _ h ?_
      rw [allSayBalanced_append, hsts, (parse_balanced_aux fuel).1 _ _ _ _ hs]
      rfl
    · exact ih _ _ _ _ h hsts
    · cases h; exact hsts

/-! ## Progress of the cursor -/

theorem say_loop_progress (toks : List Token) (n : Nat) :
    ∀ (pos : Nat) (args : List String) (vars : List Bool) (s : Option Statement) (p : Nat),
      say_loop toks n pos args vars = Outcome.ok s p → pos ≤ p := by
  induction n with
  | zero =>
    intro pos args vars s p h
    rw [say_loop] at h
    cases h
  | succ n ih =>
    intro pos args vars s p h
    rw [say_loop] at h
    simp only at h
    repeat' first | (cases h; done) | split at h
    · cases h
      exact Nat.le_trans (le_advance toks pos)
        (Nat.le_trans (le_advance toks _) (le_advance toks _))
    · cases h
      exact le_advance toks pos
    · exact Nat.le_trans (Nat.le_trans (le_advance toks pos) (le_advance toks _))
        (ih _ _ _ _ _ h)
    · exact Nat.le_trans (le_advance toks pos) (ih _ _ _ _ _ h)

theorem parse_say_progress (toks : List Token) (pos : Nat) (s : Option Statement) (p : Nat)
    (h : parse_say toks pos = Outcome.ok s p) : (advance toks pos).2 ≤ p :=
  say_loop_progress toks _ _ _ _ _ _ h

/-- Where the three mutually recursive functions leave the cursor when they return:
`parse_statement` never moves it back and moves it forward when a token other than
`EOFToken` is ahead; `parse_for_statement` and the block loop move it forward, and the
block loop stops right after a keyword `end`. -/
theorem parse_progress (fuel : Nat) :
    (∀ (toks : List Token) (pos : Nat) (s : Option Statement) (p : Nat),
      parse_statement fuel toks pos = Outcome.ok s p →
      skip_newlines toks pos ≤ p ∧
        ((peek toks (skip_newlines toks pos)).type ≠ TokenType.EOFToken →
          skip_newlines toks pos < p)) ∧
    (∀ (toks : List Token) (pos : Nat) (s : Option Statement) (p : Nat),
      parse_for_statement fuel toks pos = Outcome.ok s p → pos < p) ∧
    (∀ (toks : List Token) (pos : Nat) (body : List Statement) (sc : Nat)
      (body' : List Statement) (p : Nat),
      parse_block_loop fuel toks pos body sc = Outcome.ok body' p →
      pos < p ∧ (peek toks (p - 1)).isEnd) := by
  induction fuel with
  | zero =>
    refine ⟨?_, ?_, ?_⟩
    · intro toks pos s p h; rw [parse_statement] at h; cases h
    · intro toks pos s p h; rw [parse_for_statement] at h; cases h
    · intro toks pos body sc body' p h; rw [parse_block_loop] at h; cases h
  | succ fuel ih =>
    obtain ⟨ihS, ihF, ihB⟩ := ih
    refine ⟨?_, ?_, ?_⟩
    · intro toks pos s p h
      rw [parse_statement] at h
      simp only at h
      generalize hp0 : skip_newlines toks pos = pos0 at h ⊢
      by_cases heof : (peek toks pos0).type = TokenType.EOFToken
      · rw [if_pos heof] at h
        cases h
        exact ⟨Nat.le_refl _, fun hne => absurd heof hne⟩
      · have hlt : pos0 < toks.length := lt_length_of_peek_ne_eof heof
        have hadv : (advance toks pos0).2 = pos0 + 1 := advance_snd_of_lt hlt
        suffices hs : pos0 < p from ⟨Nat.le_of_lt hs, fun _ => hs⟩
        rw [if_neg heof] at h
        repeat' first | (cases h; done) | split at h
        · exact ihF _ _ _ _ h
        · rename_i body q hb
          cases h
          have h1 := (ihB _ _ _ _ _ _ hb).1
          have h2 := le_advance toks (advance toks pos0).2
          have h3 := le_advance toks (advance toks (advance toks pos0).2).2
          omega
        · rename_i body q hb
          cases h
          have h1 := (ihB _ _ _ _ _ _ hb).1
          have h2 := le_advance toks (advance toks pos0).2
          have h3 := le_advance toks (advance toks (advance toks pos0).2).2
          have h4 := le_advance toks (advance toks (advance toks (advance toks pos0).2).2).2
          omega
        · rename_i body q hb
          cases h
          have h1 := (ihB _ _ _ _ _ _ hb).1
          have h2 := le_advance toks (advance toks pos0).2
          omega
        · have h1 := parse_say_progress _ _ _ _ h
          omega
        · cases h
          have h2 := le_advance toks (advance toks pos0).2
          omega
        · cases h
          have h2 := le_advance toks (advance toks pos0).2
          omega
        · cases h
          omega
        · cases h
          omega
    · intro toks pos s p h
      rw [parse_for_statement] at h
      simp only at h
      repeat' first | (cases h; done) | split at h
      rename_i body q hb
      cases h
      have h1 := (ihB _ _ _ _ _ _ hb).1
      have h2 := le_skip_newlines toks
        (advance toks (advance toks (advance toks (advance toks (advance toks
          (advance toks pos).2).2).2).2).2).2
      have h3 := le_advance toks pos
      have h4 := le_advance toks (advance toks pos).2
      have h5 := le_advance toks (advance toks (advance toks pos).2).2
      have h6 := le_advance toks (advance toks (advance toks (advance toks pos).2).2).2
      have h7 := le_advance toks
        (advance toks (advance toks (advance toks (advance toks pos).2).2).2).2
      have h8 := le_advance toks
        (advance toks (advance toks (advance toks (advance toks (advance toks pos).2).2).2).2).2
      omega
    · intro toks pos body sc body' p h
      rw [parse_block_loop] at h
      simp only at h
      have hsk := le_skip_newlines toks pos
      generalize skip_newlines toks pos = pos1 at h hsk
      repeat' first | (cases h; done) | split at h
      · rename_i hend
        cases h
        have hlt : pos1 < toks.length :=
          lt_length_of_peek_ne_eof (by rw [hend.1]; decide)
        rw [advance_snd_of_lt hlt]
        exact ⟨by omega, by simpa using hend⟩
      · rename_i stmt q hs _
        have h1 := (ihS _ _ _ _ hs).1
        have h2 := le_skip_newlines toks pos1
        have h3 := ihB _ _ _ _ _ _ h
        exact ⟨by omega, h3.2⟩
      · rename_i q hs _
        have h1 := (ihS _ _ _ _ hs).1
        have h2 := le_skip_newlines toks pos1
        have h3 := ihB _ _ _ _ _ _ h
        have h4 := le_advance toks q
        exact ⟨by omega, h3.2⟩

/-! ## The fuel suffices -/

theorem say_loop_total (toks : List Token) (n : Nat) :
    ∀ (pos : Nat) (args : List String) (vars : List Bool),
      toks.length - pos + 1 ≤ n → say_loop toks n pos args vars ≠ Outcome.outOfFuel := by
  induction n with
  | zero =>
    intro pos args vars hn
    omega
  | succ n ih =>
    intro pos args vars hn h
    rw [say_loop] at h
    simp only at h
    repeat' first | cases h | split at h
    · rename_i h1 h2 h3 h4
      have hlt : pos < toks.length :=
        lt_length_of_peek_ne_eof (fun hc => h2 (Or.inr hc))
      have hadv := advance_snd_of_lt hlt
      have hle := le_advance toks (advance toks pos).2
      exact ih _ _ _ (by omega) h
    · rename_i h1 h2 h3 h4
      have hlt : pos < toks.length :=
        lt_length_of_peek_ne_eof (fun hc => h2 (Or.inr hc))
      have hadv := advance_snd_of_lt hlt
      exact ih _ _ _ (by omega) h

theorem parse_say_total (toks : List Token) (pos : Nat) :
    parse_say toks pos ≠ Outcome.outOfFuel :=
  say_loop_total toks _ _ _ _ (Nat.le_refl _)

/-- Fuel linear in the number of remaining tokens is enough for each of the three mutually
recursive functions: they return a result or throw. -/
theorem parse_total (fuel : Nat) :
    (∀ (toks : List Token) (pos : Nat),
      3 * (toks.length - pos) + 1 ≤ fuel →
      parse_statement fuel toks pos ≠ Outcome.outOfFuel) ∧
    (∀ (toks : List Token) (pos : Nat),
      pos < toks.length → 3 * (toks.length - pos) ≤ fuel →
      parse_for_statement fuel toks pos ≠ Outcome.outOfFuel) ∧
    (∀ (toks : List Token) (pos : Nat) (body : List Statement) (sc : Nat),
      3 * (toks.length - pos) + 2 ≤ fuel →
      parse_block_loop fuel toks pos body sc ≠ Outcome.outOfFuel) := by
  induction fuel with
  | zero =>
    refine ⟨?_, ?_, ?_⟩
    · intro toks pos h; omega
    · intro toks pos h1 h2; omega
    · intro toks pos body sc h; omega
  | succ fuel ih =>
    obtain ⟨ihS, ihF, ihB⟩ := ih
    refine ⟨?_, ?_, ?_⟩
    · intro toks pos hf h
      rw [parse_statement] at h
      simp only at h
      have hsk := le_skip_newlines toks pos
      generalize skip_newlines toks pos = pos0 at h hsk
      by_cases heof : (peek toks pos0).type = TokenType.EOFToken
      · rw [if_pos heof] at h
        cases h
      · have hlt : pos0 < toks.length := lt_length_of_peek_ne_eof heof
        have hadv : (advance toks pos0).2 = pos0 + 1 := advance_snd_of_lt hlt
        rw [if_neg heof] at h
        repeat' first | (cases h; done) | split at h
        · exact ihF _ _ hlt (by omega) h
        · rename_i hb
          have h2 := le_advance toks (advance toks pos0).2
          have h3 := le_advance toks (advance toks (advance toks pos0).2).2
          exact ihB _ _ _ _ (by omega) hb
        · rename_i hb
          have h2 := le_advance toks (advance toks pos0).2
          have h3 := le_advance toks (advance toks (advance toks pos0).2).2
          have h4 := le_advance toks (advance toks (advance toks (advance toks pos0).2).2).2
          exact ihB _ _ _ _ (by omega) hb
        · rename_i hb
          have h2 := le_advance toks (advance toks pos0).2
          exact ihB _ _ _ _ (by omega) hb
        · exact parse_say_total _ _ h
    · intro toks pos hlt hf h
      rw [parse_for_statement] at h
      simp only at h
      repeat' first | (cases h; done) | split at h
      rename_i hb
      have h2 := le_skip_newlines toks
        (advance toks (advance toks (advance toks (advance toks (advance toks
          (advance toks pos).2).2).2).2).2).2
      have h3 := advance_snd_of_lt hlt
      have h4 := le_advance toks (advance toks pos).2
      have h5 := le_advance toks (advance toks (advance toks pos).2).2
      have h6 := le_advance toks (advance toks (advance toks (advance toks pos).2).2).2
      have h7 := le_advance toks
        (advance toks (advance toks (advance toks (advance toks pos).2).2).2).2
      have h8 := le_advance toks
        (advance toks (advance toks (advance toks (advance toks (advance toks pos).2).2).2).2).2
      exact ihB _ _ _ _ (by omega) hb
    · intro toks pos body sc hf h
      rw [parse_block_loop] at h
      simp only at h
      have hsk := le_skip_newlines toks pos
      have hnl := peek_skip_newlines toks pos
      generalize skip_newlines toks pos = pos1 at h hsk hnl
      have hsk1 : skip_newlines toks pos1 = pos1 := skip_newlines_of_ne hnl
      repeat' first | (cases h; done) | split at h
      · rename_i hs
        exact ihS _ _ (by omega) hs
      · rename_i h1 h2 _ stmt q hs h3
        have hp := (parse_progress fuel).1 _ _ _ _ hs
        rw [hsk1] at hp
        have := hp.2 h2
        have hlt := lt_length_of_peek_ne_eof h2
        exact ihB _ _ _ _ (by omega) h
      · rename_i h1 h2 _ q hs h3
        have hp := (parse_progress fuel).1 _ _ _ _ hs
        rw [hsk1] at hp
        have := hp.2 h2
        have hlt := lt_length_of_peek_ne_eof h2
        have h4 := le_advance toks q
        exact ihB _ _ _ _ (by omega) h

/-- The top-level loop with the bounds `parse` gives it never runs out. -/
theorem parse_loop_total (fuel : Nat) (toks : List Token) (hf : 3 * toks.length + 1 ≤ fuel)
    (n : Nat) :
    ∀ (pos : Nat) (sts : List Statement),
      toks.length - pos + 1 ≤ n → parse_loop fuel toks n pos sts ≠ Outcome.outOfFuel := by
  induction n with
  | zero =>
    intro pos sts hn
    omega
  | succ n ih =>
    intro pos sts hn h
    rw [parse_loop] at h
    simp only at h
    repeat' first | (cases h; done) | split at h
    · rename_i hs
      exact (parse_total fuel).1 _ _ (by omega) hs
    · rename_i hlt hne _ stmt q hs
      have hp := (parse_progress fuel).1 _ _ _ _ hs
      have hsk := le_skip_newlines toks pos
      by_cases heof : (peek toks (skip_newlines toks pos)).type = TokenType.EOFToken
      · rw [parse_statement.eq_def] at hs
        cases fuel with
        | zero => omega
        | succ f =>
          simp only [heof, if_true] at hs
          cases hs
      · have := hp.2 heof
        exact ih _ _ (by omega) h
    · rename_i hlt hne _ q hs
      have hp := (parse_progress fuel).1 _ _ _ _ hs
      have hsk := le_skip_newlines toks pos
      by_cases hq : q < toks.length
      · rw [advance_snd_of_lt hq] at h
        exact ih _ _ (by omega) h
      · rw [advance_snd_of_ge (Nat.le_of_not_lt hq)] at h
        exact ih _ _ (by omega) h

theorem parse_ne_outOfFuel (toks : List Token) : parse toks ≠ Outcome.outOfFuel :=
  parse_loop_total _ toks (by unfold parseFuel; omega) _ _ _ (by omega)

/-! ## `stoi` reads back decimal numerals -/

theorem digitChar_spec (k : Nat) (hk : k < 10) :
    (Nat.digitChar k).isDigit = true ∧ (Nat.digitChar k).toNat - 48 = k ∧
      isspace (Nat.digitChar k) = false ∧ Nat.digitChar k ≠ '-' ∧ Nat.digitChar k ≠ '+' := by
  interval_cases k <;> decide

theorem digitsValue_append_singleton (l : List Char) (c : Char) :
    digitsValue (l ++ [c]) = digitsValue l * 10 + (c.toNat - 48) := by
  simp [digitsValue, List.foldl_append]

/-- The digits `Nat.toDigitsCore` puts in front of its accumulator. -/
theorem toDigitsCore_spec (fuel : Nat) :
    ∀ (n : Nat) (ds : List Char), n < fuel →
      ∃ L : List Char, Nat.toDigitsCore 10 fuel n ds = L ++ ds ∧ L ≠ [] ∧
        (∀ c ∈ L, c.isDigit = true ∧ isspace c = false ∧ c ≠ '-' ∧ c ≠ '+') ∧
        digitsValue L = n := by
  induction fuel with
  | zero => intro n ds h; omega
  | succ fuel ih =>
    intro n ds hn
    have hd := digitChar_spec (n % 10) (Nat.mod_lt _ (by decide))
    rw [Nat.toDigitsCore]
    split
    · rename_i h0
      refine ⟨[Nat.digitChar (n % 10)], rfl, by simp, ?_, ?_⟩
      · intro c hc
        rw [List.mem_singleton] at hc
        subst hc
        exact ⟨hd.1, hd.2.2.1, hd.2.2.2.1, hd.2.2.2.2⟩
      · have : digitsValue [Nat.digitChar (n % 10)] = (Nat.digitChar (n % 10)).toNat - 48 := by
          simp [digitsValue]
        rw [this, hd.2.1]
        omega
    · rename_i h0
      obtain ⟨L, hL, hne, hall, hval⟩ := ih (n / 10) (Nat.digitChar (n % 10) :: ds) (by omega)
      refine ⟨L ++ [Nat.digitChar (n % 10)], by rw [hL]; simp, by simp, ?_, ?_⟩
      · intro c hc
        rw [List.mem_append, List.mem_singleton] at hc
        rcases hc with hc | hc
        · exact hall c hc
        · subst hc
          exact ⟨hd.1, hd.2.2.1, hd.2.2.2.1, hd.2.2.2.2⟩
      · rw [digitsValue_append_singleton, hval, hd.2.1]
        omega

theorem toDigits_spec (n : Nat) :
    Nat.toDigits 10 n ≠ [] ∧
      (∀ c ∈ Nat.toDigits 10 n, c.isDigit = true ∧ isspace c = false ∧ c ≠ '-' ∧ c ≠ '+') ∧
      digitsValue (Nat.toDigits 10 n) = n := by
  obtain ⟨L, hL, hne, hall, hval⟩ := toDigitsCore_spec (n + 1) n [] (Nat.lt_succ_self n)
  rw [List.append_nil] at hL
  unfold Nat.toDigits
  rw [hL]
  exact ⟨hne, hall, hval⟩

theorem takeWhile_eq_self_of_all {α : Type} (p : α → Bool) (l : List α)
    (h : ∀ c ∈ l, p c = true) : l.takeWhile p = l := by
  induction l with
  | nil => rfl
  | cons a r ih =>
    rw [List.takeWhile_cons, h a (List.mem_cons_self _ _)]
    simp only [if_true]
    rw [ih (fun c hc => h c (List.mem_cons_of_mem _ hc))]

/-- `stoi` on the digits of a natural number, with or without a leading minus sign. -/
theorem stoi_digits (n : Nat) :
    stoi (String.mk (Nat.toDigits 10 n)) =
        (if (n : Int) ≤ 2147483647 then some (n : Int) else none) ∧
      stoi (String.mk ('-' :: Nat.toDigits 10 n)) =
        (if -2147483648 ≤ -(n : Int) then some (-(n : Int)) else none) := by
  obtain ⟨hne, hall, hval⟩ := toDigits_spec n
  obtain ⟨c, r, hcr⟩ : ∃ c r, Nat.toDigits 10 n = c :: r := by
    cases h : Nat.toDigits 10 n with
    | nil => exact absurd h hne
    | cons c r => exact ⟨c, r, rfl⟩
  have hc := hall c (by rw [hcr]; exact List.mem_cons_self _ _)
  have htake : (Nat.toDigits 10 n).takeWhile Char.isDigit = Nat.toDigits 10 n :=
    takeWhile_eq_self_of_all _ _ (fun c hc => (hall c hc).1)
  constructor
  · unfold stoi
    have hdrop : (String.mk (Nat.toDigits 10 n)).toList.dropWhile isspace =
        Nat.toDigits 10 n := by
      show (Nat.toDigits 10 n).dropWhile isspace = _
      rw [hcr, List.dropWhile_cons, hc.2.1]
      simp
    simp only [hdrop]
    have hsign : (match Nat.toDigits 10 n with
        | '-' :: r => (true, r)
        | '+' :: r => (false, r)
        | _ => (false, Nat.toDigits 10 n)) = (false, Nat.toDigits 10 n) := by
      rw [hcr]
      split
      · rename_i heq; injection heq with h1 _; exact absurd h1 hc.2.2.1
      · rename_i heq; injection heq with h1 _; exact absurd h1 hc.2.2.2
      · rfl
    rw [hsign]
    simp only [htake, hval, if_neg hne]
    by_cases hr : (n : Int) ≤ 2147483647
    · have h0 : (-2147483648 : Int) ≤ (n : Int) := by omega
      simp [hr, h0]
    · simp [hr]
  · unfold stoi
    have hdrop : (String.mk ('-' :: Nat.toDigits 10 n)).toList.dropWhile isspace =
        '-' :: Nat.toDigits 10 n := by
      show ('-' :: Nat.toDigits 10 n).dropWhile isspace = _
      rw [List.dropWhile_cons]
      have : isspace '-' = false := by decide
      rw [this]
      simp
    simp only [hdrop, htake, hval, if_neg hne]
    by_cases hr : (-2147483648 : Int) ≤ -(n : Int)
    · have h0 : -(n : Int) ≤ 2147483647 := by omega
      simp [hr, h0]
    · simp [hr]

/-- `stoi` reads the decimal numeral of an `int` value back as that value. -/
theorem stoi_toString (a : Int) (hlo : -2147483648 ≤ a) (hhi : a ≤ 2147483647) :
    stoi (toString a) = some a := by
  cases a with
  | ofNat n =>
    have h := (stoi_digits n).1
    have hr : ((n : Nat) : Int) ≤ 2147483647 := hhi
    rw [if_pos hr] at h
    exact h
  | negSucc m =>
    have h := (stoi_digits (m + 1)).2
    have hr : (-2147483648 : Int) ≤ -((m + 1 : Nat) : Int) := by
      have : Int.negSucc m = -((m + 1 : Nat) : Int) := rfl
      rw [← this]; exact hlo
    rw [if_pos hr] at h
    exact h

/-! ## The loops as repeated iterations -/

/-- The loop of `parse_block` is the repetition of `parse_block_iteration`. -/
theorem parse_block_loop_iteration (fuel : Nat) (toks : List Token) (pos : Nat)
    (body : List Statement) (sc : Nat) :
    parse_block_loop (fuel + 1) toks pos body sc =
      match parse_block_iteration fuel toks pos body sc with
      | LoopStep.next (pos', body', sc') => parse_block_loop fuel toks pos' body' sc'
      | LoopStep.halt result => result := by
  rw [parse_block_loop]
  unfold parse_block_iteration
  simp only
  repeat' split
  all_goals first | rfl | contradiction | skip
  all_goals simp_all

/-- The top-level loop of `parse` is the repetition of `parse_iteration`. -/
theorem parse_loop_iteration (fuel : Nat) (toks : List Token) (n pos : Nat)
    (sts : List Statement) :
    parse_loop fuel toks (n + 1) pos sts =
      match parse_iteration fuel toks pos sts with
      | LoopStep.next (pos', sts') => parse_loop fuel toks n pos' sts'
      | LoopStep.halt result => result := by
  rw [parse_loop]
  unfold parse_iteration
  simp only
  repeat' split
  all_goals first | rfl | contradiction | skip
  all_goals simp_all

/-- An iteration of the block loop that goes on has moved the cursor forward. -/
theorem parse_block_iteration_progress (fuel : Nat) (toks : List Token) (pos : Nat)
    (body : List Statement) (sc : Nat) (pos' : Nat) (body' : List Statement) (sc' : Nat)
    (h : parse_block_iteration fuel toks pos body sc = LoopStep.next (pos', body', sc')) :
    pos < pos' := by
  unfold parse_block_iteration at h
  simp only at h
  have hsk := le_skip_newlines toks pos
  have hnl := peek_skip_newlines toks pos
  generalize skip_newlines toks pos = pos1 at h hsk hnl
  have hsk1 : skip_newlines toks pos1 = pos1 := skip_newlines_of_ne hnl
  repeat' first | (cases h; done) | split at h
  · rename_i h1 h2 _ stmt q hs h3
    have hp := (parse_progress fuel).1 _ _ _ _ hs
    rw [hsk1] at hp
    have := hp.2 h2
    cases h
    omega
  · rename_i h1 h2 _ q hs h3
    have hp := (parse_progress fuel).1 _ _ _ _ hs
    rw [hsk1] at hp
    have := hp.2 h2
    have h4 := le_advance toks q
    cases h
    omega

/-- An iteration of the top-level loop that goes on has moved the cursor forward. -/
theorem parse_iteration_progress (fuel : Nat) (toks : List Token) (pos : Nat)
    (sts : List Statement) (pos' : Nat) (sts' : List Statement)
    (h : parse_iteration fuel toks pos sts = LoopStep.next (pos', sts')) :
    pos < pos' := by
  unfold parse_iteration at h
  simp only at h
  repeat' first | (cases h; done) | split at h
  · rename_i hlt hne _ stmt q hs
    have hp := (parse_progress fuel).1 _ _ _ _ hs
    have hsk := le_skip_newlines toks pos
    cases h
    by_cases heof : (peek toks (skip_newlines toks pos)).type = TokenType.EOFToken
    · rw [parse_statement.eq_def] at hs
      cases fuel with
      | zero => cases hs
      | succ f =>
        simp only [heof, if_true] at hs
        cases hs
    · have := hp.2 heof
      omega
  · rename_i hlt hne _ q hs
    have hp := (parse_progress fuel).1 _ _ _ _ hs
    have hsk := le_skip_newlines toks pos
    cases h
    by_cases hq : q < toks.length
    · rw [advance_snd_of_lt hq]; omega
    · rw [advance_snd_of_ge (Nat.le_of_not_lt hq)]; omega

/-! ## Blocks of simple lines -/

theorem skip_newlines_of_drop_newline {toks : List Token} {pos : Nat} {nl : Token}
    {rest : List Token} (hnl : nl.type = TokenType.Newline)
    (hdrop : toks.drop pos = nl :: rest) :
    skip_newlines toks pos = skip_newlines toks (pos + 1) := by
  obtain ⟨hp, ha, _⟩ := cursor_cons hdrop
  rw [skip_newlines_unfold toks pos, hp, ha, if_pos hnl]

/-- The block loop started on a newline is the block loop started after it. -/
theorem parse_block_loop_skip (fuel : Nat) {toks : List Token} {pos : Nat} {nl : Token}
    {rest : List Token} (hnl : nl.type = TokenType.Newline)
    (hdrop : toks.drop pos = nl :: rest) (body : List Statement) (sc : Nat) :
    parse_block_loop fuel toks pos body sc = parse_block_loop fuel toks (pos + 1) body sc := by
  cases fuel with
  | zero => rw [parse_block_loop, parse_block_loop]
  | succ fuel =>
    rw [parse_block_loop, parse_block_loop, skip_newlines_of_drop_newline hnl hdrop]

/-- The dispatcher on the keyword `set`. -/
theorem parse_statement_set (fuel : Nat) (toks : List Token) (pos : Nat) (v : Token)
    (rest : List Token) (hdrop : toks.drop pos = setToken :: v :: rest) :
    parse_statement (fuel + 1) toks pos =
      Outcome.ok (some (Statement.SetStatement v.value)) (pos + 2) := by
  obtain ⟨hp, ha, hd1⟩ := cursor_cons hdrop
  obtain ⟨_, ha1, _⟩ := cursor_cons hd1
  have hsk : skip_newlines toks pos = pos :=
    skip_newlines_of_ne (by rw [hp]; simp [setToken])
  rw [parse_statement]
  simp [hsk, hp, ha, ha1, setToken]

/-- The dispatcher on an identifier followed by an ARG. -/
theorem parse_statement_call_arg (fuel : Nat) (toks : List Token) (pos : Nat) (f a : Token)
    (rest : List Token) (hf : f.type = TokenType.Identifier) (ha : a.isArg)
    (hdrop : toks.drop pos = f :: a :: rest) :
    parse_statement (fuel + 1) toks pos =
      Outcome.ok (some (Statement.FunctionCall f.value a.value a.type)) (pos + 2) := by
  obtain ⟨hp, hadv, hd1⟩ := cursor_cons hdrop
  obtain ⟨hp1, hadv1, _⟩ := cursor_cons hd1
  have hsk : skip_newlines toks pos = pos :=
    skip_newlines_of_ne (by rw [hp, hf]; decide)
  have ha' : a.type = TokenType.StringLiteral ∨ a.type = TokenType.Identifier := ha
  rw [parse_statement]
  simp [hsk, hp, hadv, hp1, hadv1, hf, ha']

/-- The dispatcher on an identifier that no ARG follows. -/
theorem parse_statement_call_noarg (fuel : Nat) (toks : List Token) (pos : Nat) (f : Token)
    (rest : List Token) (hf : f.type = TokenType.Identifier)
    (hnext : ¬(rest.headD dummy_eof_token).isArg)
    (hdrop : toks.drop pos = f :: rest) :
    parse_statement (fuel + 1) toks pos =
      Outcome.ok (some (Statement.FunctionCall f.value "" TokenType.EOFToken)) (pos + 1) := by
  obtain ⟨hp, hadv, hd1⟩ := cursor_cons hdrop
  have hp1 := peek_of_drop hd1
  have hsk : skip_newlines toks pos = pos :=
    skip_newlines_of_ne (by rw [hp, hf]; decide)
  have hnext' : ¬((peek toks (pos + 1)).type = TokenType.StringLiteral ∨
      (peek toks (pos + 1)).type = TokenType.Identifier) := by
    rw [hp1]; exact hnext
  rw [parse_statement]
  simp only [hsk, hp, hadv, hf, hnext', if_false, if_true]
  simp

/-- The dispatcher on a simple line: it returns the statement of the line and leaves the
cursor `consumed` tokens further. -/
theorem parse_statement_line (fuel : Nat) (toks : List Token) (pos : Nat) (nl : Token)
    (line : SimpleLine) (rest : List Token) (hnl : nl.type = TokenType.Newline)
    (hwf : line.wellFormed) (hdrop : toks.drop pos = line.tokens nl ++ rest) :
    parse_statement (fuel + 1) toks pos =
      Outcome.ok (some line.statement) (pos + line.consumed) := by
  cases line with
  | say as ending =>
    cases ending with
    | none =>
      have hd : toks.drop pos = sayToken :: (argTokens as ++ nl :: rest) := by
        simpa [SimpleLine.tokens, SimpleLine.body] using hdrop
      have hp := (cursor_cons hd).1
      rw [parse_statement_say fuel toks pos (by rw [hp]; rfl) (by rw [hp]; rfl),
        parse_say_default toks pos as (nl :: rest) hwf (Or.inl hnl) hd]
      simp only [SimpleLine.statement, SimpleLine.consumed, List.length_cons]
      congr 1
      omega
    | some s =>
      have hd : toks.drop pos =
          sayToken :: (argTokens as ++ endToken :: eqToken :: s :: (nl :: rest)) := by
        simpa [SimpleLine.tokens, SimpleLine.body] using hdrop
      have hp := (cursor_cons hd).1
      rw [parse_statement_say fuel toks pos (by rw [hp]; rfl) (by rw [hp]; rfl),
        parse_say_explicit toks pos as s (nl :: rest) hwf.1 hwf.2 hd]
      simp only [SimpleLine.statement, SimpleLine.consumed, List.length_cons]
      congr 1
      omega
  | set v =>
    have hd : toks.drop pos = setToken :: v :: (nl :: rest) := by
      simpa [SimpleLine.tokens, SimpleLine.body] using hdrop
    rw [parse_statement_set fuel toks pos v _ hd]
    rfl
  | call f arg =>
    cases arg with
    | none =>
      have hd : toks.drop pos = f :: (nl :: rest) := by
        simpa [SimpleLine.tokens, SimpleLine.body] using hdrop
      rw [parse_statement_call_noarg fuel toks pos f _ hwf
        (by simp [Token.isArg, hnl]) hd]
      rfl
    | some a =>
      have hd : toks.drop pos = f :: a :: (nl :: rest) := by
        simpa [SimpleLine.tokens, SimpleLine.body] using hdrop
      rw [parse_statement_call_arg fuel toks pos f a _ hwf.1 hwf.2 hd]
      rfl

/-- The first token of a simple line is neither a newline, nor `EOFToken`, nor `end`. -/
theorem line_head (nl : Token) (line : SimpleLine) (hwf : line.wellFormed) :
    ∃ t r, line.tokens nl = t :: r ∧ t.type ≠ TokenType.Newline ∧
      t.type ≠ TokenType.EOFToken ∧ ¬(t.type = TokenType.Keyword ∧ t.value = "end") := by
  cases line with
  | say as ending =>
    cases ending <;>
      exact ⟨sayToken, _, rfl, by decide, by decide, by decide⟩
  | set v => exact ⟨setToken, _, rfl, by decide, by decide, by decide⟩
  | call f arg =>
    have hf : f.type = TokenType.Identifier := by
      cases arg with
      | none => exact hwf
      | some a => exact hwf.1
    cases arg <;>
      exact ⟨f, _, rfl, by rw [hf]; decide, by rw [hf]; decide, by rw [hf]; simp⟩

/-- After the statement of a simple line the cursor is on the newline of the line or right
after it. -/
theorem line_consumed (nl : Token) (line : SimpleLine) :
    line.consumed = (line.tokens nl).length ∨
      (line.consumed + 1 = (line.tokens nl).length ∧
        (line.tokens nl).drop line.consumed = [nl]) := by
  cases line with
  | say as ending =>
    cases ending with
    | none => left; simp [SimpleLine.consumed, SimpleLine.tokens, SimpleLine.body]
    | some s =>
      right
      refine ⟨by simp [SimpleLine.consumed, SimpleLine.tokens, SimpleLine.body], ?_⟩
      have : (SimpleLine.say as (some s)).tokens nl =
          (sayToken :: (argTokens as ++ [endToken, eqToken, s])) ++ [nl] := rfl
      rw [this]
      have hlen : (SimpleLine.say as (some s)).consumed =
          (sayToken :: (argTokens as ++ [endToken, eqToken, s])).length := by
        simp [SimpleLine.consumed]
      rw [hlen, List.drop_left]
  | set v => right; exact ⟨rfl, rfl⟩
  | call f arg => cases arg <;> (right; exact ⟨rfl, rfl⟩)

/-- One iteration of the block loop over a simple line, below the limit of the counter. -/
theorem block_loop_line (fuel : Nat) (toks : List Token) (pos : Nat) (nl : Token)
    (line : SimpleLine) (rest : List Token) (body : List Statement) (sc : Nat)
    (hnl : nl.type = TokenType.Newline) (hwf : line.wellFormed)
    (hdrop : toks.drop pos = line.tokens nl ++ rest) (hsc : sc + 1 ≤ 10000) :
    parse_block_loop (fuel + 2) toks pos body sc =
      parse_block_loop (fuel + 1) toks (pos + (line.tokens nl).length)
        (body ++ [line.statement]) (sc + 1) := by
  obtain ⟨t, r, htr, h1, h2, h3⟩ := line_head nl line hwf
  have hp : peek toks pos = t := by
    rw [peek_of_drop hdrop, htr]; rfl
  have hsk : skip_newlines toks pos = pos := skip_newlines_of_ne (by rw [hp]; exact h1)
  have hs := parse_statement_line fuel toks pos nl line rest hnl hwf hdrop
  have hguard : ¬(sc + 1 > 10000) := by omega
  rw [parse_block_loop]
  simp only [hsk, hp, h2, h3, hs, hguard, if_false]
  rcases line_consumed nl line with hc | ⟨hc, hd⟩
  · rw [hc]
  · have hd1 : toks.drop (pos + line.consumed) = nl :: rest := by
      rw [← List.drop_drop, hdrop, List.drop_append_of_le_length (by omega), hd]
      rfl
    rw [parse_block_loop_skip (fuel + 1) hnl hd1, ← hc, Nat.add_assoc]

/-- The iteration of the block loop that takes the counter over its limit. -/
theorem block_loop_line_guard (fuel : Nat) (toks : List Token) (pos : Nat) (nl : Token)
    (line : SimpleLine) (rest : List Token) (body : List Statement) (sc : Nat)
    (hnl : nl.type = TokenType.Newline) (hwf : line.wellFormed)
    (hdrop : toks.drop pos = line.tokens nl ++ rest) (hsc : 10000 < sc + 1) :
    parse_block_loop (fuel + 2) toks pos body sc =
      Outcome.error "Too many statements parsed without encountering 'end'"
        (pos + line.consumed) := by
  obtain ⟨t, r, htr, h1, h2, h3⟩ := line_head nl line hwf
  have hp : peek toks pos = t := by
    rw [peek_of_drop hdrop, htr]; rfl
  have hsk : skip_newlines toks pos = pos := skip_newlines_of_ne (by rw [hp]; exact h1)
  have hs := parse_statement_line fuel toks pos nl line rest hnl hwf hdrop
  have hguard : sc + 1 > 10000 := hsc
  rw [parse_block_loop]
  simp only [hsk, hp, h2, h3, hs, hguard, if_false, if_true]

/-- The block loop over a sequence of simple lines that keeps the counter within its
limit: one iteration per line, the body grows by the statements of the lines. -/
theorem block_loop_lines (nl : Token) (hnl : nl.type = TokenType.Newline)
    (lines : List SimpleLine) :
    ∀ (fuel : Nat) (toks : List Token) (pos : Nat) (rest : List Token)
      (body : List Statement) (sc : Nat),
      (∀ l ∈ lines, l.wellFormed) →
      toks.drop pos = linesTokens nl lines ++ rest →
      sc + lines.length ≤ 10000 →
      parse_block_loop (lines.length + (fuel + 1)) toks pos body sc =
        parse_block_loop (fuel + 1) toks (pos + (linesTokens nl lines).length)
          (body ++ lines.map SimpleLine.statement) (sc + lines.length) := by
  induction lines with
  | nil =>
    intro fuel toks pos rest body sc _ _ _
    simp [linesTokens]
  | cons line lines ih =>
    intro fuel toks pos rest body sc hwf hdrop hsc
    have hwf1 : line.wellFormed := hwf line (List.mem_cons_self _ _)
    have hwf2 : ∀ l ∈ lines, l.wellFormed := fun l hl => hwf l (List.mem_cons_of_mem _ hl)
    have hd : toks.drop pos = line.tokens nl ++ (linesTokens nl lines ++ rest) := by
      rw [hdrop, linesTokens, List.append_assoc]
    have hd2 : toks.drop (pos + (line.tokens nl).length) = linesTokens nl lines ++ rest := by
      rw [← List.drop_drop, hd, List.drop_left]
    have hlen : (line :: lines).length + (fuel + 1) = (lines.length + fuel) + 2 := by
      simp only [List.length_cons]; omega
    simp only [List.length_cons] at hsc
    rw [hlen, block_loop_line _ toks pos nl line _ body sc hnl hwf1 hd (by omega)]
    have hlen2 : lines.length + fuel + 1 = lines.length + (fuel + 1) := by omega
    rw [hlen2, ih fuel toks _ rest _ _ hwf2 hd2 (by omega)]
    simp only [linesTokens, List.length_append, List.map_cons, List.length_cons,
      List.append_assoc, List.singleton_append]
    congr 1 <;> omega

/-- The iteration of the block loop that meets `end`. -/
theorem block_loop_end (fuel : Nat) (toks : List Token) (pos : Nat) (t : Token)
    (rest : List Token) (body : List Statement) (sc : Nat) (ht : t.isEnd)
    (hdrop : toks.drop pos = t :: rest) :
    parse_block_loop (fuel + 1) toks pos body sc = Outcome.ok body (pos + 1) := by
  obtain ⟨hp, ha, _⟩ := cursor_cons hdrop
  have hsk : skip_newlines toks pos = pos :=
    skip_newlines_of_ne (by rw [hp, ht.1]; decide)
  have ht' : t.type = TokenType.Keyword ∧ t.value = "end" := ht
  rw [parse_block_loop]
  simp only [hsk, hp, ha, ht', and_self, if_true]

/-- The iteration of the block loop that meets the end of the input. -/
theorem block_loop_eof (fuel : Nat) (toks : List Token) (pos : Nat)
    (body : List Statement) (sc : Nat)
    (heof : (peek toks pos).type = TokenType.EOFToken) :
    parse_block_loop (fuel + 1) toks pos body sc =
      Outcome.error "Unexpected end of file inside block." pos := by
  have hsk : skip_newlines toks pos = pos :=
    skip_newlines_of_ne (by rw [heof]; decide)
  have hne : ¬((peek toks pos).type = TokenType.Keyword ∧ (peek toks pos).value = "end") := by
    rw [heof]; simp
  rw [parse_block_loop]
  simp only [hsk]
  rw [if_neg hne, if_pos heof]

theorem linesTokens_append (nl : Token) (l1 l2 : List SimpleLine) :
    linesTokens nl (l1 ++ l2) = linesTokens nl l1 ++ linesTokens nl l2 := by
  induction l1 with
  | nil => rfl
  | cons a r ih => simp [linesTokens, ih]

theorem length_le_linesTokens (nl : Token) (lines : List SimpleLine) :
    lines.length ≤ (linesTokens nl lines).length := by
  induction lines with
  | nil => simp [linesTokens]
  | cons a r ih =>
    simp only [linesTokens, List.length_cons, List.length_append, SimpleLine.tokens,
      List.length_nil]
    omega

theorem linesTokens_replicate_length (nl : Token) (l : SimpleLine) (k : Nat) :
    (linesTokens nl (List.replicate k l)).length = k * (l.tokens nl).length := by
  induction k with
  | zero => simp [linesTokens]
  | succ k ih =>
    rw [List.replicate_succ, linesTokens, List.length_append, ih]
    rw [Nat.succ_mul]
    omega

/-! ## Blocks without `end` -/

theorem mem_drop_of_le_of_lt {toks : List Token} {pos i : Nat} (h1 : pos ≤ i)
    (h2 : i < toks.length) : toks.get ⟨i, h2⟩ ∈ toks.drop pos := by
  have hi : pos + (i - pos) = i := by omega
  rw [List.mem_iff_getElem]
  refine ⟨i - pos, by rw [List.length_drop]; omega, ?_⟩
  simp only [List.getElem_drop, List.get_eq_getElem, hi]

/-- A block loop that returns has met a keyword `end` at or after its start. -/
theorem block_ok_has_end (fuel : Nat) (toks : List Token) (pos : Nat)
    (body : List Statement) (sc : Nat) (body' : List Statement) (p : Nat)
    (h : parse_block_loop fuel toks pos body sc = Outcome.ok body' p) :
    ∃ t ∈ toks.drop pos, t.isEnd := by
  obtain ⟨hlt, hend⟩ := (parse_progress fuel).2.2 toks pos body sc body' p h
  have hlen : p - 1 < toks.length :=
    lt_length_of_peek_ne_eof (by rw [hend.1]; decide)
  rw [peek_of_lt hlen] at hend
  exact ⟨_, mem_drop_of_le_of_lt (by omega) hlen, hend⟩

/-- Where the error of a failing block loop comes from: the end of the input, the counter,
or a statement grammar that threw at some position of the block. -/
theorem block_error_source (fuel : Nat) :
    ∀ (toks : List Token) (pos : Nat) (body : List Statement) (sc : Nat) (msg : String)
      (p : Nat),
      parse_block_loop fuel toks pos body sc = Outcome.error msg p →
      msg = "Unexpected end of file inside block." ∨
        msg = "Too many statements parsed without encountering 'end'" ∨
        ∃ fuel' pos', pos ≤ pos' ∧ parse_statement fuel' toks pos' = Outcome.error msg p := by
  induction fuel with
  | zero =>
    intro toks pos body sc msg p h
    rw [parse_block_loop] at h
    cases h
  | succ fuel ih =>
    intro toks pos body sc msg p h
    rw [parse_block_loop] at h
    simp only at h
    have hsk := le_skip_newlines toks pos
    generalize skip_newlines toks pos = pos1 at h hsk
    repeat' first | (cases h; done) | split at h
    · cases h; exact Or.inl rfl
    · rename_i m q hs
      cases h
      exact Or.inr (Or.inr ⟨fuel, pos1, hsk, hs⟩)
    · cases h; exact Or.inr (Or.inl rfl)
    · rename_i stmt q hs _
      have hp := (parse_progress fuel).1 _ _ _ _ hs
      have h2 := le_skip_newlines toks pos1
      rcases ih _ _ _ _ _ _ h with h1 | h1 | ⟨f', p', hle, hs'⟩
      · exact Or.inl h1
      · exact Or.inr (Or.inl h1)
      · exact Or.inr (Or.inr ⟨f', p', by omega, hs'⟩)
    · cases h; exact Or.inr (Or.inl rfl)
    · rename_i q hs _
      have hp := (parse_progress fuel).1 _ _ _ _ hs
      have h2 := le_skip_newlines toks pos1
      have h3 := le_advance toks q
      rcases ih _ _ _ _ _ _ h with h1 | h1 | ⟨f', p', hle, hs'⟩
      · exact Or.inl h1
      · exact Or.inr (Or.inl h1)
      · exact Or.inr (Or.inr ⟨f', p', by omega, hs'⟩)

/-! ## The `for`, `function` and skip paths of the dispatcher -/

/-- The dispatcher on a token no grammar starts with: the token is consumed and no
statement is returned. -/
theorem parse_statement_unrecognised (fuel : Nat) (toks : List Token) (pos : Nat) (t : Token)
    (rest : List Token) (ht : t.unrecognised) (hdrop : toks.drop pos = t :: rest) :
    parse_statement (fuel + 1) toks pos = Outcome.ok none (pos + 1) := by
  obtain ⟨hp, ha, _⟩ := cursor_cons hdrop
  have hsk : skip_newlines toks pos = pos := by
    apply skip_newlines_of_ne
    rw [hp]
    rcases ht with h | h | ⟨h, _⟩ <;> rw [h] <;> decide
  rw [parse_statement]
  simp only [hsk, hp, ha]
  rcases ht with h | h | ⟨h, h1, h2, h3, h4, h5⟩
  · simp [h]
  · simp [h]
  · simp [h, h1, h2, h3, h4, h5]

/-- An iteration of the block loop on a token no grammar starts with: the dispatcher
consumes the token and the loop consumes the token after it. -/
theorem block_loop_unrecognised (fuel : Nat) (toks : List Token) (pos : Nat) (t t2 : Token)
    (rest : List Token) (body : List Statement) (sc : Nat) (ht : t.unrecognised)
    (hne : ¬t.isEnd) (hdrop : toks.drop pos = t :: t2 :: rest) (hsc : sc + 1 ≤ 10000) :
    parse_block_loop (fuel + 2) toks pos body sc =
      parse_block_loop (fuel + 1) toks (pos + 2) body (sc + 1) := by
  obtain ⟨hp, ha, hd1⟩ := cursor_cons hdrop
  obtain ⟨_, ha1, _⟩ := cursor_cons hd1
  have htype : t.type ≠ TokenType.Newline ∧ t.type ≠ TokenType.EOFToken := by
    rcases ht with h | h | ⟨h, _⟩ <;> rw [h] <;> decide
  have hsk : skip_newlines toks pos = pos := skip_newlines_of_ne (by rw [hp]; exact htype.1)
  have hs := parse_statement_unrecognised fuel toks pos t _ ht hdrop
  have hne' : ¬(t.type = TokenType.Keyword ∧ t.value = "end") := hne
  have hguard : ¬(sc + 1 > 10000) := by omega
  rw [parse_block_loop]
  simp only [hsk, hp, hne', htype.2, hs, ha1, hguard, if_false]

/-- The dispatcher on the keyword `for`. -/
theorem parse_statement_for (fuel : Nat) (toks : List Token) (pos : Nat)
    (ht : (peek toks pos).type = TokenType.Keyword) (hv : (peek toks pos).value = "for") :
    parse_statement (fuel + 1) toks pos = parse_for_statement fuel toks pos := by
  have hsk : skip_newlines toks pos = pos := skip_newlines_of_ne (by rw [ht]; decide)
  rw [parse_statement]
  simp [hsk, ht, hv]

/-- The header of a `for` statement: six tokens are consumed, newlines are skipped and the
body is what the block loop returns from there. -/
theorem parse_for_header (fuel : Nat) (toks : List Token) (pos : Nat) (v ta tb : Token)
    (a b : Int) (rest : List Token) (hv : v.type = TokenType.Identifier)
    (ha : stoi ta.value = some a) (hb : stoi tb.value = some b)
    (hdrop : toks.drop pos = kw "for" :: v :: kw "from" :: ta :: kw "to" :: tb :: rest) :
    parse_for_statement (fuel + 1) toks pos =
      (parse_block_loop fuel toks (skip_newlines toks (pos + 6)) [] 0).map
        (fun body => some (Statement.ForStatement v.value a b body)) := by
  obtain ⟨_, h0, d1⟩ := cursor_cons hdrop
  obtain ⟨_, h1, d2⟩ := cursor_cons d1
  obtain ⟨_, h2, d3⟩ := cursor_cons d2
  obtain ⟨_, h3, d4⟩ := cursor_cons d3
  obtain ⟨_, h4, d5⟩ := cursor_cons d4
  obtain ⟨_, h5, _⟩ := cursor_cons d5
  rw [parse_for_statement]
  simp only [h0, h1, h2, h3, h4, h5, hv, ha, hb, kw]
  simp only [ne_eq, not_true_eq_false, or_self, if_false]
  cases parse_block_loop fuel toks (skip_newlines toks (pos + 1 + 1 + 1 + 1 + 1 + 1)) [] 0 <;>
    rfl

/-- The top-level loop on a last newline. -/
theorem parse_loop_trailing_newline (fuel : Nat) (toks : List Token) (n pos : Nat)
    (sts : List Statement) (nl : Token) (hnl : nl.type = TokenType.Newline)
    (hdrop : toks.drop pos = [nl]) :
    parse_loop (fuel + 1) toks (n + 2) pos sts =
      Outcome.ok { statements := sts } (pos + 1) := by
  obtain ⟨hp, ha, hd1⟩ := cursor_cons hdrop
  obtain ⟨hp1, ha1⟩ := cursor_nil hd1
  have hlt : pos < toks.length := lt_length_of_peek_ne_eof (by rw [hp, hnl]; decide)
  have hge : toks.length ≤ pos + 1 := List.drop_eq_nil_iff.mp hd1
  have hsk : skip_newlines toks pos = pos + 1 := by
    rw [skip_newlines_unfold, hp, if_pos hnl, ha]
    exact skip_newlines_of_ne (by rw [hp1]; decide)
  have hs : parse_statement (fuel + 1) toks pos = Outcome.ok none (pos + 1) := by
    rw [parse_statement]
    simp only [hsk, hp1]
    rfl
  rw [parse_loop, if_pos hlt]
  simp only [hp, hnl, hs, ha1]
  rw [parse_loop_done _ _ _ _ _ hge]
  simp

/-- The block of a `for` statement whose body is simple lines: the colon and the newline
after it take the first iteration of the block loop, each line takes one more, and `end`
closes the block. -/
theorem for_block_lines (fuel : Nat) (toks : List Token) (pos : Nat) (nl : Token)
    (lines : List SimpleLine) (rest : List Token) (hnl : nl.type = TokenType.Newline)
    (hwf : ∀ l ∈ lines, l.wellFormed) (hk : lines.length ≤ 9999)
    (hdrop : toks.drop pos = colonToken :: nl :: (linesTokens nl lines ++ endToken :: rest)) :
    parse_block_loop (lines.length + (fuel + 1) + 1) toks pos [] 0 =
      Outcome.ok (lines.map SimpleLine.statement)
        (pos + 2 + (linesTokens nl lines).length + 1) := by
  have hd2 : toks.drop (pos + 2) = linesTokens nl lines ++ endToken :: rest := by
    rw [← List.drop_drop, hdrop]; rfl
  have hd3 : toks.drop (pos + 2 + (linesTokens nl lines).length) = endToken :: rest := by
    rw [← List.drop_drop, hd2, List.drop_left]
  have h1 : lines.length + (fuel + 1) + 1 = (lines.length + fuel) + 2 := by omega
  have h2 : lines.length + fuel + 1 = lines.length + (fuel + 1) := by omega
  rw [h1, block_loop_unrecognised _ toks pos colonToken nl _ [] 0 (Or.inl rfl) (by decide)
    hdrop (by omega), h2,
    block_loop_lines nl hnl lines fuel toks (pos + 2) _ [] (0 + 1) hwf hd2 (by omega),
    block_loop_end fuel toks _ endToken rest _ _ ⟨rfl, rfl⟩ hd3]
  simp

theorem parse_loop_error (fuel : Nat) (toks : List Token) (n pos : Nat)
    (sts : List Statement) (msg : String) (p : Nat)
    (hne : (peek toks pos).type ≠ TokenType.EOFToken)
    (hs : parse_statement fuel toks pos = Outcome.error msg p) :
    parse_loop fuel toks (n + 1) pos sts = Outcome.error msg p := by
  rw [parse_loop, if_pos (lt_length_of_peek_ne_eof hne)]
  simp only [hne, if_false, hs]

/-- The block of a `for` statement whose body is 10000 simple lines: the colon has taken
the first iteration, so line 10000 takes the counter over its limit. -/
theorem for_block_guard (fuel : Nat) (toks : List Token) (pos : Nat) (nl : Token)
    (lines : List SimpleLine) (line : SimpleLine) (rest : List Token)
    (hnl : nl.type = TokenType.Newline) (hwf : ∀ l ∈ lines, l.wellFormed)
    (hwf1 : line.wellFormed) (hk : lines.length = 9999)
    (hdrop : toks.drop pos =
      colonToken :: nl :: (linesTokens nl lines ++ (line.tokens nl ++ rest))) :
    parse_block_loop (lines.length + (fuel + 1 + 1) + 1) toks pos [] 0 =
      Outcome.error "Too many statements parsed without encountering 'end'"
        (pos + 2 + (linesTokens nl lines).length + line.consumed) := by
  have hd2 : toks.drop (pos + 2) = linesTokens nl lines ++ (line.tokens nl ++ rest) := by
    rw [← List.drop_drop, hdrop]; rfl
  have hd3 : toks.drop (pos + 2 + (linesTokens nl lines).length) = line.tokens nl ++ rest := by
    rw [← List.drop_drop, hd2, List.drop_left]
  have h1 : lines.length + (fuel + 1 + 1) + 1 = (lines.length + (fuel + 1)) + 2 := by omega
  have h2 : lines.length + (fuel + 1) + 1 = lines.length + (fuel + 1 + 1) := by omega
  rw [h1, block_loop_unrecognised _ toks pos colonToken nl _ [] 0 (Or.inl rfl) (by decide)
    hdrop (by omega), h2,
    block_loop_lines nl hnl lines (fuel + 1) toks (pos + 2) _ [] (0 + 1) hwf hd2 (by omega),
    block_loop_line_guard fuel toks _ nl line rest _ _ hnl hwf1 hd3 (by omega)]

/-- A `for` statement whose body is 10000 simple lines fails on the counter of its block,
with the cursor right after the statement of the last line. -/
theorem for_loop_body_limit (v ta tb nl : Token) (a b : Int) (lines : List SimpleLine)
    (line : SimpleLine) (hv : v.type = TokenType.Identifier)
    (hsa : stoi ta.value = some a) (hsb : stoi tb.value = some b)
    (hnl : nl.type = TokenType.Newline) (hwf : ∀ l ∈ lines, l.wellFormed)
    (hwf1 : line.wellFormed) (hk : lines.length = 9999) :
    parse (kw "for" :: v :: kw "from" :: ta :: kw "to" :: tb :: colonToken :: nl ::
        (linesTokens nl (lines ++ [line]) ++ [endToken, nl])) =
      Outcome.error "Too many statements parsed without encountering 'end'"
        (8 + (linesTokens nl lines).length + line.consumed) := by
  have hrep : linesTokens nl (lines ++ [line]) = linesTokens nl lines ++ line.tokens nl := by
    rw [linesTokens_append]
    simp [linesTokens]
  rw [hrep]
  generalize htoks : (kw "for" :: v :: kw "from" :: ta :: kw "to" :: tb :: colonToken :: nl ::
    (linesTokens nl lines ++ line.tokens nl ++ [endToken, nl])) = toks
  have hkl := length_le_linesTokens nl lines
  have hlen : toks.length =
      (linesTokens nl lines).length + (line.tokens nl).length + 10 := by
    rw [← htoks]
    simp only [List.length_cons, List.length_append, List.length_nil]
  have hd0 : toks.drop 0 = kw "for" :: v :: kw "from" :: ta :: kw "to" :: tb ::
      (colonToken :: nl :: (linesTokens nl lines ++ (line.tokens nl ++ [endToken, nl]))) := by
    rw [← htoks]; simp
  have hd6 : toks.drop (0 + 6) = colonToken :: nl ::
      (linesTokens nl lines ++ (line.tokens nl ++ [endToken, nl])) := by
    rw [← List.drop_drop, hd0]; rfl
  have hp0 := (cursor_cons hd0).1
  have hp6 := (cursor_cons hd6).1
  have hsk6 : skip_newlines toks (0 + 6) = 0 + 6 :=
    skip_newlines_of_ne (by rw [hp6]; decide)
  obtain ⟨f, hf⟩ : ∃ f, parseFuel toks = (lines.length + (f + 1 + 1) + 1) + 1 + 1 :=
    ⟨parseFuel toks - lines.length - 5, by unfold parseFuel; omega⟩
  have hstmt : parse_statement (parseFuel toks) toks 0 =
      Outcome.error "Too many statements parsed without encountering 'end'"
        (8 + (linesTokens nl lines).length + line.consumed) := by
    rw [hf, parse_statement_for _ toks 0 (by rw [hp0]; rfl) (by rw [hp0]; rfl),
      parse_for_header _ toks 0 v ta tb a b _ hv hsa hsb hd0, hsk6,
      for_block_guard f toks (0 + 6) nl lines line [endToken, nl] hnl hwf hwf1 hk hd6]
    rfl
  unfold parse
  exact parse_loop_error _ toks _ 0 [] _ _ (by rw [hp0]; decide) hstmt

/-- The dispatcher on the keyword `function`, name and colon. -/
theorem parse_statement_function_noparam (fuel : Nat) (toks : List Token) (pos : Nat)
    (n : Token) (rest : List Token)
    (hdrop : toks.drop pos = kw "function" :: n :: colonToken :: rest) :
    parse_statement (fuel + 1) toks pos =
      (parse_block fuel toks (pos + 3)).map
        (fun body => some (Statement.FunctionDef n.value "" body)) := by
  obtain ⟨hp, h0, d1⟩ := cursor_cons hdrop
  obtain ⟨_, h1, d2⟩ := cursor_cons d1
  obtain ⟨_, h2, _⟩ := cursor_cons d2
  have hsk : skip_newlines toks pos = pos := skip_newlines_of_ne (by rw [hp]; decide)
  have heof : ¬((kw "function").type = TokenType.EOFToken) := by decide
  have hfor : ¬((kw "function").type = TokenType.Keyword ∧ (kw "function").value = "for") := by
    decide
  have hfun : (kw "function").type = TokenType.Keyword ∧
      (kw "function").value = "function" := ⟨rfl, rfl⟩
  have hcol : colonToken.type = TokenType.Symbol ∧ colonToken.value = ":" := ⟨rfl, rfl⟩
  rw [parse_statement]
  simp only [hsk, hp]
  rw [if_neg heof, if_neg hfor, if_pos hfun]
  simp only [h0, h1, h2]
  rw [if_pos hcol]
  unfold parse_block
  cases parse_block_loop fuel toks (pos + 1 + 1 + 1) [] 0 <;> rfl

/-- The dispatcher on the keyword `function`, name, parameter and a fourth token. -/
theorem parse_statement_function_param (fuel : Nat) (toks : List Token) (pos : Nat)
    (n p c : Token) (rest : List Token)
    (hp : ¬(p.type = TokenType.Symbol ∧ p.value = ":"))
    (hdrop : toks.drop pos = kw "function" :: n :: p :: c :: rest) :
    parse_statement (fuel + 1) toks pos =
      if c.value ≠ ":" then
        Outcome.error "Expected ':' after parameter in function definition" (pos + 4)
      else
        (parse_block fuel toks (pos + 4)).map
          (fun body => some (Statement.FunctionDef n.value p.value body)) := by
  obtain ⟨hpk, h0, d1⟩ := cursor_cons hdrop
  obtain ⟨_, h1, d2⟩ := cursor_cons d1
  obtain ⟨_, h2, d3⟩ := cursor_cons d2
  obtain ⟨_, h3, _⟩ := cursor_cons d3
  have hsk : skip_newlines toks pos = pos := skip_newlines_of_ne (by rw [hpk]; decide)
  have heof : ¬((kw "function").type = TokenType.EOFToken) := by decide
  have hfor : ¬((kw "function").type = TokenType.Keyword ∧ (kw "function").value = "for") := by
    decide
  have hfun : (kw "function").type = TokenType.Keyword ∧
      (kw "function").value = "function" := ⟨rfl, rfl⟩
  rw [parse_statement]
  simp only [hsk, hpk]
  rw [if_neg heof, if_neg hfor, if_pos hfun]
  simp only [h0, h1, h2, h3]
  rw [if_neg hp]
  unfold parse_block
  split
  · rfl
  · cases parse_block_loop fuel toks (pos + 1 + 1 + 1 + 1) [] 0 <;> rfl

/-- The dispatcher on the keyword `function`, name and parameter at the end of the
input. -/
theorem parse_statement_function_param_eof (fuel : Nat) (toks : List Token) (pos : Nat)
    (n p : Token) (hp : ¬(p.type = TokenType.Symbol ∧ p.value = ":"))
    (hdrop : toks.drop pos = [kw "function", n, p]) :
    parse_statement (fuel + 1) toks pos =
      Outcome.error "Expected ':' after parameter in function definition" (pos + 3) := by
  obtain ⟨hpk, h0, d1⟩ := cursor_cons hdrop
  obtain ⟨_, h1, d2⟩ := cursor_cons d1
  obtain ⟨_, h2, d3⟩ := cursor_cons d2
  obtain ⟨_, h3⟩ := cursor_nil d3
  have hsk : skip_newlines toks pos = pos := skip_newlines_of_ne (by rw [hpk]; decide)
  have heof : ¬((kw "function").type = TokenType.EOFToken) := by decide
  have hfor : ¬((kw "function").type = TokenType.Keyword ∧ (kw "function").value = "for") := by
    decide
  have hfun : (kw "function").type = TokenType.Keyword ∧
      (kw "function").value = "function" := ⟨rfl, rfl⟩
  have hdummy : dummy_eof_token.value ≠ ":" := by decide
  rw [parse_statement]
  simp only [hsk, hpk]
  rw [if_neg heof, if_neg hfor, if_pos hfun]
  simp only [h0, h1, h2, h3]
  rw [if_neg hp, if_pos hdummy]

/-! ## More fuel does not change a result -/

theorem Outcome.map_eq_of_ne {α β : Type} (f : α → β) (o o' : Outcome α) (r : Outcome β)
    (hrel : o ≠ Outcome.outOfFuel → o' = o) (h : o.map f = r) (hr : r ≠ Outcome.outOfFuel) :
    o'.map f = r := by
  cases o with
  | outOfFuel => exact absurd h.symm hr
  | ok a p => rw [hrel (by simp)]; exact h
  | error m p => rw [hrel (by simp)]; exact h

set_option maxHeartbeats 2000000 in
/-- A result other than `outOfFuel` is the result with one more unit of fuel. -/
theorem parse_fuel_succ (fuel : Nat) :
    (∀ (toks : List Token) (pos : Nat),
      parse_statement fuel toks pos ≠ Outcome.outOfFuel →
      parse_statement (fuel + 1) toks pos = parse_statement fuel toks pos) ∧
    (∀ (toks : List Token) (pos : Nat),
      parse_for_statement fuel toks pos ≠ Outcome.outOfFuel →
      parse_for_statement (fuel + 1) toks pos = parse_for_statement fuel toks pos) ∧
    (∀ (toks : List Token) (pos : Nat) (body : List Statement) (sc : Nat),
      parse_block_loop fuel toks pos body sc ≠ Outcome.outOfFuel →
      parse_block_loop (fuel + 1) toks pos body sc = parse_block_loop fuel toks pos body sc) := by
  induction fuel with
  | zero =>
    refine ⟨?_, ?_, ?_⟩
    · intro toks pos h; rw [parse_statement] at h; exact absurd rfl h
    · intro toks pos h; rw [parse_for_statement] at h; exact absurd rfl h
    · intro toks pos body sc h; rw [parse_block_loop] at h; exact absurd rfl h
  | succ fuel ih =>
    obtain ⟨ihS, ihF, ihB⟩ := ih
    refine ⟨?_, ?_, ?_⟩
    · intro toks pos h
      rw [parse_statement] at h
      rw [parse_statement, parse_statement]
      simp only at h ⊢
      split_ifs at h ⊢ <;> try (with_reducible rfl)
      · exact ihF _ _ h
      all_goals
        rename_i hb
        rw [ihB _ _ _ _ (by intro hc; rw [hc] at h; exact h rfl)]
    · intro toks pos h
      by_cases hb : parse_block_loop fuel toks (skip_newlines toks
          (advance toks (advance toks (advance toks (advance toks (advance toks
            (advance toks pos).2).2).2).2).2).2) [] 0 = Outcome.outOfFuel
      · rw [parse_for_statement] at h
        rw [parse_for_statement, parse_for_statement]
        simp only at h ⊢
        rw [hb] at h ⊢
        generalize parse_block_loop (fuel + 1) toks (skip_newlines toks
          (advance toks (advance toks (advance toks (advance toks (advance toks
            (advance toks pos).2).2).2).2).2).2) [] 0 = o'
        by_cases h1 : (advance toks (advance toks pos).2).1.type ≠ TokenType.Identifier
        · simp only [if_pos h1]
        · simp only [if_neg h1] at h ⊢
          by_cases h2 : (advance toks (advance toks (advance toks pos).2).2).1.type ≠
              TokenType.Keyword ∨
              (advance toks (advance toks (advance toks pos).2).2).1.value ≠ "from"
          · simp only [if_pos h2]
          · simp only [if_neg h2] at h ⊢
            cases hs1 : stoi (advance toks (advance toks (advance toks
                (advance toks pos).2).2).2).1.value with
            | none => rfl
            | some a =>
              simp only [hs1] at h ⊢
              by_cases h3 : (advance toks (advance toks (advance toks (advance toks
                  (advance toks pos).2).2).2).2).1.type ≠ TokenType.Keyword ∨
                  (advance toks (advance toks (advance toks (advance toks
                    (advance toks pos).2).2).2).2).1.value ≠ "to"
              · simp only [if_pos h3]
              · simp only [if_neg h3] at h ⊢
                cases hs2 : stoi (advance toks (advance toks (advance toks (advance toks
                    (advance toks (advance toks pos).2).2).2).2).2).1.value with
                | none => rfl
                | some b =>
                  simp only [hs2] at h
                  exact absurd rfl h
      · rw [parse_for_statement, parse_for_statement]
        simp only
        rw [ihB _ _ _ _ hb]
    · intro toks pos body sc h
      rw [parse_block_loop] at h
      rw [parse_block_loop, parse_block_loop]
      simp only at h ⊢
      by_cases hend : (peek toks (skip_newlines toks pos)).type = TokenType.Keyword ∧
          (peek toks (skip_newlines toks pos)).value = "end"
      · simp only [if_pos hend]
      · simp only [if_neg hend] at h ⊢
        by_cases heof : (peek toks (skip_newlines toks pos)).type = TokenType.EOFToken
        · simp only [if_pos heof]
        · simp only [if_neg heof] at h ⊢
          have hs : parse_statement fuel toks (skip_newlines toks pos) ≠
              Outcome.outOfFuel := by
            intro hc; rw [hc] at h; exact h rfl
          rw [ihS _ _ hs]
          generalize parse_statement fuel toks (skip_newlines toks pos) = o at h hs ⊢
          match o, h, hs with
          | Outcome.outOfFuel, _, hs => exact absurd rfl hs
          | Outcome.error msg p, _, _ => rfl
          | Outcome.ok (some stmt) q, h, _ =>
            simp only at h ⊢
            by_cases hg : sc + 1 > 10000
            · simp only [if_pos hg]
            · simp only [if_neg hg] at h ⊢
              exact ihB _ _ _ _ h
          | Outcome.ok none q, h, _ =>
            simp only at h ⊢
            by_cases hg : sc + 1 > 10000
            · simp only [if_pos hg]
            · simp only [if_neg hg] at h ⊢
              exact ihB _ _ _ _ h

/-- A result other than `outOfFuel` is the result with any larger fuel. -/
theorem parse_fuel_mono (fuel k : Nat) :
    (∀ (toks : List Token) (pos : Nat),
      parse_statement fuel toks pos ≠ Outcome.outOfFuel →
      parse_statement (fuel + k) toks pos = parse_statement fuel toks pos) ∧
    (∀ (toks : List Token) (pos : Nat) (body : List Statement) (sc : Nat),
      parse_block_loop fuel toks pos body sc ≠ Outcome.outOfFuel →
      parse_block_loop (fuel + k) toks pos body sc =
        parse_block_loop fuel toks pos body sc) := by
  induction k with
  | zero => exact ⟨fun _ _ _ => rfl, fun _ _ _ _ _ => rfl⟩
  | succ k ih =>
    constructor
    · intro toks pos h
      have h1 := ih.1 toks pos h
      rw [← Nat.add_assoc, (parse_fuel_succ (fuel + k)).1 toks pos (by rw [h1]; exact h), h1]
    · intro toks pos body sc h
      have h1 := ih.2 toks pos body sc h
      rw [← Nat.add_assoc,
        (parse_fuel_succ (fuel + k)).2.2 toks pos body sc (by rw [h1]; exact h), h1]

/-- The top-level loop: a result other than `outOfFuel` is the result with more fuel and a
larger iteration bound. -/
theorem parse_loop_mono (toks : List Token) (fuel k : Nat) (n : Nat) :
    ∀ (j pos : Nat) (sts : List Statement),
      parse_loop fuel toks n pos sts ≠ Outcome.outOfFuel →
      parse_loop (fuel + k) toks (n + j) pos sts = parse_loop fuel toks n pos sts := by
  induction n with
  | zero =>
    intro j pos sts h
    rw [parse_loop] at h
    exact absurd rfl h
  | succ n ih =>
    intro j pos sts h
    have hnj : n + 1 + j = (n + j) + 1 := by omega
    rw [parse_loop] at h
    rw [hnj, parse_loop, parse_loop]
    simp only at h ⊢
    by_cases hlt : pos < toks.length
    · simp only [if_pos hlt] at h ⊢
      by_cases heof : (peek toks pos).type = TokenType.EOFToken
      · simp only [if_pos heof]
      · simp only [if_neg heof] at h ⊢
        have hs : parse_statement fuel toks pos ≠ Outcome.outOfFuel := by
          intro hc; rw [hc] at h; exact h rfl
        rw [(parse_fuel_mono fuel k).1 toks pos hs]
        generalize parse_statement fuel toks pos = o at h hs ⊢
        match o, h, hs with
        | Outcome.outOfFuel, _, hs => exact absurd rfl hs
        | Outcome.error msg p, _, _ => rfl
        | Outcome.ok (some stmt) q, h, _ => exact ih _ _ _ h
        | Outcome.ok none q, h, _ => exact ih _ _ _ h
    · simp only [if_neg hlt]

/-- Any run of the top-level loop from the start that is not cut short returns what `parse`
returns: the bounds `parse` passes to it do not shape the result. -/
theorem parse_loop_eq_parse (toks : List Token) (fuel n : Nat)
    (h : parse_loop fuel toks n 0 [] ≠ Outcome.outOfFuel) :
    parse_loop fuel toks n 0 [] = parse toks := by
  have hp := parse_ne_outOfFuel toks
  unfold parse at hp ⊢
  have h1 := parse_loop_mono toks fuel (parseFuel toks) n (toks.length + 1) 0 [] h
  have h2 := parse_loop_mono toks (parseFuel toks) fuel (toks.length + 1) n 0 [] hp
  rw [← h1, ← h2, Nat.add_comm fuel, Nat.add_comm n]

/-! ## Tagged calls -/

theorem allCallsTagged_append (l : List Statement) (s : Statement) :
    allCallsTagged (l ++ [s]) = (allCallsTagged l && s.callsTagged) := by
  induction l with
  | nil => simp [allCallsTagged]
  | cons a r ih => simp [allCallsTagged, ih, Bool.and_assoc]

theorem say_loop_callsTagged (toks : List Token) (n : Nat) :
    ∀ (pos : Nat) (args : List String) (vars : List Bool) (s : Statement) (p : Nat),
      say_loop toks n pos args vars = Outcome.ok (some s) p → s.callsTagged = true := by
  induction n with
  | zero =>
    intro pos args vars s p h
    rw [say_loop] at h
    cases h
  | succ n ih =>
    intro pos args vars s p h
    rw [say_loop] at h
    simp only at h
    repeat' first | (cases h; done) | split at h
    · cases h; rfl
    · cases h; rfl
    · exact ih _ _ _ _ _ h
    · exact ih _ _ _ _ _ h

theorem parse_callsTagged_aux (fuel : Nat) :
    (∀ (toks : List Token) (pos : Nat) (s : Statement) (p : Nat),
      parse_statement fuel toks pos = Outcome.ok (some s) p → s.callsTagged = true) ∧
    (∀ (toks : List Token) (pos : Nat) (s : Statement) (p : Nat),
      parse_for_statement fuel toks pos = Outcome.ok (some s) p → s.callsTagged = true) ∧
    (∀ (toks : List Token) (pos : Nat) (body : List Statement) (sc : Nat)
      (body' : List Statement) (p : Nat),
      parse_block_loop fuel toks pos body sc = Outcome.ok body' p →
      allCallsTagged body = true → allCallsTagged body' = true) := by
  induction fuel with
  | zero =>
    refine ⟨?_, ?_, ?_⟩
    · intro toks pos s p h; rw [parse_statement] at h; cases h
    · intro toks pos s p h; rw [parse_for_statement] at h; cases h
    · intro toks pos body sc body' p h; rw [parse_block_loop] at h; cases h
  | succ fuel ih =>
    obtain ⟨ihS, ihF, ihB⟩ := ih
    refine ⟨?_, ?_, ?_⟩
    · intro toks pos s p h
      rw [parse_statement] at h
      simp only at h
      split_ifs at h
      all_goals first
        | (cases h; done)
        | (cases h; rfl)
        | exact ihF _ _ _ _ h
        | exact say_loop_callsTagged _ _ _ _ _ _ _ h
        | (split at h <;> first
            | (cases h; done)
            | (rename_i body q hb
               cases h
               simpa [Statement.callsTagged] using ihB _ _ _ _ _ _ hb rfl))
        | (rename_i harg
           cases h
           simp only [Statement.callsTagged, advance_fst]
           rcases harg with h1 | h1 <;> rw [h1] <;> rfl)
    · intro toks pos s p h
      rw [parse_for_statement] at h
      simp only at h
      repeat' first | (cases h; done) | split at h
      all_goals
        rename_i body q hb
        cases h
        simpa [Statement.callsTagged] using ihB _ _ _ _ _ _ hb rfl
    · intro toks pos body sc body' p h hbody
      rw [parse_block_loop] at h
      simp only at h
      repeat' first | (cases h; done) | split at h
      · cases h; exact hbody
      · rename_i stmt q hs _
        refine ihB _ _ _ _ _ _ h ?_
        rw [allCallsTagged_append, hbody, ihS _ _ _ _ hs]
        rfl
      · exact ihB _ _ _ _ _ _ h hbody

theorem parse_loop_callsTagged (fuel : Nat) (toks : List Token) (n : Nat) :
    ∀ (pos : Nat) (sts : List Statement) (ast : AST) (p : Nat),
      parse_loop fuel toks n pos sts = Outcome.ok ast p →
      allCallsTagged sts = true → allCallsTagged ast.statements = true := by
  induction n with
  | zero =>
    intro pos sts ast p h
    rw [parse_loop] at h
    cases h
  | succ n ih =>
    intro pos sts ast p h hsts
    rw [parse_loop] at h
    simp only at h
    repeat' first | (cases h; done) | split at h
    · cases h; exact hsts
    · rename_i stmt q hs
      refine ih _ _ _ _ h ?_
      rw [allCallsTagged_append, hsts, (parse_callsTagged_aux fuel).1 _ _ _ _ hs]
      rfl
    · exact ih _ _ _ _ h hsts
    · cases h; exact hsts

/-- The dispatcher with an identifier ahead. -/
theorem parse_statement_call (fuel : Nat) (toks : List Token) (pos : Nat)
    (hf : (peek toks pos).type = TokenType.Identifier) :
    parse_statement (fuel + 1) toks pos =
      if (peek toks (pos + 1)).isArg then
        Outcome.ok (some (Statement.FunctionCall (peek toks pos).value
          (peek toks (pos + 1)).value (peek toks (pos + 1)).type)) (pos + 2)
      else
        Outcome.ok (some (Statement.FunctionCall (peek toks pos).value ""
          TokenType.EOFToken)) (pos + 1) := by
  have hlt : pos < toks.length := lt_length_of_peek_ne_eof (by rw [hf]; decide)
  have hsk : skip_newlines toks pos = pos := skip_newlines_of_ne (by rw [hf]; decide)
  have hadv : (advance toks pos).2 = pos + 1 := advance_snd_of_lt hlt
  have h1 : ¬((peek toks pos).type = TokenType.EOFToken) := by rw [hf]; decide
  have h2 : ∀ v : String, ¬((peek toks pos).type = TokenType.Keyword ∧
      (peek toks pos).value = v) := by
    intro v h; rw [hf] at h; exact TokenType.noConfusion h.1
  rw [parse_statement]
  simp only [hsk]
  rw [if_neg h1, if_neg (h2 _), if_neg (h2 _), if_neg (h2 _), if_neg (h2 _), if_neg (h2 _),
    if_pos hf]
  simp only [hadv, advance_fst]
  by_cases harg : (peek toks (pos + 1)).isArg
  · have hlt1 : pos + 1 < toks.length :=
      lt_length_of_peek_ne_eof (by rcases harg with h | h <;> rw [h] <;> decide)
    have harg' : (peek toks (pos + 1)).type = TokenType.StringLiteral ∨
        (peek toks (pos + 1)).type = TokenType.Identifier := harg
    rw [if_pos harg, if_pos harg', advance_snd_of_lt hlt1]
  · have harg' : ¬((peek toks (pos + 1)).type = TokenType.StringLiteral ∨
        (peek toks (pos + 1)).type = TokenType.Identifier) := harg
    rw [if_neg harg, if_neg harg']

/-- The dispatcher with the keyword `set` ahead. -/
theorem parse_statement_set_at (fuel : Nat) (toks : List Token) (pos : Nat)
    (ht : (peek toks pos).type = TokenType.Keyword) (hv : (peek toks pos).value = "set") :
    parse_statement (fuel + 1) toks pos =
      Outcome.ok (some (Statement.SetStatement (peek toks (pos + 1)).value))
        (if pos + 1 < toks.length then pos + 2 else pos + 1) := by
  have hlt : pos < toks.length := lt_length_of_peek_ne_eof (by rw [ht]; decide)
  have hsk : skip_newlines toks pos = pos := skip_newlines_of_ne (by rw [ht]; decide)
  have hadv : (advance toks pos).2 = pos + 1 := advance_snd_of_lt hlt
  have h1 : ¬((peek toks pos).type = TokenType.EOFToken) := by rw [ht]; decide
  have hn : ∀ v : String, v ≠ "set" → ¬((peek toks pos).type = TokenType.Keyword ∧
      (peek toks pos).value = v) := by
    intro v hne h; rw [hv] at h; exact hne h.2.symm
  have hset : (peek toks pos).type = TokenType.Keyword ∧ (peek toks pos).value = "set" :=
    ⟨ht, hv⟩
  rw [parse_statement]
  simp only [hsk]
  rw [if_neg h1, if_neg (hn _ (by decide)), if_neg (hn _ (by decide)),
    if_neg (hn _ (by decide)), if_neg (hn _ (by decide)), if_pos hset]
  simp only [hadv, advance_fst]
  by_cases hlt1 : pos + 1 < toks.length
  · rw [advance_snd_of_lt hlt1, if_pos hlt1]
  · rw [advance_snd_of_ge (Nat.le_of_not_lt hlt1), if_neg hlt1]

/-! ## Bodies come from closed blocks -/

theorem allBlocksClosed_append (toks : List Token) (l : List Statement) (s : Statement) :
    allBlocksClosed toks (l ++ [s]) ↔ (allBlocksClosed toks l ∧ s.blocksClosed toks) := by
  induction l with
  | nil => simp [allBlocksClosed]
  | cons a r ih => simp [allBlocksClosed, ih, and_assoc]

theorem say_loop_say (toks : List Token) (n : Nat) :
    ∀ (pos : Nat) (args : List String) (vars : List Bool) (s : Statement) (p : Nat),
      say_loop toks n pos args vars = Outcome.ok (some s) p →
      ∃ a v e, s = Statement.SayStatement a v e := by
  induction n with
  | zero =>
    intro pos args vars s p h
    rw [say_loop] at h
    cases h
  | succ n ih =>
    intro pos args vars s p h
    rw [say_loop] at h
    simp only at h
    repeat' first | (cases h; done) | split at h
    · cases h; exact ⟨_, _, _, rfl⟩
    · cases h; exact ⟨_, _, _, rfl⟩
    · exact ih _ _ _ _ _ h
    · exact ih _ _ _ _ _ h

theorem bodyClosed_of_loop (fuel : Nat) (toks : List Token) (pos : Nat)
    (body : List Statement) (q : Nat)
    (h : parse_block_loop fuel toks pos [] 0 = Outcome.ok body q) : bodyClosed toks body :=
  ⟨fuel, pos, q, h, (parse_progress fuel).2.2 toks pos [] 0 body q h⟩

theorem parse_closed_aux (fuel : Nat) :
    (∀ (toks : List Token) (pos : Nat) (s : Statement) (p : Nat),
      parse_statement fuel toks pos = Outcome.ok (some s) p → s.blocksClosed toks) ∧
    (∀ (toks : List Token) (pos : Nat) (s : Statement) (p : Nat),
      parse_for_statement fuel toks pos = Outcome.ok (some s) p → s.blocksClosed toks) ∧
    (∀ (toks : List Token) (pos : Nat) (body : List Statement) (sc : Nat)
      (body' : List Statement) (p : Nat),
      parse_block_loop fuel toks pos body sc = Outcome.ok body' p →
      allBlocksClosed toks body → allBlocksClosed toks body') := by
  induction fuel with
  | zero =>
    refine ⟨?_, ?_, ?_⟩
    · intro toks pos s p h; rw [parse_statement] at h; cases h
    · intro toks pos s p h; rw [parse_for_statement] at h; cases h
    · intro toks pos body sc body' p h; rw [parse_block_loop] at h; cases h
  | succ fuel ih =>
    obtain ⟨ihS, ihF, ihB⟩ := ih
    refine ⟨?_, ?_, ?_⟩
    · intro toks pos s p h
      rw [parse_statement] at h
      simp only at h
      split_ifs at h
      all_goals first
        | (cases h; done)
        | (cases h; exact trivial)
        | exact ihF _ _ _ _ h
        | (obtain ⟨a, v, e, hs⟩ := say_loop_say _ _ _ _ _ _ _ h
           rw [hs]
           exact trivial)
        | (split at h <;> first
            | (cases h; done)
            | (rename_i body q hb
               cases h
               exact ⟨bodyClosed_of_loop _ _ _ _ _ hb, ihB _ _ _ _ _ _ hb trivial⟩))
    · intro toks pos s p h
      rw [parse_for_statement] at h
      simp only at h
      repeat' first | (cases h; done) | split at h
      all_goals
        rename_i body q hb
        cases h
        exact ⟨bodyClosed_of_loop _ _ _ _ _ hb, ihB _ _ _ _ _ _ hb trivial⟩
    · intro toks pos body sc body' p h hbody
      rw [parse_block_loop] at h
      simp only at h
      repeat' first | (cases h; done) | split at h
      · cases h; exact hbody
      · rename_i stmt q hs _
        refine ihB _ _ _ _ _ _ h ?_
        rw [allBlocksClosed_append]
        exact ⟨hbody, ihS _ _ _ _ hs⟩
      · exact ihB _ _ _ _ _ _ h hbody

theorem parse_loop_closed (fuel : Nat) (toks : List Token) (n : Nat) :
    ∀ (pos : Nat) (sts : List Statement) (ast : AST) (p : Nat),
      parse_loop fuel toks n pos sts = Outcome.ok ast p →
      allBlocksClosed toks sts → allBlocksClosed toks ast.statements := by
  induction n with
  | zero =>
    intro pos sts ast p h
    rw [parse_loop] at h
    cases h
  | succ n ih =>
    intro pos sts ast p h hsts
    rw [parse_loop] at h
    simp only at h
    repeat' first | (cases h; done) | split at h
    · cases h; exact hsts
    · rename_i stmt q hs
      refine ih _ _ _ _ h ?_
      rw [allBlocksClosed_append]
      exact ⟨hsts, (parse_closed_aux fuel).1 _ _ _ _ hs⟩
    · exact ih _ _ _ _ h hsts
    · cases h; exact hsts

/-- A statement with a body that the `for` grammar returns: the body is the result of the
block parser, which stopped where the statement stops. -/
theorem parse_for_block (fuel : Nat) (toks : List Token) (pos : Nat) (os : Option Statement)
    (q : Nat) (h : parse_for_statement fuel toks pos = Outcome.ok os q) :
    ∃ s body f p, os = some s ∧ s.isBlock = true ∧ s.body? = some body ∧ pos ≤ p ∧
      parse_block f toks p = Outcome.ok body q := by
  cases fuel with
  | zero => rw [parse_for_statement] at h; cases h
  | succ fuel =>
    rw [parse_for_statement] at h
    simp only at h
    repeat' first | (cases h; done) | split at h
    all_goals
      rename_i body p hb
      cases h
      refine ⟨_, body, fuel, _, rfl, rfl, rfl, ?_, hb⟩
      have h1 := le_advance toks pos
      have h2 := le_advance toks (advance toks pos).2
      have h3 := le_advance toks (advance toks (advance toks pos).2).2
      have h4 := le_advance toks (advance toks (advance toks (advance toks pos).2).2).2
      have h5 := le_advance toks
        (advance toks (advance toks (advance toks (advance toks pos).2).2).2).2
      have h6 := le_advance toks
        (advance toks (advance toks (advance toks (advance toks (advance toks pos).2).2).2).2).2
      have h7 := le_skip_newlines toks (advance toks (advance toks
        (advance toks (advance toks (advance toks (advance toks pos).2).2).2).2).2).2
      omega

/-- A statement with a body that the dispatcher returns: the body is the result of a run
of the block parser that stopped where the statement stops. -/
theorem parse_statement_block (fuel : Nat) (toks : List Token) (pos : Nat) (s : Statement)
    (q : Nat) (h : parse_statement fuel toks pos = Outcome.ok (some s) q)
    (hblk : s.isBlock = true) :
    ∃ body f p, s.body? = some body ∧ pos ≤ p ∧ parse_block f toks p = Outcome.ok body q := by
  cases fuel with
  | zero => rw [parse_statement] at h; cases h
  | succ fuel =>
    have hsk := le_skip_newlines toks pos
    rw [parse_statement] at h
    simp only at h
    split_ifs at h
    all_goals first
      | (cases h; done)
      | (cases h; cases hblk)
      | (obtain ⟨s', body, f, p, hs, _, hb, hp, hpb⟩ := parse_for_block _ _ _ _ _ h
         cases hs
         exact ⟨body, f, p, hb, by omega, hpb⟩)
      | (obtain ⟨a, v, e, hs⟩ := say_loop_say _ _ _ _ _ _ _ h
         rw [hs] at hblk
         cases hblk)
      | (split at h <;> first
          | (cases h; done)
          | (rename_i body p hb
             cases h
             refine ⟨body, fuel, _, rfl, ?_, hb⟩
             have h1 := le_advance toks (skip_newlines toks pos)
             have h2 := le_advance toks (advance toks (skip_newlines toks pos)).2
             have h3 := le_advance toks (advance toks (advance toks (skip_newlines toks pos)).2).2
             have h4 := le_advance toks
               (advance toks (advance toks (advance toks (skip_newlines toks pos)).2).2).2
             omega))

/-- With a keyword that starts a block statement ahead, the dispatcher returns a statement
with a body, or nothing at all. -/
theorem parse_statement_opens (fuel : Nat) (toks : List Token) (pos : Nat)
    (os : Option Statement) (q : Nat) (hop : (peek toks pos).opensBlock)
    (h : parse_statement fuel toks pos = Outcome.ok os q) :
    ∃ s, os = some s ∧ s.isBlock = true := by
  obtain ⟨ht, hv⟩ := hop
  have hsk : skip_newlines toks pos = pos := skip_newlines_of_ne (by rw [ht]; decide)
  cases fuel with
  | zero => rw [parse_statement] at h; cases h
  | succ fuel =>
    rcases hv with hv | hv | hv
    · rw [parse_statement_for fuel toks pos ht hv] at h
      obtain ⟨s, _, _, _, hs, hb, _⟩ := parse_for_block _ _ _ _ _ h
      exact ⟨s, hs, hb⟩
    · rw [parse_statement] at h
      simp only [hsk, ht, hv] at h
      simp only [true_and, reduceCtorEq, if_false] at h
      rw [if_neg (by decide), if_pos trivial] at h
      repeat' first | (cases h; done) | split at h
      all_goals (cases h; exact ⟨_, rfl, rfl⟩)
    · rw [parse_statement] at h
      simp only [hsk, ht, hv] at h
      simp only [true_and, reduceCtorEq, if_false] at h
      rw [if_neg (by decide), if_neg (by decide), if_pos trivial] at h
      repeat' first | (cases h; done) | split at h
      all_goals (cases h; exact ⟨_, rfl, rfl⟩)

/-! ## The `say` loop against the grammar of the specification -/

theorem sayScanFrom_cons (afterArg : Bool) (t : Token) (rest : List Token) :
    sayScanFrom afterArg (t :: rest) =
      if afterArg = true ∧ t.type = TokenType.Symbol ∧ t.value = "," then
        sayScanFrom false rest
      else if t.type = TokenType.Keyword ∧ t.value = "end" then
        match rest with
        | [] => SayVerdict.expectedEq
        | eq :: rest' =>
          if eq.type = TokenType.Symbol ∧ eq.value = "=" then
            match rest' with
            | [] => SayVerdict.expectedString
            | s :: _ =>
              if s.type = TokenType.StringLiteral then SayVerdict.accepted
              else SayVerdict.expectedString
          else SayVerdict.expectedEq
      else if t.type = TokenType.Newline ∨ t.type = TokenType.EOFToken then
        SayVerdict.accepted
      else if t.type = TokenType.StringLiteral ∨ t.type = TokenType.Identifier then
        sayScanFrom true rest
      else SayVerdict.unexpectedToken t.value := by
  cases afterArg <;> rfl

theorem sayScanFrom_true (l : List Token) :
    sayScanFrom true l =
      match l with
      | [] => SayVerdict.accepted
      | c :: rest =>
        if c.type = TokenType.Symbol ∧ c.value = "," then sayScanFrom false rest
        else sayScanFrom false l := by
  cases l with
  | nil => rfl
  | cons c rest =>
    simp only
    by_cases hc : c.type = TokenType.Symbol ∧ c.value = ","
    · rw [if_pos hc, sayScanFrom_cons, if_pos ⟨rfl, hc⟩]
    · have h1 : ¬((true : Bool) = true ∧ c.type = TokenType.Symbol ∧ c.value = ",") :=
        fun h => hc h.2
      have h2 : ¬((false : Bool) = true ∧ c.type = TokenType.Symbol ∧ c.value = ",") :=
        fun h => Bool.noConfusion h.1
      rw [if_neg hc, sayScanFrom_cons, sayScanFrom_cons, if_neg h1, if_neg h2]

/-- The `say` loop started on an argument position returns what the grammar of the
specification says of the remaining tokens. -/
theorem say_loop_scan (k : Nat) :
    ∀ (l : List Token), l.length ≤ k →
      ∀ (toks : List Token) (pos n : Nat) (args : List String) (vars : List Bool),
        toks.drop pos = l → l.length + 1 ≤ n → args.length = vars.length →
        (sayScanFrom false l).agrees (say_loop toks n pos args vars) := by
  induction k with
  | zero =>
    intro l hl toks pos n args vars hdrop hn hlen
    have hnil : l = [] := List.length_eq_zero.mp (by omega)
    subst hnil
    obtain ⟨m, hm⟩ : ∃ m, n = m + 1 := ⟨n - 1, by omega⟩
    subst hm
    rw [say_loop_newline toks m pos args vars
      (Or.inr (by rw [(cursor_nil hdrop).1]; rfl)) hlen]
    exact ⟨_, _, _, _, rfl⟩
  | succ k ih =>
    intro l hl toks pos n args vars hdrop hn hlen
    obtain ⟨m, hm⟩ : ∃ m, n = m + 1 := ⟨n - 1, by omega⟩
    subst hm
    cases l with
    | nil =>
      rw [say_loop_newline toks m pos args vars
        (Or.inr (by rw [(cursor_nil hdrop).1]; rfl)) hlen]
      exact ⟨_, _, _, _, rfl⟩
    | cons t rest =>
      obtain ⟨hp, ha, hd1⟩ := cursor_cons hdrop
      simp only [List.length_cons] at hl hn
      have hnf : ¬((false : Bool) = true ∧ t.type = TokenType.Symbol ∧ t.value = ",") :=
        fun h => Bool.noConfusion h.1
      rw [sayScanFrom_cons, if_neg hnf]
      by_cases hend : t.type = TokenType.Keyword ∧ t.value = "end"
      · rw [if_pos hend, say_loop]
        simp only [hp, ha, if_pos hend]
        cases rest with
        | nil =>
          obtain ⟨hp1, _⟩ := cursor_nil hd1
          have hd : dummy_eof_token.type ≠ TokenType.Symbol ∨ dummy_eof_token.value ≠ "=" := by
            decide
          simp only [hp1]
          rw [if_pos hd]
          exact ⟨_, rfl⟩
        | cons e rest' =>
          obtain ⟨hp1, ha1, hd2⟩ := cursor_cons hd1
          simp only [hp1, ha1]
          by_cases heq : e.type = TokenType.Symbol ∧ e.value = "="
          · have heq' : ¬(e.type ≠ TokenType.Symbol ∨ e.value ≠ "=") := by
              rintro (h | h)
              · exact h heq.1
              · exact h heq.2
            rw [if_pos heq, if_neg heq']
            cases rest' with
            | nil =>
              obtain ⟨hp2, _⟩ := cursor_nil hd2
              have hd : dummy_eof_token.type ≠ TokenType.StringLiteral := by decide
              simp only [hp2]
              rw [if_pos hd]
              exact ⟨_, rfl⟩
            | cons s rest'' =>
              obtain ⟨hp2, ha2, _⟩ := cursor_cons hd2
              simp only [hp2, ha2]
              by_cases hs : s.type = TokenType.StringLiteral
              · rw [if_pos hs, if_neg (not_not.mpr hs), if_neg (not_not.mpr hlen)]
                exact ⟨_, _, _, _, rfl⟩
              · rw [if_neg hs, if_pos hs]
                exact ⟨_, rfl⟩
          · have heq' : e.type ≠ TokenType.Symbol ∨ e.value ≠ "=" := by
              by_cases h1 : e.type = TokenType.Symbol
              · exact Or.inr (fun h2 => heq ⟨h1, h2⟩)
              · exact Or.inl h1
            rw [if_neg heq, if_pos heq']
            exact ⟨_, rfl⟩
      · rw [if_neg hend]
        by_cases hnl : t.type = TokenType.Newline ∨ t.type = TokenType.EOFToken
        · rw [if_pos hnl, say_loop_newline toks m pos args vars (by rw [hp]; exact hnl) hlen]
          exact ⟨_, _, _, _, rfl⟩
        · rw [if_neg hnl]
          by_cases harg : t.type = TokenType.StringLiteral ∨ t.type = TokenType.Identifier
          · rw [if_pos harg, sayScanFrom_true, say_loop]
            simp only [hp, ha, if_neg hend, if_neg hnl, if_pos harg]
            have hlen' : (args ++ [t.value]).length =
                (vars ++ [decide (t.type = TokenType.Identifier)]).length := by
              simp [hlen]
            cases rest with
            | nil =>
              obtain ⟨hp1, _⟩ := cursor_nil hd1
              have hnc : ¬(dummy_eof_token.type = TokenType.Symbol ∧
                  dummy_eof_token.value = ",") := by decide
              simp only [hp1, if_neg hnc]
              exact ih [] (Nat.zero_le _) toks (pos + 1) m _ _ hd1
                (by simp only [List.length_nil]; omega) hlen'
            | cons c rest' =>
              obtain ⟨hp1, ha1, hd2⟩ := cursor_cons hd1
              simp only [List.length_cons] at hl hn
              simp only [hp1, ha1]
              by_cases hc : c.type = TokenType.Symbol ∧ c.value = ","
              · rw [if_pos hc, if_pos hc]
                exact ih rest' (by omega) toks (pos + 1 + 1) m _ _ hd2 (by omega) hlen'
              · rw [if_neg hc, if_neg hc]
                exact ih (c :: rest') (by simp only [List.length_cons]; omega) toks (pos + 1)
                  m _ _ hd1 (by simp only [List.length_cons]; omega) hlen'
          · rw [if_neg harg, say_loop]
            simp only [hp, if_neg hend, if_neg hnl, if_neg harg]
            exact ⟨_, rfl⟩

/-- The `say` branch of the dispatcher returns what the grammar of the specification says
of the tokens after the keyword. -/
theorem parse_say_scan (toks : List Token) (pos : Nat) (l : List Token)
    (hdrop : toks.drop pos = sayToken :: l) : (sayScan l).agrees (parse_say toks pos) := by
  obtain ⟨_, ha, hd1⟩ := cursor_cons hdrop
  have hlen : toks.length - (pos + 1) = l.length := by
    rw [drop_length_sub, hd1]
  unfold parse_say sayScan
  simp only [ha, hlen]
  exact say_loop_scan l.length l (Nat.le_refl _) toks (pos + 1) _ [] [] hd1 (Nat.le_refl _) rfl

theorem SayVerdict.agrees_error_iff (v : SayVerdict) (o : Outcome (Option Statement))
    (h : v.agrees o) : (∃ msg q, o = Outcome.error msg q) ↔ v ≠ SayVerdict.accepted := by
  cases v with
  | accepted =>
    obtain ⟨a, b, c, q, ho⟩ := h
    subst ho
    simp
  | unexpectedToken value =>
    obtain ⟨q, ho⟩ := h
    subst ho
    simp
  | expectedEq =>
    obtain ⟨q, ho⟩ := h
    subst ho
    simp
  | expectedString =>
    obtain ⟨q, ho⟩ := h
    subst ho
    simp

/-! ## The counter against blocks that are closed -/

/-- A block of more than 10000 simple lines: the iteration over line 10001 throws, whatever
follows the lines. -/
theorem block_lines_too_many (nl : Token) (lines : List SimpleLine) (toks : List Token)
    (pos : Nat) (rest : List Token) (fuel : Nat)
    (hnl : nl.type = TokenType.Newline) (hwf : ∀ l ∈ lines, l.wellFormed)
    (hmany : 10000 < lines.length)
    (hdrop : toks.drop pos = linesTokens nl lines ++ rest) (hfuel : 10002 ≤ fuel) :
    parse_block fuel toks pos =
      Outcome.error "Too many statements parsed without encountering 'end'"
        (pos + (linesTokens nl (lines.take 10000)).length +
          (lines.get ⟨10000, hmany⟩).consumed) := by
  have hsplit : lines = lines.take 10000 ++ (lines.get ⟨10000, hmany⟩ :: lines.drop 10001) := by
    have h1 : lines.drop 10000 = lines.get ⟨10000, hmany⟩ :: lines.drop 10001 :=
      List.drop_eq_getElem_cons hmany
    rw [← h1, List.take_append_drop]
  have htake : (lines.take 10000).length = 10000 := by
    rw [List.length_take]; omega
  have hwf1 : ∀ l ∈ lines.take 10000, l.wellFormed :=
    fun l hl => hwf l (List.mem_of_mem_take hl)
  have hwf2 : (lines.get ⟨10000, hmany⟩).wellFormed := hwf _ (List.get_mem _ _ _)
  have hd1 : toks.drop pos = linesTokens nl (lines.take 10000) ++
      ((lines.get ⟨10000, hmany⟩).tokens nl ++ (linesTokens nl (lines.drop 10001) ++ rest)) := by
    rw [hdrop]
    conv => lhs; rw [hsplit]
    rw [linesTokens_append, linesTokens, List.append_assoc, List.append_assoc]
  have hd2 : toks.drop (pos + (linesTokens nl (lines.take 10000)).length) =
      (lines.get ⟨10000, hmany⟩).tokens nl ++ (linesTokens nl (lines.drop 10001) ++ rest) := by
    rw [← List.drop_drop, hd1, List.drop_left]
  obtain ⟨f, hf⟩ : ∃ f, fuel = 10000 + (f + 1 + 1) := ⟨fuel - 10002, by omega⟩
  have h := block_loop_lines nl hnl (lines.take 10000) (f + 1) toks pos _ [] 0 hwf1 hd1
    (by omega)
  rw [htake] at h
  have hthrow := block_loop_line_guard f toks _ nl _ _
    ((lines.take 10000).map SimpleLine.statement) 10000 hnl hwf2 hd2 (by omega)
  unfold parse_block
  rw [hf, h]
  simp only [List.nil_append, Nat.zero_add]
  exact hthrow

/-- A block of at most 10000 simple lines closed by `end`: the body is the statements of
the lines and the cursor stops right after the `end`. -/
theorem block_lines_closed (nl : Token) (lines : List SimpleLine) (e : Token)
    (toks : List Token) (pos : Nat) (rest : List Token) (fuel : Nat)
    (hnl : nl.type = TokenType.Newline) (hwf : ∀ l ∈ lines, l.wellFormed) (he : e.isEnd)
    (hfew : lines.length ≤ 10000)
    (hdrop : toks.drop pos = linesTokens nl lines ++ e :: rest)
    (hfuel : lines.length + 2 ≤ fuel) :
    parse_block fuel toks pos =
      Outcome.ok (lines.map SimpleLine.statement) (pos + (linesTokens nl lines).length + 1) := by
  obtain ⟨f, hf⟩ : ∃ f, fuel = lines.length + (f + 1) := ⟨fuel - lines.length - 1, by omega⟩
  have h := block_loop_lines nl hnl lines f toks pos _ [] 0 hwf hdrop (by omega)
  have hd2 : toks.drop (pos + (linesTokens nl lines).length) = e :: rest := by
    rw [← List.drop_drop, hdrop, List.drop_left]
  unfold parse_block
  rw [hf, h]
  exact block_loop_end f toks _ e rest _ _ he hd2

/-! ## The analyzer, line by line -/

theorem check_lines_append (l1 : List (List Char)) :
    ∀ (lineno : Nat) (stack : List Nat) (l2 : List (List Char)),
      check_lines lineno stack (l1 ++ l2) =
        ((check_lines (lineno + l1.length) (check_lines lineno stack l1).1 l2).1,
          (check_lines lineno stack l1).2 ++
            (check_lines (lineno + l1.length) (check_lines lineno stack l1).1 l2).2) := by
  induction l1 with
  | nil => intro lineno stack l2; simp [check_lines]
  | cons a r ih =>
    intro lineno stack l2
    have h1 : lineno + 1 + r.length = lineno + (r.length + 1) := by omega
    rw [List.cons_append, check_lines, check_lines, ih, List.length_cons, h1]
    simp only [List.append_assoc]

/-- A message written for a line carries the number of that line. -/
theorem check_line_line (lineno : Nat) (stack : List Nat) (line : List Char) :
    ∀ d ∈ (check_line lineno stack line).2, d.line = some lineno := by
  intro d hd
  unfold check_line at hd
  simp only at hd
  repeat' split at hd
  all_goals simp at hd
  all_goals (subst hd; rfl)

/-- The messages written for a run of lines carry the numbers of these lines. -/
theorem check_lines_line (lines : List (List Char)) :
    ∀ (lineno : Nat) (stack : List Nat),
      ∀ d ∈ (check_lines lineno stack lines).2,
        ∃ k, d.line = some k ∧ lineno ≤ k ∧ k < lineno + lines.length := by
  induction lines with
  | nil => intro lineno stack d hd; simp [check_lines] at hd
  | cons a r ih =>
    intro lineno stack d hd
    simp only [check_lines, List.mem_append] at hd
    rcases hd with hd | hd
    · exact ⟨lineno, check_line_line lineno stack a d hd, Nat.le_refl _, by simp⟩
    · obtain ⟨k, hk, h1, h2⟩ := ih _ _ d hd
      exact ⟨k, hk, by omega, by simp only [List.length_cons]; omega⟩

/-- The run of the analyzer seen from line `i + 1`: the messages of the lines before it,
the messages of the line, the messages of the lines after it, and the message at the end
of the source when the stack is left non-empty. -/
theorem check_indentation_at (source : String) (i : Nat) (line : List Char)
    (hline : (getlines source.toList [])[i]? = some line) :
    check_indentation source =
      (check_lines 1 [] ((getlines source.toList []).take i)).2 ++
        (check_line (i + 1) (check_lines 1 [] ((getlines source.toList []).take i)).1 line).2 ++
        (check_lines (i + 2)
          (check_line (i + 1) (check_lines 1 [] ((getlines source.toList []).take i)).1 line).1
          ((getlines source.toList []).drop (i + 1))).2 ++
        (if (check_lines (i + 2)
          (check_line (i + 1) (check_lines 1 [] ((getlines source.toList []).take i)).1 line).1
          ((getlines source.toList []).drop (i + 1))).1 ≠ [] then [Diagnostic.notClosed]
         else []) := by
  generalize hl : getlines source.toList [] = lines at hline
  have hi : i < lines.length := by
    by_contra hc
    rw [List.getElem?_eq_none (by omega)] at hline
    cases hline
  have hsplit : lines = lines.take i ++ line :: lines.drop (i + 1) := by
    have h1 : lines.drop i = lines[i] :: lines.drop (i + 1) := List.drop_eq_getElem_cons hi
    have h2 : lines[i] = line := by
      rw [List.getElem?_eq_getElem hi] at hline
      exact Option.some.inj hline
    rw [← h2, ← h1, List.take_append_drop]
  have htake : (lines.take i).length = i := by rw [List.length_take]; omega
  unfold check_indentation
  simp only [hl]
  conv => lhs; rw [hsplit]
  rw [check_lines_append]
  simp only [check_lines, htake]
  have h12 : 1 + i = i + 1 := by omega
  have h13 : i + 1 + 1 = i + 2 := by omega
  rw [h12, h13]
  split <;> simp [List.append_assoc]

/-- In a run of the analyzer, only the messages of line `i + 1` carry the number
`i + 1`. -/
theorem mem_check_indentation_at (source : String) (i : Nat) (line : List Char)
    (hline : (getlines source.toList [])[i]? = some line) (d : Diagnostic)
    (hd : d.line = some (i + 1)) :
    d ∈ check_indentation source ↔
      d ∈ (check_line (i + 1)
        (check_lines 1 [] ((getlines source.toList []).take i)).1 line).2 := by
  have hlen : ((getlines source.toList []).take i).length ≤ i := by
    rw [List.length_take]; omega
  rw [check_indentation_at source i line hline]
  simp only [List.mem_append]
  constructor
  · rintro (((h | h) | h) | h)
    · obtain ⟨k, hk, _, h2⟩ := check_lines_line _ _ _ d h
      rw [hd] at hk
      cases hk
      omega
    · exact h
    · obtain ⟨k, hk, h1, _⟩ := check_lines_line _ _ _ d h
      rw [hd] at hk
      cases hk
      omega
    · split at h
      · rw [List.mem_singleton] at h
        subst h
        cases hd
      · cases h
  · intro h
    exact Or.inl (Or.inl (Or.inr h))

theorem check_line_skipped (lineno : Nat) (stack : List Nat) (line : List Char)
    (h : ¬isChecked line) : check_line lineno stack line = (stack, []) := by
  have h' : trim line = [] ∨ (trim line).head? = some '#' := by
    unfold isChecked at h
    by_cases h1 : trim line = []
    · exact Or.inl h1
    · right
      by_contra h2
      exact h ⟨h1, h2⟩
  unfold check_line
  simp only [h', if_true]

theorem isChecked_of_end {line : List Char} (h : trim line = "end".toList) :
    isChecked line := by
  unfold isChecked
  rw [h]
  decide

/-- The `end` rule of the loop body. -/
theorem check_line_end (lineno : Nat) (stack : List Nat) (line : List Char)
    (h : trim line = "end".toList) :
    check_line lineno stack line =
      match stack with
      | [] => ([], [Diagnostic.endWithoutBlock lineno])
      | expected_indent :: rest =>
        (rest, if leadingSpaces line ≠ expected_indent then
          [Diagnostic.endMismatch lineno expected_indent (leadingSpaces line)] else []) := by
  have hc : ¬(trim line = [] ∨ (trim line).head? = some '#') := by
    rw [h]; decide
  unfold check_line
  simp only
  rw [if_neg hc, if_pos h]
  cases stack with
  | nil => rfl
  | cons e rest =>
    simp only
    split <;> rfl

theorem startsWith_spec {t : List Char} {pat : String} (h : startsWith t pat = true) :
    ∃ r, t = pat.toList ++ r := by
  unfold startsWith at h
  have h1 : t.take pat.length = pat.toList := of_decide_eq_true h
  exact ⟨t.drop pat.length, by rw [← h1, List.take_append_drop]⟩

/-- An opener line is looked at and is not an `end` line. -/
theorem isOpener_spec {t : List Char} (h : isOpener t = true) :
    t ≠ [] ∧ t.head? ≠ some '#' ∧ t ≠ "end".toList := by
  unfold isOpener at h
  simp only [Bool.or_eq_true] at h
  rcases h with (((h | h) | h) | h) | h <;>
    (obtain ⟨r, hr⟩ := startsWith_spec h
     subst hr
     refine ⟨by simp [String.toList], by simp [String.toList], ?_⟩
     intro hc
     have := congrArg (fun l => l.take 2) hc
     revert this
     simp [String.toList])

/-- The opener rule of the loop body. -/
theorem check_line_opener (lineno : Nat) (stack : List Nat) (line : List Char)
    (h : isOpener (trim line) = true) :
    check_line lineno stack line = (leadingSpaces line :: stack, []) := by
  obtain ⟨h1, h2, h3⟩ := isOpener_spec h
  have hc : ¬(trim line = [] ∨ (trim line).head? = some '#') := by
    rintro (hc | hc)
    · exact h1 hc
    · exact h2 hc
  unfold check_line
  simp only
  rw [if_neg hc, if_neg h3, if_pos h]

/-- The rule of the loop body for the other lines. -/
theorem check_line_other (lineno : Nat) (stack : List Nat) (line : List Char)
    (hchk : isChecked line) (hend : trim line ≠ "end".toList)
    (hop : isOpener (trim line) = false) :
    check_line lineno stack line =
      (stack,
        match stack with
        | [] => []
        | expected_indent :: _ =>
          if leadingSpaces line ≤ expected_indent then
            [Diagnostic.inconsistent lineno expected_indent (leadingSpaces line)]
          else []) := by
  have hc : ¬(trim line = [] ∨ (trim line).head? = some '#') := by
    rintro (hc | hc)
    · exact hchk.1 hc
    · exact hchk.2 hc
  have hop' : ¬(isOpener (trim line) = true) := by rw [hop]; decide
  unfold check_line
  simp only
  rw [if_neg hc, if_neg hend, if_neg hop']
  cases stack with
  | nil => rfl
  | cons e rest =>
    simp only
    split <;> rfl

/-- In a run of the analyzer, a message with the number `i + 1` is written as often as the
loop body writes it for line `i + 1`. -/
theorem count_check_indentation_at (source : String) (i : Nat) (line : List Char)
    (hline : (getlines source.toList [])[i]? = some line) (d : Diagnostic)
    (hd : d.line = some (i + 1)) :
    (check_indentation source).count d =
      (check_line (i + 1)
        (check_lines 1 [] ((getlines source.toList []).take i)).1 line).2.count d := by
  have hlen : ((getlines source.toList []).take i).length ≤ i := by
    rw [List.length_take]; omega
  have h1 : (check_lines 1 [] ((getlines source.toList []).take i)).2.count d = 0 := by
    rw [List.count_eq_zero]
    intro h
    obtain ⟨k, hk, _, h2⟩ := check_lines_line _ _ _ d h
    rw [hd] at hk
    cases hk
    omega
  have h2 : (check_lines (i + 2)
      (check_line (i + 1) (check_lines 1 [] ((getlines source.toList []).take i)).1 line).1
      ((getlines source.toList []).drop (i + 1))).2.count d = 0 := by
    rw [List.count_eq_zero]
    intro h
    obtain ⟨k, hk, h1, _⟩ := check_lines_line _ _ _ d h
    rw [hd] at hk
    cases hk
    omega
  have h3 : (if (check_lines (i + 2)
      (check_line (i + 1) (check_lines 1 [] ((getlines source.toList []).take i)).1 line).1
      ((getlines source.toList []).drop (i + 1))).1 ≠ [] then [Diagnostic.notClosed]
      else []).count d = 0 := by
    rw [List.count_eq_zero]
    intro h
    split at h
    · rw [List.mem_singleton] at h
      subst h
      cases hd
    · cases h
  rw [check_indentation_at source i line hline]
  simp only [List.count_append, h1, h2, h3]
  omega

/-- The stack after line `i + 1` and the messages up to it. -/
theorem check_lines_take_succ (lines : List (List Char)) (i : Nat) (line : List Char)
    (hline : lines[i]? = some line) :
    check_lines 1 [] (lines.take (i + 1)) =
      ((check_line (i + 1) (check_lines 1 [] (lines.take i)).1 line).1,
        (check_lines 1 [] (lines.take i)).2 ++
          (check_line (i + 1) (check_lines 1 [] (lines.take i)).1 line).2) := by
  have hi : i < lines.length := by
    by_contra hc
    rw [List.getElem?_eq_none (by omega)] at hline
    cases hline
  have h2 : lines[i] = line := by
    rw [List.getElem?_eq_getElem hi] at hline
    exact Option.some.inj hline
  have htake : (lines.take i).length = i := by rw [List.length_take]; omega
  have h1 : lines.take (i + 1) = lines.take i ++ [line] := by
    rw [List.take_succ, hline]; rfl
  rw [h1, check_lines_append, htake]
  simp only [check_lines, List.append_nil]
  rw [Nat.add_comm 1 i]

theorem countEnds_cons (a : List Char) (r : List (List Char)) :
    countEnds (a :: r) = countEnds r + (if trim a = "end".toList then 1 else 0) := by
  unfold countEnds
  generalize "end".toList = pat
  rw [List.filter_cons]
  by_cases h : trim a = pat
  · simp only [h, decide_True, if_true, List.length_cons]
  · simp only [h, decide_False, if_false, Nat.add_zero]
    rfl

theorem countOpeners_cons (a : List Char) (r : List (List Char)) :
    countOpeners (a :: r) = countOpeners r + (if isOpener (trim a) = true then 1 else 0) := by
  unfold countOpeners
  rw [List.filter_cons]
  by_cases h : isOpener (trim a) = true
  · simp only [h, if_true, List.length_cons]
  · simp only [h, if_false, Nat.add_zero]
    rfl

/-- The stack gains an entry per opener line and loses at most one per `end` line. -/
theorem check_lines_stack_length (lines : List (List Char)) :
    ∀ (lineno : Nat) (stack : List Nat),
      stack.length + countOpeners lines ≤
        (check_lines lineno stack lines).1.length + countEnds lines := by
  induction lines with
  | nil => intro lineno stack; simp [check_lines, countOpeners, countEnds]
  | cons a r ih =>
    intro lineno stack
    have hrec := ih (lineno + 1) (check_line lineno stack a).1
    simp only [check_lines]
    by_cases hop : isOpener (trim a) = true
    · have hne := (isOpener_spec hop).2.2
      have hO : countOpeners (a :: r) = countOpeners r + 1 := by
        rw [countOpeners_cons, if_pos hop]
      have hE : countEnds (a :: r) = countEnds r := by
        rw [countEnds_cons, if_neg hne]; rfl
      rw [check_line_opener _ _ _ hop] at hrec ⊢
      dsimp only at hrec ⊢
      simp only [List.length_cons] at hrec
      omega
    · have hop' : isOpener (trim a) = false := by simpa using hop
      have hO : countOpeners (a :: r) = countOpeners r := by
        rw [countOpeners_cons, if_neg hop]; rfl
      by_cases hend : trim a = "end".toList
      · have hE : countEnds (a :: r) = countEnds r + 1 := by
          rw [countEnds_cons, if_pos hend]
        rw [check_line_end _ _ _ hend] at hrec ⊢
        cases stack with
        | nil => dsimp only at hrec ⊢; simp only [List.length_nil] at hrec ⊢; omega
        | cons e rest => dsimp only at hrec ⊢; simp only [List.length_cons] at hrec ⊢; omega
      · have hE : countEnds (a :: r) = countEnds r := by
          rw [countEnds_cons, if_neg hend]; rfl
        by_cases hchk : isChecked a
        · rw [check_line_other _ _ _ hchk hend hop'] at hrec ⊢
          simp only at hrec ⊢
          omega
        · rw [check_line_skipped _ _ _ hchk] at hrec ⊢
          simp only at hrec ⊢
          omega

theorem notClosed_not_mem_check_lines (lines : List (List Char)) (lineno : Nat)
    (stack : List Nat) : Diagnostic.notClosed ∉ (check_lines lineno stack lines).2 := by
  intro h
  obtain ⟨k, hk, _, _⟩ := check_lines_line _ _ _ _ h
  cases hk

/-! ## A block that fails before the counter is exceeded -/

/-- A token of a sequence of lines is a token of one of the lines. -/
theorem mem_linesTokens {nl t : Token} {lines : List SimpleLine}
    (h : t ∈ linesTokens nl lines) : ∃ l ∈ lines, t ∈ l.tokens nl := by
  induction lines with
  | nil => cases h
  | cons a r ih =>
    rw [linesTokens, List.mem_append] at h
    rcases h with h | h
    · exact ⟨a, List.mem_cons_self _ _, h⟩
    · obtain ⟨l, hl, ht⟩ := ih h
      exact ⟨l, List.mem_cons_of_mem _ hl, ht⟩

/-- A block that starts with `say` and a comma fails in the `say` grammar, whatever
follows. -/
theorem block_say_comma (fuel : Nat) (rest : List Token) :
    parse_block (fuel + 2) (sayToken :: commaToken :: rest) 0 =
      Outcome.error "Unexpected token in 'say': ," 1 :=
  rfl

/-- Such a block never fails with the error of the counter. -/
theorem block_say_comma_not_counter (fuel : Nat) (rest : List Token) (p : Nat) :
    parse_block fuel (sayToken :: commaToken :: rest) 0 ≠
      Outcome.error "Too many statements parsed without encountering 'end'" p := by
  intro h
  match fuel, h with
  | 0, h => cases h
  | 1, h => cases h
  | n + 2, h =>
    rw [block_say_comma n] at h
    injection h with h1 _
    exact absurd h1 (by decide)

/-! ## The claims -/

/-- C1: on every token list on which `parse` succeeds, every `SayStatement` of the returned
tree, at the top level or inside the body of a `ForStatement`, `FunctionDef` or
`StartBlock` at any depth, has `args.length = is_vars.length`. -/
theorem say_arguments_balanced (toks : List Token) (ast : AST) (p : Nat)
    (h : parse toks = Outcome.ok ast p) : allSayBalanced ast.statements = true :=
  parse_loop_balanced _ toks _ _ _ _ _ h rfl

/-- Witness of C1: `function greet name:` / `say "hi", name` / `end`, with the `say` nested
in the function body. -/
theorem say_arguments_balanced_witness :
    parse [kw "function", ident "greet", ident "name", sym ":", newlineToken,
        kw "say", str "hi", sym ",", ident "name", newlineToken, kw "end", newlineToken] =
      Outcome.ok { statements := [Statement.FunctionDef "greet" "name"
        [Statement.SayStatement ["hi", "name"] [false, true] "\\n"]] } 12 ∧
    allSayBalanced [Statement.FunctionDef "greet" "name"
        [Statement.SayStatement ["hi", "name"] [false, true] "\\n"]] = true :=
  ⟨rfl, say_arguments_balanced
    [kw "function", ident "greet", ident "name", sym ":", newlineToken,
      kw "say", str "hi", sym ",", ident "name", newlineToken, kw "end", newlineToken]
    { statements := [Statement.FunctionDef "greet" "name"
      [Statement.SayStatement ["hi", "name"] [false, true] "\\n"]] } 12 rfl⟩

/-- C2: `say` followed by ARG tokens, each optionally followed by a comma, and then a
newline or the end of the input parses to the `SayStatement` with the ARG values in order,
the identifier flags, and the default ending backslash-n.  The statement does not depend on
where the commas are.  Stated for the dispatcher at any position of any token list, and for
`parse` on exactly these tokens. -/
theorem say_default_terminator (as : List (Token × Bool)) (tail : List Token)
    (hargs : ∀ a ∈ as, a.1.isArg)
    (htail : (tail.headD dummy_eof_token).type = TokenType.Newline ∨
      (tail.headD dummy_eof_token).type = TokenType.EOFToken) :
    (∀ (fuel : Nat) (toks : List Token) (pos : Nat),
      toks.drop pos = sayToken :: (argTokens as ++ tail) →
      parse_statement (fuel + 1) toks pos =
        Outcome.ok (some (Statement.SayStatement (argValues as) (argFlags as) "\\n"))
          (pos + 1 + (argTokens as).length + min 1 tail.length)) ∧
    (tail.length ≤ 1 →
      parse (sayToken :: (argTokens as ++ tail)) =
        Outcome.ok
          { statements := [Statement.SayStatement (argValues as) (argFlags as) "\\n"] }
          (1 + (argTokens as).length + tail.length)) := by
  have hdisp : ∀ (fuel : Nat) (toks : List Token) (pos : Nat),
      toks.drop pos = sayToken :: (argTokens as ++ tail) →
      parse_statement (fuel + 1) toks pos =
        Outcome.ok (some (Statement.SayStatement (argValues as) (argFlags as) "\\n"))
          (pos + 1 + (argTokens as).length + min 1 tail.length) := by
    intro fuel toks pos hdrop
    have hp := (cursor_cons hdrop).1
    rw [parse_statement_say fuel toks pos (by rw [hp]; rfl) (by rw [hp]; rfl)]
    exact parse_say_default toks pos as tail hargs htail hdrop
  refine ⟨hdisp, fun hlen => ?_⟩
  have hmin : min 1 tail.length = tail.length := by omega
  have hlength : (sayToken :: (argTokens as ++ tail)).length =
      1 + (argTokens as).length + tail.length := by
    simp only [List.length_cons, List.length_append]; omega
  have h := parse_single (sayToken :: (argTokens as ++ tail))
    (Statement.SayStatement (argValues as) (argFlags as) "\\n")
    (by rw [peek_of_drop (List.drop_zero _)]; simp [sayToken])
    (by
      have := hdisp (3 * (sayToken :: (argTokens as ++ tail)).length + 2) _ 0
        (List.drop_zero _)
      rw [hmin] at this
      rw [hlength]
      simpa [parseFuel, Nat.add_assoc, hlength] using this)
  rw [hlength] at h
  exact h

/-- Witness of C2: `say "hi", name,` and a newline (a comma after each ARG, the last one
trailing). -/
theorem say_default_terminator_witness :
    parse [sayToken, { type := TokenType.StringLiteral, value := "hi" }, commaToken,
        { type := TokenType.Identifier, value := "name" }, commaToken, newlineToken] =
      Outcome.ok { statements := [Statement.SayStatement ["hi", "name"] [false, true] "\\n"] }
        6 :=
  (say_default_terminator
    [({ type := TokenType.StringLiteral, value := "hi" }, true),
      ({ type := TokenType.Identifier, value := "name" }, true)]
    [newlineToken] (by simp [Token.isArg]) (by simp [newlineToken])).2 (by decide)

/-- C3: `say`, ARG tokens (optionally comma-separated), `end`, `=` and a string literal `s`
parse to the `SayStatement` with the ARG values, the identifier flags and the ending
`s.value`, and the cursor stops right after `s`, whatever follows.  Stated for the
dispatcher at any position of any token list, and for `parse` on exactly these tokens. -/
theorem say_explicit_terminator (as : List (Token × Bool)) (s : Token)
    (hargs : ∀ a ∈ as, a.1.isArg) (hs : s.type = TokenType.StringLiteral) :
    (∀ (fuel : Nat) (toks : List Token) (pos : Nat) (rest : List Token),
      toks.drop pos = sayToken :: (argTokens as ++ endToken :: eqToken :: s :: rest) →
      parse_statement (fuel + 1) toks pos =
        Outcome.ok (some (Statement.SayStatement (argValues as) (argFlags as) s.value))
          (pos + 1 + (argTokens as).length + 3)) ∧
    parse (sayToken :: (argTokens as ++ [endToken, eqToken, s])) =
      Outcome.ok
        { statements := [Statement.SayStatement (argValues as) (argFlags as) s.value] }
        (1 + (argTokens as).length + 3) := by
  have hdisp : ∀ (fuel : Nat) (toks : List Token) (pos : Nat) (rest : List Token),
      toks.drop pos = sayToken :: (argTokens as ++ endToken :: eqToken :: s :: rest) →
      parse_statement (fuel + 1) toks pos =
        Outcome.ok (some (Statement.SayStatement (argValues as) (argFlags as) s.value))
          (pos + 1 + (argTokens as).length + 3) := by
    intro fuel toks pos rest hdrop
    have hp := (cursor_cons hdrop).1
    rw [parse_statement_say fuel toks pos (by rw [hp]; rfl) (by rw [hp]; rfl)]
    exact parse_say_explicit toks pos as s rest hargs hs hdrop
  refine ⟨hdisp, ?_⟩
  have hlength : (sayToken :: (argTokens as ++ [endToken, eqToken, s])).length =
      1 + (argTokens as).length + 3 := by
    simp only [List.length_cons, List.length_append, List.length_nil]; omega
  have h := parse_single (sayToken :: (argTokens as ++ [endToken, eqToken, s]))
    (Statement.SayStatement (argValues as) (argFlags as) s.value)
    (by rw [peek_of_drop (List.drop_zero _)]; simp [sayToken])
    (by
      have := hdisp (3 * (sayToken :: (argTokens as ++ [endToken, eqToken, s])).length + 2)
        _ 0 [] (List.drop_zero _)
      rw [hlength]
      simpa [parseFuel, Nat.add_assoc, hlength] using this)
  rw [hlength] at h
  exact h

/-- Witness of C3: `say "hi" end="!"`. -/
theorem say_explicit_terminator_witness :
    parse [sayToken, { type := TokenType.StringLiteral, value := "hi" }, endToken, eqToken,
        { type := TokenType.StringLiteral, value := "!" }] =
      Outcome.ok { statements := [Statement.SayStatement ["hi"] [false] "!"] } 5 :=
  (say_explicit_terminator [({ type := TokenType.StringLiteral, value := "hi" }, false)]
    { type := TokenType.StringLiteral, value := "!" } (by simp [Token.isArg]) rfl).2

/-- C4 as the code has it: for an identifier `v`, bounds `a` and `b` that fit the 32-bit
`int` and are written as decimal numerals in tokens of any kind, and a body of at most 9999
well-formed lines (`say` lines, and `set` and call lines as well), the tokens
`for v from a to b : NL <body lines> end NL` parse to exactly one statement, the
`ForStatement` with variable `v`, start `a`, end `b` and the statements of the lines in
order as its body. -/
theorem for_loop_parse (v ta tb nl : Token) (a b : Int) (lines : List SimpleLine)
    (hv : v.type = TokenType.Identifier)
    (hta : ta.value = toString a) (htb : tb.value = toString b)
    (ha : -2147483648 ≤ a ∧ a ≤ 2147483647) (hb : -2147483648 ≤ b ∧ b ≤ 2147483647)
    (hnl : nl.type = TokenType.Newline) (hwf : ∀ l ∈ lines, l.wellFormed)
    (hk : lines.length ≤ 9999) :
    parse (kw "for" :: v :: kw "from" :: ta :: kw "to" :: tb :: colonToken :: nl ::
        (linesTokens nl lines ++ [endToken, nl])) =
      Outcome.ok
        { statements := [Statement.ForStatement v.value a b (lines.map SimpleLine.statement)] }
        ((linesTokens nl lines).length + 10) := by
  generalize htoks : (kw "for" :: v :: kw "from" :: ta :: kw "to" :: tb :: colonToken :: nl ::
    (linesTokens nl lines ++ [endToken, nl])) = toks
  have hlen : toks.length = (linesTokens nl lines).length + 10 := by
    rw [← htoks]; simp
  have hd0 : toks.drop 0 = kw "for" :: v :: kw "from" :: ta :: kw "to" :: tb ::
      (colonToken :: nl :: (linesTokens nl lines ++ endToken :: [nl])) := by
    rw [← htoks]; rfl
  have hd6 : toks.drop (0 + 6) =
      colonToken :: nl :: (linesTokens nl lines ++ endToken :: [nl]) := by
    rw [← htoks]; rfl
  have hd9 : toks.drop (0 + 6 + 2 + (linesTokens nl lines).length + 1) = [nl] := by
    have : 0 + 6 + 2 + (linesTokens nl lines).length + 1 =
        8 + ((linesTokens nl lines).length + 1) := by omega
    rw [this, ← List.drop_drop, ← htoks]
    show List.drop ((linesTokens nl lines).length + 1)
      (linesTokens nl lines ++ [endToken, nl]) = [nl]
    rw [← List.drop_drop, List.drop_left]
    rfl
  have hsa : stoi ta.value = some a := by rw [hta]; exact stoi_toString a ha.1 ha.2
  have hsb : stoi tb.value = some b := by rw [htb]; exact stoi_toString b hb.1 hb.2
  have hkl := length_le_linesTokens nl lines
  obtain ⟨f, hf⟩ : ∃ f, parseFuel toks = (lines.length + (f + 1) + 1) + 1 + 1 :=
    ⟨parseFuel toks - lines.length - 4, by unfold parseFuel; omega⟩
  have hp0 := (cursor_cons hd0).1
  have hp6 := (cursor_cons hd6).1
  have hsk6 : skip_newlines toks (0 + 6) = 0 + 6 :=
    skip_newlines_of_ne (by rw [hp6]; decide)
  have hstmt : parse_statement (parseFuel toks) toks 0 =
      Outcome.ok (some (Statement.ForStatement v.value a b (lines.map SimpleLine.statement)))
        (0 + 6 + 2 + (linesTokens nl lines).length + 1) := by
    rw [hf, parse_statement_for _ toks 0 (by rw [hp0]; rfl) (by rw [hp0]; rfl),
      parse_for_header _ toks 0 v ta tb a b _ hv hsa hsb hd0, hsk6,
      for_block_lines f toks (0 + 6) nl lines [nl] hnl hwf hk hd6]
    rfl
  obtain ⟨n, hn⟩ : ∃ n, toks.length = n + 2 := ⟨toks.length - 2, by omega⟩
  obtain ⟨g, hg⟩ : ∃ g, parseFuel toks = g + 1 := ⟨parseFuel toks - 1, by omega⟩
  unfold parse
  rw [parse_loop_some _ toks _ 0 [] _ _ (by rw [hp0]; decide) hstmt, hn, hg,
    parse_loop_trailing_newline g toks n _ _ nl hnl hd9]
  simp only [List.nil_append]
  congr 1
  omega

/-- Witness of C4: `for x from 1 to 5:` / `say x` / `end`. -/
theorem for_loop_parse_witness :
    parse [kw "for", ident "x", kw "from", ident "1", kw "to", ident "5", colonToken,
        newlineToken, sayToken, ident "x", newlineToken, endToken, newlineToken] =
      Outcome.ok { statements := [Statement.ForStatement "x" 1 5
        [Statement.SayStatement ["x"] [true] "\\n"]] } 13 :=
  for_loop_parse (ident "x") (ident "1") (ident "5") newlineToken 1 5
    [SimpleLine.say [(ident "x", false)] none] rfl rfl rfl (by decide) (by decide) rfl
    (by simp [SimpleLine.wellFormed, Token.isArg, ident]) (by decide)

/-- Counterexample to C4 as stated.  A start bound that is an integer but does not fit
`int` makes the parse fail, and so does a body of 10000 `say x` lines, although the `end`
of the loop is there. -/
theorem for_loop_parse_counterexample :
    parse [kw "for", ident "x", kw "from", ident "2147483648", kw "to", ident "5",
        colonToken, newlineToken, sayToken, ident "x", newlineToken, endToken,
        newlineToken] =
      Outcome.error "Expected number after 'from'" 4 ∧
    parse (kw "for" :: ident "x" :: kw "from" :: ident "1" :: kw "to" :: ident "5" ::
        colonToken :: newlineToken ::
        (linesTokens newlineToken
          (List.replicate 10000 (SimpleLine.say [(ident "x", false)] none)) ++
          [endToken, newlineToken])) =
      Outcome.error "Too many statements parsed without encountering 'end'" 30008 := by
  refine ⟨rfl, ?_⟩
  have h := for_loop_body_limit (ident "x") (ident "1") (ident "5") newlineToken 1 5
    (List.replicate 9999 (SimpleLine.say [(ident "x", false)] none))
    (SimpleLine.say [(ident "x", false)] none) rfl rfl rfl rfl
    (fun l hl => by
      rw [List.eq_of_mem_replicate hl]
      simp [SimpleLine.wellFormed, Token.isArg, ident])
    (by simp [SimpleLine.wellFormed, Token.isArg, ident]) (List.length_replicate _ _)
  rw [← List.replicate_succ', linesTokens_replicate_length] at h
  exact h

/-- C5, the code at the failing input `for x from 1 to 5 : say x NL end` (no newline after
the colon): `parse_for_statement` leaves the colon to the block loop, whose skip of an
unrecognised token drops the colon and the token after it, here the keyword `say`; the body
of the loop is the call `x`, while the block parser on `say x NL end` yields the `say`. -/
theorem for_colon_drops_next_token :
    parse [kw "for", ident "x", kw "from", ident "1", kw "to", ident "5", colonToken,
        sayToken, ident "x", newlineToken, endToken] =
      Outcome.ok { statements := [Statement.ForStatement "x" 1 5
        [Statement.FunctionCall "x" "" TokenType.EOFToken]] } 11 ∧
    parse_block 3 [sayToken, ident "x", newlineToken, endToken] 0 =
      Outcome.ok [Statement.SayStatement ["x"] [true] "\\n"] 4 :=
  ⟨rfl, rfl⟩

/-- C6 as the code has it.  `function` `n` `:` and a block parse to the `FunctionDef` named
`n.value` with the empty parameter and the body the block parser returns after the colon
(and fail as the block parser fails).  When the token `p` after the name is not the symbol
`:`, its value is the parameter, and the token `c` after it is accepted as the colon exactly
when its value is ":", whatever its kind: then the statement is the `FunctionDef` with
parameter `p.value` and the body of the block after `c`; when the value of `c` is not ":",
or the input ends after `p`, the parse fails with "Expected ':' after parameter in function
definition". -/
theorem function_definition (n : Token) :
    (∀ (fuel : Nat) (toks : List Token) (pos : Nat) (rest : List Token),
      toks.drop pos = kw "function" :: n :: colonToken :: rest →
      parse_statement (fuel + 1) toks pos =
        (parse_block fuel toks (pos + 3)).map
          (fun body => some (Statement.FunctionDef n.value "" body))) ∧
    (∀ (p c : Token), ¬(p.type = TokenType.Symbol ∧ p.value = ":") →
      ∀ (fuel : Nat) (toks : List Token) (pos : Nat) (rest : List Token),
      toks.drop pos = kw "function" :: n :: p :: c :: rest →
      (c.value = ":" →
        parse_statement (fuel + 1) toks pos =
          (parse_block fuel toks (pos + 4)).map
            (fun body => some (Statement.FunctionDef n.value p.value body))) ∧
      (c.value ≠ ":" →
        parse_statement (fuel + 1) toks pos =
          Outcome.error "Expected ':' after parameter in function definition" (pos + 4))) ∧
    (∀ (p : Token), ¬(p.type = TokenType.Symbol ∧ p.value = ":") →
      ∀ (fuel : Nat) (toks : List Token) (pos : Nat),
      toks.drop pos = [kw "function", n, p] →
      parse_statement (fuel + 1) toks pos =
        Outcome.error "Expected ':' after parameter in function definition" (pos + 3)) := by
  refine ⟨?_, ?_, ?_⟩
  · intro fuel toks pos rest hdrop
    exact parse_statement_function_noparam fuel toks pos n rest hdrop
  · intro p c hp fuel toks pos rest hdrop
    have h := parse_statement_function_param fuel toks pos n p c rest hp hdrop
    constructor
    · intro hc
      rw [h, if_neg (not_not.mpr hc)]
    · intro hc
      rw [h, if_pos hc]
  · intro p hp fuel toks pos hdrop
    exact parse_statement_function_param_eof fuel toks pos n p hp hdrop

/-- Witness of C6 as the code has it: `function greet name:` / `say "hi", name` / `end`. -/
theorem function_definition_witness :
    parse_statement 4 [kw "function", ident "greet", ident "name", colonToken, newlineToken,
        sayToken, str "hi", commaToken, ident "name", newlineToken, endToken,
        newlineToken] 0 =
      Outcome.ok (some (Statement.FunctionDef "greet" "name"
        [Statement.SayStatement ["hi", "name"] [false, true] "\\n"])) 11 :=
  ((function_definition (ident "greet")).2.1 (ident "name") colonToken (by decide) 3
    [kw "function", ident "greet", ident "name", colonToken, newlineToken,
      sayToken, str "hi", commaToken, ident "name", newlineToken, endToken, newlineToken]
    0 [newlineToken, sayToken, str "hi", commaToken, ident "name", newlineToken, endToken,
      newlineToken] rfl).1 rfl

/-- Counterexample to C6 as stated: after the parameter `name` comes the string literal
":", which is not the symbol `:`, and the parse does not fail: the literal is taken for the
colon. -/
theorem function_definition_counterexample :
    str ":" ≠ colonToken ∧
      parse_statement 2 [kw "function", ident "greet", ident "name", str ":", endToken] 0 =
        Outcome.ok (some (Statement.FunctionDef "greet" "name" [])) 5 :=
  ⟨by decide, rfl⟩

/-- C7 as the code has it: when the remaining tokens hold no keyword `end`, `parse_block`
never returns a body and, given fuel for the remaining tokens, fails with a fatal error.
The error is "Unexpected end of file inside block.", or the error of the iteration counter,
or the error a statement grammar threw at a position inside the block; it is the
end-of-file error whenever the remaining tokens are at most 10000 well-formed `say`, `set`
or call lines. -/
theorem block_without_end_fails (toks : List Token) (pos : Nat)
    (hno : ∀ t ∈ toks.drop pos, ¬t.isEnd) :
    (∀ (fuel : Nat) (body : List Statement) (p : Nat),
      parse_block fuel toks pos ≠ Outcome.ok body p) ∧
    (∀ fuel, 3 * (toks.length - pos) + 2 ≤ fuel →
      ∃ msg p, parse_block fuel toks pos = Outcome.error msg p ∧
        (msg = "Unexpected end of file inside block." ∨
          msg = "Too many statements parsed without encountering 'end'" ∨
          ∃ fuel' pos', pos ≤ pos' ∧
            parse_statement fuel' toks pos' = Outcome.error msg p)) ∧
    (∀ (nl : Token) (lines : List SimpleLine) (fuel : Nat),
      nl.type = TokenType.Newline → (∀ l ∈ lines, l.wellFormed) →
      lines.length ≤ 10000 → toks.drop pos = linesTokens nl lines →
      lines.length + 1 ≤ fuel →
      parse_block fuel toks pos =
        Outcome.error "Unexpected end of file inside block."
          (pos + (linesTokens nl lines).length)) := by
  refine ⟨?_, ?_, ?_⟩
  · intro fuel body p h
    obtain ⟨t, ht, hend⟩ := block_ok_has_end fuel toks pos [] 0 body p h
    exact hno t ht hend
  · intro fuel hf
    have htot := (parse_total fuel).2.2 toks pos [] 0 hf
    cases hr : parse_block fuel toks pos with
    | ok body p =>
      obtain ⟨t, ht, hend⟩ := block_ok_has_end fuel toks pos [] 0 body p hr
      exact absurd hend (hno t ht)
    | error msg p => exact ⟨msg, p, rfl, block_error_source fuel toks pos [] 0 msg p hr⟩
    | outOfFuel => exact absurd hr htot
  · intro nl lines fuel hnl hwf hk hdrop hfuel
    obtain ⟨f, hf⟩ : ∃ f, fuel = lines.length + (f + 1) := ⟨fuel - lines.length - 1, by omega⟩
    have hd : toks.drop pos = linesTokens nl lines ++ [] := by rw [hdrop, List.append_nil]
    have hend : toks.drop (pos + (linesTokens nl lines).length) = [] := by
      rw [← List.drop_drop, hdrop, List.drop_length]
    unfold parse_block
    rw [hf, block_loop_lines nl hnl lines f toks pos [] [] 0 hwf hd (by omega),
      block_loop_eof f toks _ _ _ (by rw [(cursor_nil hend).1]; rfl)]

/-- Witness of C7 as the code has it: `say "x"` and a newline, then the end of the input. -/
theorem block_without_end_fails_witness :
    parse_block 2 [sayToken, str "x", newlineToken] 0 =
      Outcome.error "Unexpected end of file inside block." 3 :=
  (block_without_end_fails [sayToken, str "x", newlineToken] 0 (by decide)).2.2
    newlineToken [SimpleLine.say [(str "x", false)] none] 2 rfl
    (by simp [SimpleLine.wellFormed, Token.isArg, str]) (by decide) rfl (by decide)

/-- Counterexample to C7 as stated: the tokens `say` `,` hold no `end`, and `parse_block`
fails on them with the error of the `say` grammar, not with the end-of-file error, whatever
the fuel. -/
theorem block_without_end_counterexample :
    (∀ t ∈ [sayToken, commaToken].drop 0, ¬t.isEnd) ∧
      parse_block 2 [sayToken, commaToken] 0 =
        Outcome.error "Unexpected token in 'say': ," 1 ∧
      (∀ fuel p, parse_block fuel [sayToken, commaToken] 0 ≠
        Outcome.error "Unexpected end of file inside block." p) := by
  refine ⟨by decide, rfl, ?_⟩
  intro fuel p h
  match fuel, h with
  | 0, h => cases h
  | 1, h => cases h
  | n + 2, h =>
    have h2 : parse_block (n + 2) [sayToken, commaToken] 0 =
        Outcome.error "Unexpected token in 'say': ," 1 := rfl
    rw [h2] at h
    injection h with h1 _
    exact absurd h1 (by decide)

/-- C8 as the code has it: a block that starts with more than 10000 well-formed simple
statements (newline-terminated `say`, `set` or call lines), whatever follows them, makes
`parse_block` fail with "Too many statements parsed without encountering 'end'", which is
not the end-of-file error.  The loop runs 10000 iterations without stopping (it reaches the counter value 10000 with the first 10000 statements as its
body) and the next iteration, the 10001st, throws: the cursor at the throw is right after
the statement of line 10001. -/
theorem too_many_statements (nl : Token) (lines : List SimpleLine) (toks : List Token)
    (pos : Nat) (rest : List Token) (fuel : Nat)
    (hnl : nl.type = TokenType.Newline) (hwf : ∀ l ∈ lines, l.wellFormed)
    (hmany : 10000 < lines.length)
    (hdrop : toks.drop pos = linesTokens nl lines ++ rest) (hfuel : 10002 ≤ fuel) :
    parse_block fuel toks pos =
        Outcome.error "Too many statements parsed without encountering 'end'"
          (pos + (linesTokens nl (lines.take 10000)).length +
            (lines.get ⟨10000, hmany⟩).consumed) ∧
      (∀ p, parse_block fuel toks pos ≠
        Outcome.error "Unexpected end of file inside block." p) ∧
      parse_block fuel toks pos =
        parse_block_loop (fuel - 10000) toks
          (pos + (linesTokens nl (lines.take 10000)).length)
          ((lines.take 10000).map SimpleLine.statement) 10000 ∧
      parse_block_iteration (fuel - 10001) toks
          (pos + (linesTokens nl (lines.take 10000)).length)
          ((lines.take 10000).map SimpleLine.statement) 10000 =
        LoopStep.halt (Outcome.error "Too many statements parsed without encountering 'end'"
          (pos + (linesTokens nl (lines.take 10000)).length +
            (lines.get ⟨10000, hmany⟩).consumed)) := by
  have hsplit : lines = lines.take 10000 ++ (lines.get ⟨10000, hmany⟩ :: lines.drop 10001) := by
    have h1 : lines.drop 10000 = lines.get ⟨10000, hmany⟩ :: lines.drop 10001 :=
      List.drop_eq_getElem_cons hmany
    rw [← h1, List.take_append_drop]
  have htake : (lines.take 10000).length = 10000 := by
    rw [List.length_take]; omega
  have hwf1 : ∀ l ∈ lines.take 10000, l.wellFormed :=
    fun l hl => hwf l (List.mem_of_mem_take hl)
  have hwf2 : (lines.get ⟨10000, hmany⟩).wellFormed := hwf _ (List.get_mem _ _ _)
  have hd1 : toks.drop pos = linesTokens nl (lines.take 10000) ++
      ((lines.get ⟨10000, hmany⟩).tokens nl ++ (linesTokens nl (lines.drop 10001) ++ rest)) := by
    rw [hdrop]
    conv => lhs; rw [hsplit]
    rw [linesTokens_append, linesTokens, List.append_assoc, List.append_assoc]
  have hd2 : toks.drop (pos + (linesTokens nl (lines.take 10000)).length) =
      (lines.get ⟨10000, hmany⟩).tokens nl ++ (linesTokens nl (lines.drop 10001) ++ rest) := by
    rw [← List.drop_drop, hd1, List.drop_left]
  obtain ⟨f, hf⟩ : ∃ f, fuel = 10000 + (f + 1 + 1) := ⟨fuel - 10002, by omega⟩
  have hloop : parse_block fuel toks pos =
      parse_block_loop (fuel - 10000) toks
        (pos + (linesTokens nl (lines.take 10000)).length)
        ((lines.take 10000).map SimpleLine.statement) 10000 := by
    have h := block_loop_lines nl hnl (lines.take 10000) (f + 1) toks pos _ [] 0 hwf1 hd1
      (by omega)
    rw [htake] at h
    have hsub : fuel - 10000 = f + 1 + 1 := by omega
    unfold parse_block
    rw [hsub, hf, h]
    simp
  have hsub : fuel - 10000 = f + 2 := by omega
  have hsub1 : fuel - 10001 = f + 1 := by omega
  have hthrow := block_loop_line_guard f toks _ nl _ _
    ((lines.take 10000).map SimpleLine.statement) 10000 hnl hwf2 hd2 (by omega)
  have hres : parse_block fuel toks pos =
      Outcome.error "Too many statements parsed without encountering 'end'"
        (pos + (linesTokens nl (lines.take 10000)).length +
          (lines.get ⟨10000, hmany⟩).consumed) := by
    rw [hloop, hsub, hthrow]
  refine ⟨hres, ?_, hloop, ?_⟩
  · intro p hp
    rw [hres] at hp
    injection hp with h1 _
    exact absurd h1 (by decide)
  · rw [hsub1]
    obtain ⟨t, r, htr, h1, h2, h3⟩ := line_head nl _ hwf2
    have hp : peek toks (pos + (linesTokens nl (lines.take 10000)).length) = t := by
      rw [peek_of_drop hd2, htr]; rfl
    have hsk : skip_newlines toks (pos + (linesTokens nl (lines.take 10000)).length) =
        pos + (linesTokens nl (lines.take 10000)).length :=
      skip_newlines_of_ne (by rw [hp]; exact h1)
    have hs := parse_statement_line f toks _ nl _ _ hnl hwf2 hd2
    unfold parse_block_iteration
    simp only [hsk, hp, h2, h3, hs, if_false]
    simp

/-- Witness of C8: 10001 lines `set x`, three tokens each; the throw comes with the cursor
at 30002, right after the `x` of line 10001. -/
theorem too_many_statements_witness :
    parse_block 10002
        (linesTokens newlineToken (List.replicate 10001 (SimpleLine.set (ident "x")))) 0 =
      Outcome.error "Too many statements parsed without encountering 'end'" 30002 := by
  have hlen : 10000 < (List.replicate 10001 (SimpleLine.set (ident "x"))).length := by
    rw [List.length_replicate]; decide
  have h := (too_many_statements newlineToken
    (List.replicate 10001 (SimpleLine.set (ident "x")))
    (linesTokens newlineToken (List.replicate 10001 (SimpleLine.set (ident "x")))) 0 []
    10002 rfl
    (fun l hl => by rw [List.eq_of_mem_replicate hl]; exact rfl)
    hlen (List.append_nil _).symm (by decide)).1
  have hget : (List.replicate 10001 (SimpleLine.set (ident "x"))).get ⟨10000, hlen⟩ =
      SimpleLine.set (ident "x") := by
    rw [List.get_eq_getElem, List.getElem_replicate]
  have hpos : 0 + (linesTokens newlineToken
      ((List.replicate 10001 (SimpleLine.set (ident "x"))).take 10000)).length +
      ((List.replicate 10001 (SimpleLine.set (ident "x"))).get
        ⟨10000, hlen⟩).consumed = 30002 := by
    rw [hget, List.take_replicate, linesTokens_replicate_length]
    rfl
  rw [hpos] at h
  exact h

/-- Counterexample to C8 as stated: `say` `,` followed by 10001 lines `set x`.  The
remaining tokens hold more than 10000 statements and no keyword `end`, and `parse_block`
fails in its first iteration with the error of the `say` grammar, which it meets before it
tests the counter; it never fails with the error of the counter, whatever the fuel. -/
theorem too_many_statements_counterexample :
    10000 < (List.replicate 10001 (SimpleLine.set (ident "x"))).length ∧
      (∀ t ∈ sayToken :: commaToken ::
          linesTokens newlineToken (List.replicate 10001 (SimpleLine.set (ident "x"))),
        ¬t.isEnd) ∧
      parse_block 2 (sayToken :: commaToken ::
          linesTokens newlineToken (List.replicate 10001 (SimpleLine.set (ident "x")))) 0 =
        Outcome.error "Unexpected token in 'say': ," 1 ∧
      (∀ fuel p, parse_block fuel (sayToken :: commaToken ::
          linesTokens newlineToken (List.replicate 10001 (SimpleLine.set (ident "x")))) 0 ≠
        Outcome.error "Too many statements parsed without encountering 'end'" p) := by
  refine ⟨?_, ?_, block_say_comma 0 _, ?_⟩
  · rw [List.length_replicate]
    decide
  · intro t ht
    rw [List.mem_cons, List.mem_cons] at ht
    rcases ht with ht | ht | ht
    · rw [ht]; decide
    · rw [ht]; decide
    · obtain ⟨l, hl, hm⟩ := mem_linesTokens ht
      rw [List.eq_of_mem_replicate hl] at hm
      have hm' : t ∈ [setToken, ident "x", newlineToken] := hm
      rw [List.mem_cons, List.mem_cons, List.mem_singleton] at hm'
      rcases hm' with h | h | h <;> rw [h] <;> decide
  · intro fuel p
    exact block_say_comma_not_counter fuel _ p

/-- C9: `parse` terminates on every token list, with a tree or a fatal error: the bounds of
the embedding are never what stops it, and they do not shape the result (any run of the
top-level loop that is not cut short returns what `parse` returns).  An iteration of the
top-level loop or of the block loop that goes on has strictly increased the cursor
position, and the recursion between `parse_statement` and `parse_block` is bounded by the
number of remaining tokens: fuel linear in `toks.length - pos` is enough for either to
return or throw, and more fuel returns the same. -/
theorem parse_terminates (toks : List Token) :
    ((∃ ast p, parse toks = Outcome.ok ast p) ∨ (∃ msg p, parse toks = Outcome.error msg p)) ∧
    (∀ (fuel n : Nat), parse_loop fuel toks n 0 [] ≠ Outcome.outOfFuel →
      parse_loop fuel toks n 0 [] = parse toks) ∧
    (∀ (fuel pos : Nat) (sts : List Statement) (pos' : Nat) (sts' : List Statement),
      parse_iteration fuel toks pos sts = LoopStep.next (pos', sts') → pos < pos') ∧
    (∀ (fuel pos : Nat) (body : List Statement) (sc pos' : Nat) (body' : List Statement)
      (sc' : Nat),
      parse_block_iteration fuel toks pos body sc = LoopStep.next (pos', body', sc') →
      pos < pos') ∧
    (∀ (fuel pos : Nat), 3 * (toks.length - pos) + 1 ≤ fuel →
      parse_statement fuel toks pos ≠ Outcome.outOfFuel) ∧
    (∀ (fuel pos : Nat), 3 * (toks.length - pos) + 2 ≤ fuel →
      parse_block fuel toks pos ≠ Outcome.outOfFuel) ∧
    (∀ (fuel k pos : Nat), parse_statement fuel toks pos ≠ Outcome.outOfFuel →
      parse_statement (fuel + k) toks pos = parse_statement fuel toks pos) ∧
    (∀ (fuel k pos : Nat), parse_block fuel toks pos ≠ Outcome.outOfFuel →
      parse_block (fuel + k) toks pos = parse_block fuel toks pos) := by
  refine ⟨?_, ?_, ?_, ?_, ?_, ?_, ?_, ?_⟩
  · have h := parse_ne_outOfFuel toks
    cases hp : parse toks with
    | ok ast p => exact Or.inl ⟨ast, p, rfl⟩
    | error msg p => exact Or.inr ⟨msg, p, rfl⟩
    | outOfFuel => exact absurd hp h
  · intro fuel n h
    exact parse_loop_eq_parse toks fuel n h
  · intro fuel pos sts pos' sts' h
    exact parse_iteration_progress fuel toks pos sts pos' sts' h
  · intro fuel pos body sc pos' body' sc' h
    exact parse_block_iteration_progress fuel toks pos body sc pos' body' sc' h
  · intro fuel pos hf
    exact (parse_total fuel).1 toks pos hf
  · intro fuel pos hf
    exact (parse_total fuel).2.2 toks pos [] 0 hf
  · intro fuel k pos h
    exact (parse_fuel_mono fuel k).1 toks pos h
  · intro fuel k pos h
    exact (parse_fuel_mono fuel k).2 toks pos [] 0 h

/-- Witness of C9 on `start:` / `say "hi"` / `end`: the first iteration of the block loop
goes on from position 2 to position 6, and fuel 22 is enough for the statement. -/
theorem parse_terminates_witness :
    2 < 6 ∧
      parse_statement 22 [kw "start", sym ":", newlineToken, sayToken, str "hi", newlineToken,
        endToken] 0 ≠ Outcome.outOfFuel :=
  ⟨(parse_terminates [kw "start", sym ":", newlineToken, sayToken, str "hi", newlineToken,
      endToken]).2.2.2.1 3 2 [] 0 6
      [Statement.SayStatement ["hi"] [false] "\\n"] 1 rfl,
    (parse_terminates [kw "start", sym ":", newlineToken, sayToken, str "hi", newlineToken,
      endToken]).2.2.2.2.1 22 0 (by decide)⟩

/-- C10: token cursor contract.  For every token list and position, `peek` is the token at
the position when the position is inside the list and the sentinel `EOFToken` with empty
value otherwise (it returns no position: the cursor is untouched); `advance` returns the
token `peek` returns, and moves to `pos + 1` inside the list and stays put otherwise; both
are total, and a position that is at most the length stays so. -/
theorem cursor_contract (toks : List Token) (pos : Nat) :
    (peek toks pos =
        if h : pos < toks.length then toks.get ⟨pos, h⟩
        else { type := TokenType.EOFToken, value := "" }) ∧
      (advance toks pos).1 = peek toks pos ∧
      (advance toks pos).2 = (if pos < toks.length then pos + 1 else pos) ∧
      (pos ≤ toks.length → (advance toks pos).2 ≤ toks.length) := by
  refine ⟨?_, advance_fst toks pos, ?_, ?_⟩
  · by_cases h : pos < toks.length
    · rw [peek_of_lt h, dif_pos h]
    · rw [peek_of_ge (Nat.le_of_not_lt h), dif_neg h]; rfl
  · by_cases h : pos < toks.length
    · rw [advance_snd_of_lt h, if_pos h]
    · rw [advance_snd_of_ge (Nat.le_of_not_lt h), if_neg h]
  · intro hle
    by_cases h : pos < toks.length
    · rw [advance_snd_of_lt h]; omega
    · rw [advance_snd_of_ge (Nat.le_of_not_lt h)]; exact hle

/-- Witness of C10 on a one-token list: from position 0 the cursor moves to 1, which is
still at most the length. -/
theorem cursor_contract_witness :
    (advance [sayToken] 0).2 ≤ [sayToken].length :=
  (cursor_contract [sayToken] 0).2.2.2 (by decide)

/-- C11, the code at the candidate witness `?` `say` "hi" newline: the symbol `?` is
skipped together with the keyword `say` that follows it, then the string literal together
with the newline, and the tree is empty with the cursor at 4; the same tokens without the
`?` parse to the one statement `say "hi"`.  So `parse (t :: rest) = parse rest` fails for
the unrecognised token `?`: the dispatcher consumes the token and returns no statement,
and the loop of `parse` consumes one more token. -/
theorem unrecognised_token_drops_two :
    (sym "?").unrecognised ∧
    parse [sym "?", sayToken, str "hi", newlineToken] = Outcome.ok { statements := [] } 4 ∧
    parse [sayToken, str "hi", newlineToken] =
      Outcome.ok { statements := [Statement.SayStatement ["hi"] [false] "\\n"] } 3 ∧
    parse_statement 1 [sym "?", sayToken, str "hi", newlineToken] 0 = Outcome.ok none 1 ∧
    parse_iteration 1 [sym "?", sayToken, str "hi", newlineToken] 0 [] =
      LoopStep.next (2, []) :=
  ⟨by decide, rfl, rfl, rfl, rfl⟩

/-- C12 as the code has it: with the keyword `set` ahead the dispatcher never fails and
returns the `SetStatement` whose variable is the value of the token after `set`; the
cursor rises by exactly 2 when a token follows `set`, and by 1 when `set` is the last token
of the input, in which case the variable is the empty value of the end-of-input
sentinel. -/
theorem set_statement (fuel : Nat) (toks : List Token) (pos : Nat)
    (ht : (peek toks pos).type = TokenType.Keyword) (hv : (peek toks pos).value = "set") :
    parse_statement (fuel + 1) toks pos =
        Outcome.ok (some (Statement.SetStatement (peek toks (pos + 1)).value))
          (if pos + 1 < toks.length then pos + 2 else pos + 1) ∧
      (pos + 1 < toks.length →
        parse_statement (fuel + 1) toks pos =
          Outcome.ok (some (Statement.SetStatement (peek toks (pos + 1)).value)) (pos + 2)) ∧
      (toks.length ≤ pos + 1 →
        parse_statement (fuel + 1) toks pos =
          Outcome.ok (some (Statement.SetStatement "")) (pos + 1)) := by
  have h := parse_statement_set_at fuel toks pos ht hv
  refine ⟨h, ?_, ?_⟩
  · intro hlt
    rw [h, if_pos hlt]
  · intro hge
    rw [h, if_neg (by omega), peek_of_ge hge]
    rfl

/-- Witness of C12 as the code has it: `set x`, two tokens consumed. -/
theorem set_statement_witness :
    parse_statement 1 [setToken, ident "x"] 0 =
      Outcome.ok (some (Statement.SetStatement "x")) 2 :=
  (set_statement 0 [setToken, ident "x"] 0 rfl rfl).2.1 (by decide)

/-- Counterexample to C12 as stated: `set` as the last token of the input.  The cursor
rises by 1, not by 2, and the variable is the empty value of the sentinel. -/
theorem set_statement_counterexample :
    (peek [setToken] 0).type = TokenType.Keyword ∧ (peek [setToken] 0).value = "set" ∧
      parse_statement 1 [setToken] 0 = Outcome.ok (some (Statement.SetStatement "")) 1 ∧
      parse [setToken] = Outcome.ok { statements := [Statement.SetStatement ""] } 1 :=
  ⟨rfl, rfl, rfl, rfl⟩

/-- C13: with an identifier `f` ahead the dispatcher returns a `FunctionCall` of `f.value`.
When the next token is a string literal or an identifier it is consumed (the cursor rises
by 2) and the call holds its value and its kind; otherwise nothing more is consumed (the
cursor rises by 1) and the call holds the empty argument and the kind `EOFToken`.  So the
kind of the returned call is `EOFToken` exactly when no argument token was consumed, and
every call of a tree that `parse` returns, at any depth, has the kind of a string literal
or of an identifier, or `EOFToken` with the empty argument. -/
theorem call_grammar :
    (∀ (fuel : Nat) (toks : List Token) (pos : Nat),
      (peek toks pos).type = TokenType.Identifier →
      parse_statement (fuel + 1) toks pos =
        if (peek toks (pos + 1)).isArg then
          Outcome.ok (some (Statement.FunctionCall (peek toks pos).value
            (peek toks (pos + 1)).value (peek toks (pos + 1)).type)) (pos + 2)
        else
          Outcome.ok (some (Statement.FunctionCall (peek toks pos).value ""
            TokenType.EOFToken)) (pos + 1)) ∧
    (∀ (fuel : Nat) (toks : List Token) (pos : Nat) (s : Statement) (q : Nat),
      (peek toks pos).type = TokenType.Identifier →
      parse_statement (fuel + 1) toks pos = Outcome.ok (some s) q →
      ∃ arg k, s = Statement.FunctionCall (peek toks pos).value arg k ∧
        (k = TokenType.EOFToken ↔ q = pos + 1) ∧
        (k = TokenType.EOFToken ↔ ¬(peek toks (pos + 1)).isArg) ∧
        (k = TokenType.StringLiteral ∨ k = TokenType.Identifier ∨ k = TokenType.EOFToken)) ∧
    (∀ (toks : List Token) (ast : AST) (p : Nat),
      parse toks = Outcome.ok ast p → allCallsTagged ast.statements = true) := by
  refine ⟨parse_statement_call, ?_, ?_⟩
  · intro fuel toks pos s q hf h
    rw [parse_statement_call fuel toks pos hf] at h
    by_cases harg : (peek toks (pos + 1)).isArg
    · rw [if_pos harg] at h
      cases h
      refine ⟨_, _, rfl, ?_, ?_, ?_⟩
      · constructor
        · intro hk
          rcases harg with h1 | h1 <;> rw [h1] at hk <;> cases hk
        · intro hq
          omega
      · constructor
        · intro hk
          rcases harg with h1 | h1 <;> rw [h1] at hk <;> cases hk
        · intro hn
          exact absurd harg hn
      · rcases harg with h1 | h1
        · exact Or.inl h1
        · exact Or.inr (Or.inl h1)
    · rw [if_neg harg] at h
      cases h
      exact ⟨_, _, rfl, ⟨fun _ => rfl, fun _ => rfl⟩, ⟨fun _ => harg, fun _ => rfl⟩,
        Or.inr (Or.inr rfl)⟩
  · intro toks ast p h
    exact parse_loop_callsTagged _ _ _ _ _ _ _ h rfl

/-- Witness of C13: `greet "hi"` takes its argument, and the tree of `greet` newline `f x`
has tagged calls only. -/
theorem call_grammar_witness :
    parse_statement 1 [ident "greet", str "hi"] 0 =
        (if (peek [ident "greet", str "hi"] (0 + 1)).isArg then
          Outcome.ok (some (Statement.FunctionCall "greet" "hi" TokenType.StringLiteral)) 2
        else Outcome.ok (some (Statement.FunctionCall "greet" "" TokenType.EOFToken)) 1) ∧
      allCallsTagged [Statement.FunctionCall "greet" "" TokenType.EOFToken,
        Statement.FunctionCall "f" "x" TokenType.Identifier] = true :=
  ⟨call_grammar.1 0 [ident "greet", str "hi"] 0 rfl,
    call_grammar.2.2 [ident "greet", newlineToken, ident "f", ident "x"]
      { statements := [Statement.FunctionCall "greet" "" TokenType.EOFToken,
        Statement.FunctionCall "f" "x" TokenType.Identifier] } 4 rfl⟩

/-- C14: indentation rule 3.  For every source and every line `i + 1` (1-based) that is not
blank, not a `#` comment, not `end` and not a block opener, the analyzer writes the
"Inconsistent indentation" message with line number `i + 1`, expected width `e` and
actual width `g` exactly when the stack is non-empty as the line is reached, `e` is its
top, `g` is the count of leading spaces of the line, and `g ≤ e`; it writes it once then,
writes no other message with that line number, and leaves the stack as it is. -/
theorem indentation_rule3 (source : String) (i : Nat) (line : List Char)
    (hline : (getlines source.toList [])[i]? = some line)
    (hchk : isChecked line) (hend : trim line ≠ "end".toList)
    (hop : isOpener (trim line) = false) :
    (∀ e g, (check_indentation source).count (Diagnostic.inconsistent (i + 1) e g) =
      if (check_lines 1 [] ((getlines source.toList []).take i)).1.head? = some e ∧
          g = leadingSpaces line ∧ g ≤ e then 1 else 0) ∧
    (∀ d ∈ check_indentation source, d.line = some (i + 1) →
      ∃ e, d = Diagnostic.inconsistent (i + 1) e (leadingSpaces line)) ∧
    (check_lines 1 [] ((getlines source.toList []).take (i + 1))).1 =
      (check_lines 1 [] ((getlines source.toList []).take i)).1 := by
  have hrule := check_line_other (i + 1)
    (check_lines 1 [] ((getlines source.toList []).take i)).1 line hchk hend hop
  refine ⟨?_, ?_, ?_⟩
  · intro e g
    rw [count_check_indentation_at source i line hline
      (Diagnostic.inconsistent (i + 1) e g) rfl, hrule]
    generalize (check_lines 1 [] ((getlines source.toList []).take i)).1 = stack
    cases stack with
    | nil => simp
    | cons top rest =>
      simp only [List.head?_cons, Option.some.injEq]
      by_cases hle : leadingSpaces line ≤ top
      · rw [if_pos hle]
        by_cases hc : top = e ∧ g = leadingSpaces line ∧ g ≤ e
        · obtain ⟨h1, h2, _⟩ := hc
          subst h1 h2
          simp [hle]
        · rw [if_neg hc, List.count_eq_zero, List.mem_singleton]
          intro h
          injection h with _ h1 h2
          exact hc ⟨h1.symm, h2, by rw [h2, h1]; exact hle⟩
      · rw [if_neg hle]
        have hc : ¬(top = e ∧ g = leadingSpaces line ∧ g ≤ e) := by
          rintro ⟨h1, h2, h3⟩
          rw [h2, ← h1] at h3
          exact hle h3
        rw [if_neg hc]
        rfl
  · intro d hd hl
    rw [mem_check_indentation_at source i line hline d hl, hrule] at hd
    generalize (check_lines 1 [] ((getlines source.toList []).take i)).1 = stack at hd
    cases stack with
    | nil => cases hd
    | cons top rest =>
      simp only at hd
      split at hd
      · rw [List.mem_singleton] at hd
        exact ⟨top, hd⟩
      · cases hd
  · rw [check_lines_take_succ _ i line hline, hrule]

/-- Witness of C14: the three lines `function f:` / `say "x"` / `end`; line 2 is written
once, with both widths 0, and it is the whole output. -/
theorem indentation_rule3_witness :
    check_indentation "function f:\nsay \"x\"\nend" = [Diagnostic.inconsistent 2 0 0] ∧
      (check_indentation "function f:\nsay \"x\"\nend").count
        (Diagnostic.inconsistent 2 0 0) = 1 :=
  ⟨by decide,
    ((indentation_rule3 "function f:\nsay \"x\"\nend" 1 "say \"x\"".toList (by decide)
      (by decide) (by decide) (by decide)).1 0 0).trans (by decide)⟩

/-- C15: indentation rule 1.  For every line `i + 1` whose trimmed text is `end`: when the
stack is empty as the line is reached, the analyzer writes "'end' without matching block
start" for the line and the stack stays empty; otherwise it pops exactly one entry and
writes the "'end' indentation mismatch" message with the popped width and the width of the
line exactly when the two differ.  These are the only messages with that line number. -/
theorem indentation_rule1 (source : String) (i : Nat) (line : List Char)
    (hline : (getlines source.toList [])[i]? = some line)
    (hend : trim line = "end".toList) :
    ((check_lines 1 [] ((getlines source.toList []).take i)).1 = [] →
      (check_lines 1 [] ((getlines source.toList []).take (i + 1))).1 = [] ∧
      ∀ d, d.line = some (i + 1) →
        (check_indentation source).count d =
          if d = Diagnostic.endWithoutBlock (i + 1) then 1 else 0) ∧
    (∀ top rest, (check_lines 1 [] ((getlines source.toList []).take i)).1 = top :: rest →
      (check_lines 1 [] ((getlines source.toList []).take (i + 1))).1 = rest ∧
      ∀ d, d.line = some (i + 1) →
        (check_indentation source).count d =
          if d = Diagnostic.endMismatch (i + 1) top (leadingSpaces line) ∧
              leadingSpaces line ≠ top then 1 else 0) := by
  have hrule := check_line_end (i + 1)
    (check_lines 1 [] ((getlines source.toList []).take i)).1 line hend
  have hstack := check_lines_take_succ _ i line hline
  constructor
  · intro hs
    rw [hs] at hrule
    constructor
    · rw [hstack, hs, hrule]
    · intro d hd
      rw [count_check_indentation_at source i line hline d hd, hs, hrule]
      by_cases hc : d = Diagnostic.endWithoutBlock (i + 1)
      · subst hc; simp
      · rw [if_neg hc, List.count_eq_zero, List.mem_singleton]
        exact hc
  · intro top rest hs
    rw [hs] at hrule
    constructor
    · rw [hstack, hs, hrule]
    · intro d hd
      rw [count_check_indentation_at source i line hline d hd, hs, hrule]
      simp only
      by_cases hne : leadingSpaces line ≠ top
      · rw [if_pos hne]
        by_cases hc : d = Diagnostic.endMismatch (i + 1) top (leadingSpaces line)
        · subst hc; simp [hne]
        · rw [if_neg (fun h => hc h.1), List.count_eq_zero, List.mem_singleton]
          exact hc
      · rw [if_neg hne, if_neg (fun h => hne h.2)]
        rfl

/-- Witness of C15: `function f:` / `  say "x"` / `  end`; the `end` at width 2 pops the
expected width 0 and the mismatch is written once. -/
theorem indentation_rule1_witness :
    check_indentation "function f:\n  say \"x\"\n  end" = [Diagnostic.endMismatch 3 0 2] ∧
      (check_indentation "function f:\n  say \"x\"\n  end").count
        (Diagnostic.endMismatch 3 0 2) = 1 :=
  ⟨by decide,
    (((indentation_rule1 "function f:\n  say \"x\"\n  end" 2 "  end".toList (by decide)
      (by decide)).2 0 [] (by decide)).2 (Diagnostic.endMismatch 3 0 2) rfl).trans
      (by decide)⟩

/-- C16: unclosed blocks.  The output of the analyzer is the messages of the lines, all of
them and in order, followed by "Some blocks not closed properly" when the stack is
non-empty after the last line: that message is written once then and not at all otherwise,
and it is the last one.  It is written whenever the opener lines outnumber the `end`
lines. -/
theorem unclosed_blocks (source : String) :
    check_indentation source =
      (check_lines 1 [] (getlines source.toList [])).2 ++
        (if (check_lines 1 [] (getlines source.toList [])).1 ≠ [] then
          [Diagnostic.notClosed] else []) ∧
    Diagnostic.notClosed ∉ (check_lines 1 [] (getlines source.toList [])).2 ∧
    (check_indentation source).count Diagnostic.notClosed =
      (if (check_lines 1 [] (getlines source.toList [])).1 ≠ [] then 1 else 0) ∧
    ((check_lines 1 [] (getlines source.toList [])).1 ≠ [] →
      (check_indentation source).getLast? = some Diagnostic.notClosed) ∧
    (countEnds (getlines source.toList []) < countOpeners (getlines source.toList []) →
      (check_lines 1 [] (getlines source.toList [])).1 ≠ [] ∧
      Diagnostic.notClosed ∈ check_indentation source) := by
  have hnot := notClosed_not_mem_check_lines (getlines source.toList []) 1 []
  have hout : check_indentation source =
      (check_lines 1 [] (getlines source.toList [])).2 ++
        (if (check_lines 1 [] (getlines source.toList [])).1 ≠ [] then
          [Diagnostic.notClosed] else []) := by
    unfold check_indentation
    simp only
    split <;> simp
  refine ⟨hout, hnot, ?_, ?_, ?_⟩
  · rw [hout, List.count_append, List.count_eq_zero.mpr hnot]
    split <;> simp
  · intro hs
    rw [hout, if_pos hs, List.getLast?_append]
    rfl
  · intro hlt
    have hlen := check_lines_stack_length (getlines source.toList []) 1 []
    have hs : (check_lines 1 [] (getlines source.toList [])).1 ≠ [] := by
      intro hc
      rw [hc] at hlen
      simp only [List.length_nil] at hlen
      omega
    refine ⟨hs, ?_⟩
    rw [hout, if_pos hs]
    simp

/-- Witness of C16: `start:` / `function f:` / `end`, two openers and one `end`. -/
theorem unclosed_blocks_witness :
    check_indentation "start:\nfunction f:\nend" = [Diagnostic.notClosed] ∧
      Diagnostic.notClosed ∈ check_indentation "start:\nfunction f:\nend" :=
  ⟨by decide, ((unclosed_blocks "start:\nfunction f:\nend").2.2.2.2 (by decide)).2⟩

/-- C17: a body is never partially constructed.  When `parse_block` started at `p` returns
a body with the cursor at `q`, then `p < q` and the token at `q - 1` is the keyword `end`.
A `ForStatement`, `FunctionDef` or `StartBlock` that the dispatcher returns with the cursor
at `q` holds the body of a run of `parse_block` that returned at this same `q`, so its
span ends with a consumed `end`; in a tree that `parse` returns every such statement, at
any depth, holds the body of a run of `parse_block` that returned right after an `end`.
With `for`, `function` or `start` ahead the dispatcher returns such a statement or fails:
there is no other result. -/
theorem body_never_partial :
    (∀ (fuel : Nat) (toks : List Token) (p : Nat) (body : List Statement) (q : Nat),
      parse_block fuel toks p = Outcome.ok body q → p < q ∧ (peek toks (q - 1)).isEnd) ∧
    (∀ (fuel : Nat) (toks : List Token) (pos : Nat) (s : Statement) (q : Nat),
      parse_statement fuel toks pos = Outcome.ok (some s) q → s.isBlock = true →
      (peek toks (q - 1)).isEnd ∧
        ∃ body f p, s.body? = some body ∧ pos ≤ p ∧ p < q ∧
          parse_block f toks p = Outcome.ok body q) ∧
    (∀ (toks : List Token) (ast : AST) (p : Nat),
      parse toks = Outcome.ok ast p → allBlocksClosed toks ast.statements) ∧
    (∀ (fuel : Nat) (toks : List Token) (pos : Nat),
      (peek toks pos).opensBlock → 3 * (toks.length - pos) + 1 ≤ fuel →
      (∃ s q, parse_statement fuel toks pos = Outcome.ok (some s) q ∧ s.isBlock = true) ∨
        (∃ msg q, parse_statement fuel toks pos = Outcome.error msg q)) := by
  refine ⟨?_, ?_, ?_, ?_⟩
  · intro fuel toks p body q h
    exact (parse_progress fuel).2.2 toks p [] 0 body q h
  · intro fuel toks pos s q h hblk
    obtain ⟨body, f, p, hb, hp, hpb⟩ := parse_statement_block fuel toks pos s q h hblk
    obtain ⟨hlt, hend⟩ := (parse_progress f).2.2 toks p [] 0 body q hpb
    exact ⟨hend, body, f, p, hb, hp, hlt, hpb⟩
  · intro toks ast p h
    exact parse_loop_closed _ _ _ _ _ _ _ h trivial
  · intro fuel toks pos hop hfuel
    have htot := (parse_total fuel).1 toks pos hfuel
    cases hres : parse_statement fuel toks pos with
    | outOfFuel => exact absurd hres htot
    | error msg q => exact Or.inr ⟨msg, q, rfl⟩
    | ok os q =>
      obtain ⟨s, hs, hb⟩ := parse_statement_opens fuel toks pos os q hop hres
      subst hs
      exact Or.inl ⟨s, q, rfl, hb⟩

/-- Witness of C17: the block `say x` newline `end` started at 0 returns at 4, and the
token at 3 is the `end`. -/
theorem body_never_partial_witness :
    0 < 4 ∧ (peek [sayToken, ident "x", newlineToken, endToken] (4 - 1)).isEnd :=
  body_never_partial.1 3 [sayToken, ident "x", newlineToken, endToken] 0
    [Statement.SayStatement ["x"] [true] "\\n"] 4 rfl

/-- C18: the `say` grammar against the grammar of the specification (`sayScan`, which reads
the tokens after `say`).  The dispatcher on `say` returns a `SayStatement` when the scan
accepts, and fails with "Unexpected token in 'say': " and the value of the token, with
"Expected '=' after 'end'" or with "Expected string literal after end=" when the scan
gives that verdict: it fails if and only if the scan does not accept. -/
theorem say_grammar_failures (fuel : Nat) (toks : List Token) (pos : Nat) (l : List Token)
    (hdrop : toks.drop pos = sayToken :: l) :
    (sayScan l).agrees (parse_statement (fuel + 1) toks pos) ∧
      ((∃ msg q, parse_statement (fuel + 1) toks pos = Outcome.error msg q) ↔
        sayScan l ≠ SayVerdict.accepted) ∧
      ((∃ args is_vars ending q, parse_statement (fuel + 1) toks pos =
          Outcome.ok (some (Statement.SayStatement args is_vars ending)) q) ↔
        sayScan l = SayVerdict.accepted) := by
  obtain ⟨hp, _, _⟩ := cursor_cons hdrop
  have hs : parse_statement (fuel + 1) toks pos = parse_say toks pos :=
    parse_statement_say fuel toks pos (by rw [hp]; rfl) (by rw [hp]; rfl)
  have hag : (sayScan l).agrees (parse_statement (fuel + 1) toks pos) := by
    rw [hs]
    exact parse_say_scan toks pos l hdrop
  have herr := SayVerdict.agrees_error_iff _ _ hag
  refine ⟨hag, herr, ?_⟩
  constructor
  · rintro ⟨a, v, e, q, h⟩
    by_contra hne
    obtain ⟨msg, q', h'⟩ := herr.mpr hne
    rw [h] at h'
    cases h'
  · intro hacc
    rw [hacc] at hag
    exact hag

/-- Witness of C18: `say "x" end`, where the `end` is not followed by `=`. -/
theorem say_grammar_failures_witness :
    ∃ q, parse_statement 1 [sayToken, str "x", endToken] 0 =
      Outcome.error "Expected '=' after 'end'" q :=
  (say_grammar_failures 0 [sayToken, str "x", endToken] 0 [str "x", endToken] rfl).1

/-- C19: the iteration guard also rejects well-formed blocks.  On `k` newline-terminated
simple lines (`say`, `set` or call lines) followed by the keyword `end`, `parse_block`
returns the `k` statements of the lines, with the cursor right after the `end`, when
`k ≤ 10000`; when `k > 10000` it fails with "Too many statements parsed without
encountering 'end'", at line 10001, although the `end` is in the input.  So it returns a
body of length `k` if and only if `k ≤ 10000`. -/
theorem guard_rejects_closed_blocks (nl : Token) (lines : List SimpleLine) (e : Token)
    (toks : List Token) (pos : Nat) (rest : List Token) (fuel : Nat)
    (hnl : nl.type = TokenType.Newline) (hwf : ∀ l ∈ lines, l.wellFormed) (he : e.isEnd)
    (hdrop : toks.drop pos = linesTokens nl lines ++ e :: rest)
    (hfuel : lines.length + 2 ≤ fuel) :
    (lines.length ≤ 10000 →
      parse_block fuel toks pos =
        Outcome.ok (lines.map SimpleLine.statement)
          (pos + (linesTokens nl lines).length + 1)) ∧
    (∀ hmany : 10000 < lines.length,
      parse_block fuel toks pos =
        Outcome.error "Too many statements parsed without encountering 'end'"
          (pos + (linesTokens nl (lines.take 10000)).length +
            (lines.get ⟨10000, hmany⟩).consumed)) ∧
    ((∃ body q, parse_block fuel toks pos = Outcome.ok body q ∧
        body.length = lines.length) ↔ lines.length ≤ 10000) := by
  have h1 : lines.length ≤ 10000 →
      parse_block fuel toks pos =
        Outcome.ok (lines.map SimpleLine.statement)
          (pos + (linesTokens nl lines).length + 1) :=
    fun hfew => block_lines_closed nl lines e toks pos rest fuel hnl hwf he hfew hdrop hfuel
  have h2 : ∀ hmany : 10000 < lines.length,
      parse_block fuel toks pos =
        Outcome.error "Too many statements parsed without encountering 'end'"
          (pos + (linesTokens nl (lines.take 10000)).length +
            (lines.get ⟨10000, hmany⟩).consumed) :=
    fun hmany => block_lines_too_many nl lines toks pos (e :: rest) fuel hnl hwf hmany hdrop
      (by omega)
  refine ⟨h1, h2, ?_⟩
  constructor
  · rintro ⟨body, q, h, _⟩
    by_contra hne
    rw [h2 (by omega)] at h
    cases h
  · intro hfew
    exact ⟨_, _, h1 hfew, List.length_map _ _⟩

/-- Witness of C19: the block `set x` newline `end`. -/
theorem guard_rejects_closed_blocks_witness :
    parse_block 3 [setToken, ident "x", newlineToken, endToken] 0 =
      Outcome.ok [Statement.SetStatement "x"] 4 :=
  (guard_rejects_closed_blocks newlineToken [SimpleLine.set (ident "x")] endToken
    [setToken, ident "x", newlineToken, endToken] 0 [] 3 rfl
    (fun l hl => by
      rw [List.mem_singleton.mp hl]
      exact rfl)
    (by decide) rfl (by decide)).1 (by decide)

/-- C20, the code at the failing input `start:` / `  for i from 1 to 3:` / `    say i` /
`  end` / `end`: the `for` line is not an opener for the analyzer, so the `end` of the
loop pops the width of `start:` and is reported as a mismatch, and the `end` of `start:`
finds the stack empty.  The parser takes the tokens of these lines for a `start` block
that holds the `for` loop, each closed by its own `end`. -/
theorem analyzer_for_false_positive :
    check_indentation "start:\n  for i from 1 to 3:\n    say i\n  end\nend\n" =
      [Diagnostic.endMismatch 4 0 2, Diagnostic.endWithoutBlock 5] ∧
    isOpener (trim "  for i from 1 to 3:".toList) = false ∧
    parse [kw "start", colonToken, newlineToken, kw "for", ident "i", kw "from", ident "1",
        kw "to", ident "3", colonToken, newlineToken, sayToken, ident "i", newlineToken,
        endToken, newlineToken, endToken, newlineToken] =
      Outcome.ok { statements := [Statement.StartBlock [Statement.ForStatement "i" 1 3
        [Statement.SayStatement ["i"] [true] "\\n"]]] } 18 :=
  ⟨by decide, by decide, rfl⟩

end HerLang
